import Mathlib

/-!
# Verification of the yu-news-hub build pipeline

Shallow embedding of `scripts/build.py`: the ingestion, normalization,
deduplication and topic-clustering pipeline, together with proofs about it.

Strings are modelled as Lean `String`/`List Char`; bytes as `Nat` values
below 256; Python `float` arithmetic is modelled over `ℚ`; machine-level
32-bit arithmetic in the hash uses explicit reduction modulo `2 ^ 32`.
-/

namespace NewsHub

/-! ## Byte and character utilities -/

/-- The 32-bit truncation used throughout SHA-1. -/
def w32 (n : Nat) : Nat := n % 4294967296

/-- Left rotation of a 32-bit word. -/
def rotl (b n : Nat) : Nat := w32 ((n <<< b) ||| (n >>> (32 - b)))

/-- UTF-8 encoding of a single character, as a list of bytes
(model of Python `str.encode("utf-8")` per character). -/
def utf8Char (c : Char) : List Nat :=
  let n := c.toNat
  if n < 128 then [n]
  else if n < 2048 then [192 ||| (n >>> 6), 128 ||| (n &&& 63)]
  else if n < 65536 then
    [224 ||| (n >>> 12), 128 ||| ((n >>> 6) &&& 63), 128 ||| (n &&& 63)]
  else
    [240 ||| (n >>> 18), 128 ||| ((n >>> 12) &&& 63),
     128 ||| ((n >>> 6) &&& 63), 128 ||| (n &&& 63)]

/-- UTF-8 encoding of a character list. -/
def utf8List (l : List Char) : List Nat := (l.map utf8Char).flatten

/-- UTF-8 encoding of a string (model of `s.encode("utf-8", errors="ignore")`;
Lean characters are exactly the scalar values, so nothing is ever ignored). -/
def utf8Str (s : String) : List Nat := utf8List s.data

/-- Lower-case hexadecimal digit. -/
def hexDigit (n : Nat) : Char :=
  if n < 10 then Char.ofNat (48 + n) else Char.ofNat (97 + (n - 10))

/-- Upper-case hexadecimal digit. -/
def hexDigitU (n : Nat) : Char :=
  if n < 10 then Char.ofNat (48 + n) else Char.ofNat (65 + (n - 10))

/-! ## SHA-1 (model of `hashlib.sha1(...).hexdigest()`) -/

/-- SHA-1 message padding: append `0x80`, zeros, and the 64-bit big-endian
bit length so the total length is a multiple of 64 bytes. -/
def sha1Pad (msg : List Nat) : List Nat :=
  let len := msg.length
  let padZeros := (119 - len % 64) % 64
  msg ++ [128] ++ List.replicate padZeros 0 ++
    (List.range 8).map (fun i => ((len * 8) >>> (8 * (7 - i))) % 256)

/-- Split a byte list into 64-byte chunks (`fuel` bounds the recursion). -/
def chunks64 : Nat → List Nat → List (List Nat)
  | 0, _ => []
  | _, [] => []
  | fuel + 1, l => l.take 64 :: chunks64 fuel (l.drop 64)

/-- Big-endian 32-bit word from the first four bytes of a list. -/
def beWord (l : List Nat) : Nat :=
  (l.getD 0 0) <<< 24 ||| (l.getD 1 0) <<< 16 ||| (l.getD 2 0) <<< 8 ||| l.getD 3 0

/-- Extend the 16 message words to the 80 words of the SHA-1 schedule. -/
def sha1Extend (w16 : List Nat) : List Nat :=
  (List.range 64).foldl
    (fun w _ =>
      w ++ [rotl 1 ((w.getD (w.length - 3) 0) ^^^ (w.getD (w.length - 8) 0) ^^^
                    (w.getD (w.length - 14) 0) ^^^ (w.getD (w.length - 16) 0))])
    w16

/-- One SHA-1 compression round. -/
def sha1Round (st : Nat × Nat × Nat × Nat × Nat) (iw : Nat × Nat) :
    Nat × Nat × Nat × Nat × Nat :=
  let (a, b, c, d, e) := st
  let (i, w) := iw
  let fk : Nat × Nat :=
    if i < 20 then ((b &&& c) ||| ((4294967295 ^^^ b) &&& d), 1518500249)
    else if i < 40 then (b ^^^ c ^^^ d, 1859775393)
    else if i < 60 then ((b &&& c) ||| (b &&& d) ||| (c &&& d), 2400959708)
    else (b ^^^ c ^^^ d, 3395469782)
  let temp := w32 (rotl 5 a + fk.1 + e + fk.2 + w)
  (temp, a, rotl 30 b, c, d)

/-- Process one 64-byte block. -/
def sha1Block (h : Nat × Nat × Nat × Nat × Nat) (block : List Nat) :
    Nat × Nat × Nat × Nat × Nat :=
  let w16 := (List.range 16).map (fun i => beWord (block.drop (4 * i)))
  let ws := sha1Extend w16
  let (a, b, c, d, e) :=
    (ws.zip (List.range 80)).foldl (fun st p => sha1Round st (p.2, p.1)) h
  let (h0, h1, h2, h3, h4) := h
  (w32 (h0 + a), w32 (h1 + b), w32 (h2 + c), w32 (h3 + d), w32 (h4 + e))

/-- Eight lower-case hex digits of a 32-bit word. -/
def wordHex (w : Nat) : List Char :=
  (List.range 8).map (fun i => hexDigit ((w >>> (4 * (7 - i))) % 16))

/-- Model of `sha1(s)` from `build.py`: the lower-case 40-character
hex digest of the UTF-8 encoding of `s`. -/
def sha1 (s : String) : String :=
  let msg := sha1Pad (utf8Str s)
  let (h0, h1, h2, h3, h4) :=
    (chunks64 msg.length msg).foldl sha1Block
      (1732584193, 4023233417, 2562383102, 271733878, 3285377520)
  String.mk (wordHex h0 ++ wordHex h1 ++ wordHex h2 ++ wordHex h3 ++ wordHex h4)

/-! ## URL canonicalization (model of `canonicalize_url` and the
`urllib.parse` functions it calls) -/

/-- ASCII letter test (model of `c.isascii() and c.isalpha()`). -/
def isAsciiAlphaCh (c : Char) : Bool :=
  (97 ≤ c.toNat && c.toNat ≤ 122) || (65 ≤ c.toNat && c.toNat ≤ 90)

/-- ASCII digit test. -/
def isDigitCh (c : Char) : Bool := 48 ≤ c.toNat && c.toNat ≤ 57

/-- ASCII lower-casing of one character. -/
def asciiLowerCh (c : Char) : Char :=
  if 65 ≤ c.toNat && c.toNat ≤ 90 then Char.ofNat (c.toNat + 32) else c

/-- Characters allowed in a URL scheme (`urllib.parse.scheme_chars`). -/
def schemeChar (c : Char) : Bool :=
  isAsciiAlphaCh c || isDigitCh c || c = '+' || c = '-' || c = '.'

/-- Characters that do not terminate the network-location part. -/
def netlocChar (c : Char) : Bool := !(c = '/' || c = '?' || c = '#')

/-- Split a character list at the first occurrence of `sep`;
the second component is `none` when `sep` does not occur. -/
def splitAtFirstCh (sep : Char) : List Char → List Char × Option (List Char)
  | [] => ([], none)
  | c :: t =>
    if c = sep then ([], some t)
    else
      let r := splitAtFirstCh sep t
      (c :: r.1, r.2)

/-- Like `str.partition(sep)` keeping only the outer pieces: the part before
the first `sep` and the part after it (empty when `sep` does not occur). -/
def splitOpt (sep : Char) (l : List Char) : List Char × List Char :=
  match splitAtFirstCh sep l with
  | (a, some b) => (a, b)
  | (a, none) => (a, [])

/-- Scheme detection of `urllib.parse.urlsplit`: the part before the first
colon is a scheme when it is non-empty, starts with an ASCII letter and
consists of scheme characters; it is then lower-cased. -/
def schemeSplit (u : List Char) : List Char × List Char :=
  match splitAtFirstCh ':' u with
  | (pre, some rest) =>
    match pre with
    | [] => ([], u)
    | c :: _ =>
      if isAsciiAlphaCh c && pre.all schemeChar then (pre.map asciiLowerCh, rest)
      else ([], u)
  | (_, none) => ([], u)

/-- The five components produced by `urllib.parse.urlsplit`. -/
structure UrlParts where
  scheme : List Char
  netloc : List Char
  path : List Char
  query : List Char
  fragment : List Char
deriving DecidableEq, Repr

/-- The total splitting core of `urllib.parse.urlsplit` on an
already-cleaned URL (scheme, then `//netloc`, then the fragment after the
first `#`, then the query after the first `?`). The WHATWG cleanup and the
raising netloc validation of Python 3.11 are modeled on top of it in
`urlsplitE`. -/
def splitUrl (u : String) : UrlParts :=
  let s1 := schemeSplit u.data
  let nl :=
    if s1.2.take 2 = ['/', '/'] then
      ((s1.2.drop 2).takeWhile netlocChar, (s1.2.drop 2).dropWhile netlocChar)
    else ([], s1.2)
  let fr := splitOpt '#' nl.2
  let pq := splitOpt '?' fr.1
  ⟨s1.1, nl.1, pq.1, pq.2, fr.2⟩

/-- The schemes of `urllib.parse.uses_netloc` (Python 3.11). -/
def usesNetloc : List (List Char) :=
  (["", "ftp", "http", "gopher", "nntp", "telnet", "imap", "wais", "file",
    "mms", "https", "shttp", "snews", "prospero", "rtsp", "rtsps", "rtspu",
    "rsync", "svn", "svn+ssh", "sftp", "nfs", "git", "git+ssh", "ws",
    "wss"]).map String.data

/-- Model of `urllib.parse.urlunsplit` (Python 3.11: the `//` authority part
is emitted when the netloc is non-empty, or when the scheme is a
netloc-using scheme and the path does not already begin with `//`). -/
def unsplitUrl (p : UrlParts) : List Char :=
  let url := p.path
  let url :=
    if p.netloc ≠ [] ∨ (p.scheme ≠ [] ∧ p.scheme ∈ usesNetloc ∧ p.path.take 2 ≠ ['/', '/']) then
      '/' :: '/' :: p.netloc ++ (if url ≠ [] ∧ url.take 1 ≠ ['/'] then '/' :: url else url)
    else url
  let url := if p.scheme ≠ [] then p.scheme ++ ':' :: url else url
  let url := if p.query ≠ [] then url ++ '?' :: p.query else url
  if p.fragment ≠ [] then url ++ '#' :: p.fragment else url

/-- Hexadecimal digit test on a byte. -/
def isHexByte (b : Nat) : Bool :=
  (48 ≤ b && b ≤ 57) || (97 ≤ b && b ≤ 102) || (65 ≤ b && b ≤ 70)

/-- Value of a hexadecimal digit byte. -/
def hexByteVal (b : Nat) : Nat :=
  if b ≤ 57 then b - 48 else if b ≤ 70 then b - 55 else b - 87

/-- Percent-decoding at the byte level (model of `urllib.parse.unquote`:
a `%` followed by two hex digits yields that byte, otherwise `%` is kept). -/
def percentDecode : List Nat → List Nat
  | 37 :: a :: b :: rest =>
    if isHexByte a && isHexByte b then
      (16 * hexByteVal a + hexByteVal b) :: percentDecode rest
    else 37 :: percentDecode (a :: b :: rest)
  | c :: rest => c :: percentDecode rest
  | [] => []

/-- Decoding of one query component as done by `parse_qsl` with
`keep_blank_values=True`: `+` becomes a space, then percent-decode.
The result is a byte list (the UTF-8 view of the decoded text). -/
def unquotePlus (cs : List Char) : List Nat :=
  percentDecode ((utf8List cs).map (fun b => if b = 43 then 32 else b))

/-- Bytes that `urllib.parse.quote` leaves unescaped with `safe=""`. -/
def safeByte (b : Nat) : Bool :=
  (48 ≤ b && b ≤ 57) || (65 ≤ b && b ≤ 90) || (97 ≤ b && b ≤ 122) ||
    b = 45 || b = 46 || b = 95 || b = 126

/-- Model of `urllib.parse.quote_plus` with `safe=""` on a byte list:
space becomes `+`, safe bytes stay, the rest is `%XX`-escaped. -/
def quotePlus (bs : List Nat) : List Char :=
  (bs.map (fun b =>
    if b = 32 then ['+']
    else if safeByte b then [Char.ofNat b]
    else ['%', hexDigitU (b / 16), hexDigitU (b % 16)])).flatten

/-- `str.split(sep)` on a character list (empty input gives one empty piece). -/
def splitOnChar (sep : Char) : List Char → List (List Char)
  | [] => [[]]
  | c :: t =>
    if c = sep then [] :: splitOnChar sep t
    else
      match splitOnChar sep t with
      | [] => [[c]]
      | h :: r => (c :: h) :: r

/-- Model of `urllib.parse.parse_qsl(query, keep_blank_values=True)`:
split on `&`, drop empty pieces, split each piece at the first `=`
(missing value becomes empty), and decode name and value. -/
def parse_qsl (q : List Char) : List (List Nat × List Nat) :=
  (splitOnChar '&' q).filterMap (fun piece =>
    if piece = [] then none
    else
      let nv := splitOpt '=' piece
      some (unquotePlus nv.1, unquotePlus nv.2))

/-- ASCII lower-casing of a byte. -/
def byteLower (b : Nat) : Nat := if 65 ≤ b && b ≤ 90 then b + 32 else b

/-- The tracking-parameter patterns of `TRACKING_PARAMS_RE`, as UTF-8 bytes. -/
def trackingPats : List (List Nat) :=
  (["utm_", "spm", "from", "share", "mkt_", "mc_"]).map utf8Str

/-- Model of `TRACKING_PARAMS_RE.match(k)`: case-insensitive prefix test. -/
def matchesTracking (k : List Nat) : Bool :=
  trackingPats.any (fun p => p.isPrefixOf (k.map byteLower))

/-- Model of `urllib.parse.urlencode(q, doseq=True)` for string pairs. -/
def urlencodeQ (pairs : List (List Nat × List Nat)) : List Char :=
  List.intercalate ['&'] (pairs.map (fun kv => quotePlus kv.1 ++ '=' :: quotePlus kv.2))

/-- The WHATWG preprocessing of `urlsplit` (Python 3.11): strip leading C0
controls and spaces, then drop every tab, carriage return and line feed. -/
def whatwgClean (l : List Char) : List Char :=
  (l.dropWhile (fun c => c.toNat ≤ 32)).filter
    (fun c => !(c = '\t' || c = '\r' || c = '\n'))

/-- ASCII hexadecimal digit character (`string.hexdigits`). -/
def isHexCh (c : Char) : Bool :=
  (48 ≤ c.toNat && c.toNat ≤ 57) || (97 ≤ c.toNat && c.toNat ≤ 102) ||
    (65 ≤ c.toNat && c.toNat ≤ 70)

/-- Decimal value of a digit list (for the octet bound check). -/
def octetVal (s : List Char) : Nat := s.foldl (fun a c => 10 * a + (c.toNat - 48)) 0

/-- Validity test of `ipaddress.IPv4Address._parse_octet`: a non-empty
all-digit string of at most 3 characters, without leading zeros, whose
value is at most 255. -/
def octetOk : List Char → Bool
  | [] => false
  | c :: t =>
    (c :: t).all isDigitCh && decide ((c :: t).length ≤ 3) &&
      (decide (c :: t = ['0']) || !(decide (c = '0'))) &&
      decide (octetVal (c :: t) ≤ 255)

/-- Validity test of `ipaddress.IPv4Address` on a string: no `/`,
non-empty, and exactly four valid octets separated by dots. -/
def ipv4Ok (s : List Char) : Bool :=
  !s.contains '/' && !s.isEmpty &&
    (let octs := splitOnChar '.' s
     decide (octs.length = 4) && octs.all octetOk)

/-- Validity test of `ipaddress._BaseV6._parse_hextet`: 1 to 4 hex
digits. -/
def hextetOk (s : List Char) : Bool :=
  s.all isHexCh && decide (s.length ≤ 4) && !s.isEmpty

/-- The hextet-count analysis of `ipaddress._BaseV6._ip_int_from_string`
after the IPv4-suffix conversion: at most 9 parts, at most one empty part
strictly inside (the `::`), endpoint empties only adjacent to it, at most
7 explicit hextets around a `::` (else exactly 8), all hextets valid. -/
def ipv6PartsOk (parts : List (List Char)) : Bool :=
  decide (parts.length ≤ 9) &&
    (let n := parts.length
     let mids := (parts.drop 1).take (n - 2)
     let emptyCount := mids.countP (fun p => p.isEmpty)
     if emptyCount = 0 then
       decide (n = 8) && !(parts.getD 0 []).isEmpty && !(parts.getLastD []).isEmpty &&
         parts.all hextetOk
     else if emptyCount = 1 then
       let skip := mids.findIdx (fun p => p.isEmpty) + 1
       let hi := if (parts.getD 0 []).isEmpty then skip - 1 else skip
       let lo := if (parts.getLastD []).isEmpty then n - skip - 2 else n - skip - 1
       (!(parts.getD 0 []).isEmpty || decide (hi = 0)) &&
         (!(parts.getLastD []).isEmpty || decide (lo = 0)) &&
         decide (hi + lo ≤ 7) &&
         (parts.take hi).all hextetOk && (parts.drop (n - lo)).all hextetOk
     else false)

/-- The colon-part analysis of `ipaddress._BaseV6._ip_int_from_string`:
non-empty, at least 3 colon-separated parts, a dotted last part must be a
valid IPv4 address and counts as two hextets. -/
def ipv6CoreOk (addr : List Char) : Bool :=
  !addr.isEmpty &&
    (let parts := splitOnChar ':' addr
     decide (3 ≤ parts.length) &&
       (let lastP := parts.getLastD []
        if lastP.contains '.' then
          ipv4Ok lastP && ipv6PartsOk (parts.dropLast ++ [['0'], ['0']])
        else ipv6PartsOk parts))

/-- Validity test of `ipaddress.IPv6Address` on a string: no `/`, an
optional non-empty `%`-free scope id after the first `%`, and a valid
address core. -/
def ipv6Ok (s : List Char) : Bool :=
  !s.contains '/' &&
    (if s.contains '%' then
       let sc := splitOpt '%' s
       !sc.2.isEmpty && !sc.2.contains '%' && ipv6CoreOk sc.1
     else ipv6CoreOk s)

/-- Model of `re.match(r"\Av[a-fA-F0-9]+\..+\Z", h)`: `v`, hex digits, a
dot, then at least one character (none of them a line feed). -/
def ipvFutureOk : List Char → Bool
  | [] => false
  | c :: t =>
    decide (c = 'v') &&
      (let h := t.takeWhile isHexCh
       !h.isEmpty &&
         (match t.drop h.length with
          | '.' :: rest => !rest.isEmpty && rest.all (fun x => !(x = '\n'))
          | _ => false))

/-- Model of `_check_bracketed_host` as a validity test: an IPvFuture
literal when the host starts with `v`, else a string `ipaddress.ip_address`
accepts that is not an IPv4 address. -/
def bracketedHostOk (h : List Char) : Bool :=
  match h with
  | 'v' :: _ => ipvFutureOk h
  | _ => !ipv4Ok h && ipv6Ok h

/-- The code points whose NFKC normalization contains one of `/?#@:`
(computed from the Unicode data Python 3.11 uses). `_checknetloc` rejects a
non-ASCII netloc exactly when, after discarding `@:#?`, it contains one of
them: a netloc never contains `/`, `?` or `#`, those five characters arise
under NFKC only from the compatibility decomposition of a single such code
point, and producing one forces the normalization to differ. -/
def nfkcForbidden : List Nat :=
  [8263, 8264, 8265, 8448, 8449, 8453, 8454, 10868,
   65043, 65046, 65109, 65110, 65119, 65131, 65283, 65295, 65306, 65311, 65312]

/-- Model of `_checknetloc`: an empty or all-ASCII netloc passes; otherwise
the netloc without `@:#?` must contain no NFKC-expanding code point. -/
def checknetlocOk (netloc : List Char) : Bool :=
  netloc.isEmpty || netloc.all (fun c => c.toNat ≤ 127) ||
    (netloc.filter (fun c => !(c = '@' || c = ':' || c = '#' || c = '?'))).all
      (fun c => !nfkcForbidden.contains c.toNat)

/-- Model of `urllib.parse.urlsplit` with its Python 3.11 failure paths:
WHATWG cleanup, the total split, then the raising checks — unbalanced
brackets, an invalid bracketed host, and the NFKC netloc check. The checks
depend only on the netloc, which the later fragment and query splits do not
touch, so they are gathered after the total split. -/
def urlsplitE (u : String) : Except String UrlParts :=
  let parts := splitUrl (String.mk (whatwgClean u.data))
  if (('[') ∈ parts.netloc ∧ (']') ∉ parts.netloc) ∨
      ((']') ∈ parts.netloc ∧ ('[') ∉ parts.netloc) then
    .error "Invalid IPv6 URL"
  else if ('[') ∈ parts.netloc ∧ (']') ∈ parts.netloc then
    if bracketedHostOk (splitOpt ']' (splitOpt '[' parts.netloc).2).1 then
      if checknetlocOk parts.netloc then .ok parts
      else .error "netloc contains invalid characters under NFKC normalization"
    else .error "invalid bracketed host"
  else
    if checknetlocOk parts.netloc then .ok parts
    else .error "netloc contains invalid characters under NFKC normalization"

/-- Model of `canonicalize_url`: split the URL, drop every query parameter
whose decoded key matches a tracking pattern, re-encode the remaining
parameters and reassemble; when `urlsplit` raises, the `except Exception`
fallback returns the input unchanged. -/
def canonicalize_url (url : String) : String :=
  match urlsplitE url with
  | .error _ => url
  | .ok parts =>
    let q := (parse_qsl parts.query).filter (fun kv => !matchesTracking kv.1)
    String.mk (unsplitUrl { parts with query := urlencodeQ q })

/-! ## HTML stripping (model of `clean_html`) -/

/-- Python regex whitespace, restricted to the ASCII range. -/
def isSpaceCh (c : Char) : Bool :=
  c = ' ' || c = '\t' || c = '\n' || c = '\r' || c = '\x0b' || c = '\x0c'

/-- Case-insensitive prefix test against an already lower-case pattern. -/
def prefixCI : List Char → List Char → Bool
  | [], _ => true
  | _ :: _, [] => false
  | p :: ps, c :: cs => (asciiLowerCh c = p) && prefixCI ps cs

/-- First case-insensitive occurrence of `pat`: returns the part before it
and the suffix beginning with the occurrence. -/
def findCI (pat : List Char) : List Char → Option (List Char × List Char)
  | [] => if prefixCI pat [] then some ([], []) else none
  | c :: t =>
    if prefixCI pat (c :: t) then some ([], c :: t)
    else
      match findCI pat t with
      | some r => some (c :: r.1, r.2)
      | none => none

/-- Model of `re.sub(opener + ".*?>.*?" + closer, "", text, flags=re.S|re.I)`
as used for the script and style blocks: find the opener, the first `>`
after it, then the first closer after that, delete the whole span and
continue; when either is missing no further match exists and the rest is
kept unchanged. -/
def stripBlock (opener closer : List Char) : Nat → List Char → List Char
  | 0, l => l
  | fuel + 1, l =>
    match findCI opener l with
    | none => l
    | some (before, occ) =>
      match splitAtFirstCh '>' (occ.drop opener.length) with
      | (_, none) => l
      | (_, some rest2) =>
        match findCI closer rest2 with
        | none => l
        | some (_, occ2) => before ++ stripBlock opener closer fuel (occ2.drop closer.length)

/-- Model of `re.sub(r"<[^>]+>", " ", text)`: a `<` followed by at least one
non-`>` character and a `>` is replaced by one space; other characters,
including an immediate `<>` pair, are kept. -/
def subTags : Nat → List Char → List Char
  | 0, l => l
  | _ + 1, [] => []
  | fuel + 1, c :: rest =>
    if c = '<' then
      match splitAtFirstCh '>' rest with
      | (mid, some r2) =>
        if mid ≠ [] then ' ' :: subTags fuel r2
        else c :: subTags fuel rest
      | (_, none) => c :: subTags fuel rest
    else c :: subTags fuel rest

/-- Model of `re.sub(r"\s+", " ", text)`: collapse whitespace runs to one
space (`prevSp` tracks whether the previous character was whitespace). -/
def collapseGo : Bool → List Char → List Char
  | _, [] => []
  | prevSp, c :: t =>
    if isSpaceCh c then
      if prevSp then collapseGo true t else ' ' :: collapseGo true t
    else c :: collapseGo false t

/-- Model of `str.strip()`. -/
def pyStrip (l : List Char) : List Char :=
  ((l.dropWhile isSpaceCh).reverse.dropWhile isSpaceCh).reverse

/-- `str.strip()` on strings. -/
def pyStripStr (s : String) : String := String.mk (pyStrip s.data)

/-- Model of `clean_html`: remove script and style blocks, replace remaining
tags by spaces, collapse whitespace and strip. -/
def clean_html (text : String) : String :=
  if text = "" then ""
  else
    let l1 := stripBlock "<script".data "</script>".data (text.data.length + 1) text.data
    let l2 := stripBlock "<style".data "</style>".data (l1.length + 1) l1
    let l3 := subTags (l2.length + 1) l2
    String.mk (pyStrip (collapseGo false l3))

/-! ## Timestamps

`dateutil.parser.parse` is modelled on the ISO-8601 subset the pipeline
itself produces and consumes (`datetime.isoformat` output and sitemap
dates); other inputs are reported as unparseable. -/

/-- Decimal digit value. -/
def digitVal (c : Char) : Nat := c.toNat - 48

/-- Numeric value of a digit list. -/
def natOfDigits (l : List Char) : Nat := l.foldl (fun a c => 10 * a + digitVal c) 0

/-- Read exactly `n` digits. -/
def takeDigits (n : Nat) (l : List Char) : Option (Nat × List Char) :=
  let pre := l.take n
  if pre.length = n && pre.all isDigitCh then some (natOfDigits pre, l.drop n) else none

/-- Gregorian leap year. -/
def isLeap (y : Nat) : Bool := (y % 4 = 0 && y % 100 ≠ 0) || y % 400 = 0

/-- Days in a month. -/
def daysInMonth (y m : Nat) : Nat :=
  if m = 2 then (if isLeap y then 29 else 28)
  else if m = 4 ∨ m = 6 ∨ m = 9 ∨ m = 11 then 30 else 31

/-- Days since 1970-01-01 of a civil date (valid for years ≥ 1). -/
def daysFromCivil (y m d : Nat) : Int :=
  let y1 := if m ≤ 2 then y - 1 else y
  let era := y1 / 400
  let yoe := y1 - era * 400
  let mp := (m + 9) % 12
  let doy := (153 * mp + 2) / 5 + d - 1
  let doe := yoe * 365 + yoe / 4 - yoe / 100 + doy
  (era * 146097 + doe : Int) - 719468

/-- Civil date from days since 1970-01-01 (valid for days ≥ -719468). -/
def civilFromDays (z : Int) : Nat × Nat × Nat :=
  let z1 := (z + 719468).toNat
  let era := z1 / 146097
  let doe := z1 % 146097
  let yoe := (doe - doe / 1460 + doe / 36524 - doe / 146096) / 365
  let y := yoe + era * 400
  let doy := doe - (365 * yoe + yoe / 4 - yoe / 100)
  let mp := (5 * doy + 2) / 153
  let d := doy - (153 * mp + 2) / 5 + 1
  let m := if mp < 10 then mp + 3 else mp - 9
  (if m ≤ 2 then y + 1 else y, m, d)

/-- Validity of a civil datetime, as enforced by `datetime.datetime`. -/
def civilOk (y m d h mi s : Nat) : Bool :=
  1 ≤ y && y ≤ 9999 && 1 ≤ m && m ≤ 12 && 1 ≤ d && d ≤ daysInMonth y m &&
    h < 24 && mi < 60 && s < 60

/-- Epoch seconds of a civil datetime. -/
def epochOf (y m d h mi s : Nat) : Int :=
  daysFromCivil y m d * 86400 + h * 3600 + mi * 60 + s

/-- Parse the trailing timezone offset: nothing (naive, taken as UTC, as the
callers do via `replace(tzinfo=utc)`), `Z`, or `±HH:MM`/`±HHMM`. Returns the
offset in seconds. -/
def parseOffset : List Char → Option Int
  | [] => some 0
  | ['Z'] => some 0
  | ['z'] => some 0
  | c :: rest =>
    if c = '+' ∨ c = '-' then
      match takeDigits 2 rest with
      | none => none
      | some (h, r1) =>
        let r2 := if r1.take 1 = [':'] then r1.drop 1 else r1
        match takeDigits 2 r2 with
        | none => none
        | some (mi, r3) =>
          if r3 = [] ∧ h < 24 ∧ mi < 60 then
            let off : Int := h * 3600 + mi * 60
            some (if c = '-' then -off else off)
          else none
    else none

/-- Model of `dateutil.parser.parse` followed by conversion to a UTC epoch,
restricted to ISO-8601 dates and datetimes (the formats the pipeline
round-trips through `datetime.isoformat`). -/
def pyDateParse (s : String) : Option Int :=
  match takeDigits 4 s.data with
  | none => none
  | some (y, r1) =>
    match r1 with
    | '-' :: r2 =>
      match takeDigits 2 r2 with
      | none => none
      | some (m, r3) =>
        match r3 with
        | '-' :: r4 =>
          match takeDigits 2 r4 with
          | none => none
          | some (d, r5) =>
            match r5 with
            | [] => if civilOk y m d 0 0 0 then some (epochOf y m d 0 0 0) else none
            | sep :: r6 =>
              if sep = 'T' ∨ sep = ' ' then
                match takeDigits 2 r6 with
                | none => none
                | some (h, r7) =>
                  match r7 with
                  | ':' :: r8 =>
                    match takeDigits 2 r8 with
                    | none => none
                    | some (mi, r9) =>
                      match r9 with
                      | ':' :: r10 =>
                        match takeDigits 2 r10 with
                        | none => none
                        | some (sec, r11) =>
                          let r12 :=
                            if r11.take 1 = ['.'] then
                              ((r11.drop 1).dropWhile isDigitCh)
                            else r11
                          match parseOffset r12 with
                          | none => none
                          | some off =>
                            if civilOk y m d h mi sec then
                              some (epochOf y m d h mi sec - off)
                            else none
                      | _ => none
                  | _ => none
              else none
        | _ => none
    | _ => none

/-- One decimal digit character. -/
def digitCh (n : Nat) : Char := Char.ofNat (48 + n % 10)

/-- Decimal digits of a natural number (`fuel`-bounded recursion). -/
def natDigitsAux : Nat → Nat → List Char
  | 0, _ => []
  | fuel + 1, n => if n < 10 then [digitCh n] else natDigitsAux fuel (n / 10) ++ [digitCh (n % 10)]

/-- Decimal digits of a natural number. -/
def natDigits (n : Nat) : List Char := natDigitsAux (n + 1) n

/-- Two-digit zero-padded field. -/
def pad2 (n : Nat) : List Char := if n < 10 then ['0', digitCh n] else natDigits n

/-- Four-digit zero-padded field. -/
def pad4 (n : Nat) : List Char :=
  List.replicate (4 - (natDigits n).length) '0' ++ natDigits n

/-- Model of `datetime.isoformat()` for an aware UTC datetime with whole
seconds: `YYYY-MM-DDTHH:MM:SS+00:00`. -/
def isoOfEpoch (t : Int) : String :=
  let days := t.ediv 86400
  let sod := (t.emod 86400).toNat
  let c := civilFromDays days
  String.mk (pad4 c.1 ++ '-' :: pad2 c.2.1 ++ '-' :: pad2 c.2.2 ++
    'T' :: pad2 (sod / 3600) ++ ':' :: pad2 ((sod / 60) % 60) ++ ':' :: pad2 (sod % 60) ++
    "+00:00".data)

/-! ## Data model -/

/-- A feed descriptor (`FeedDef` in `build.py`). -/
structure FeedDef where
  id : String
  name : String
  url : String
  type : String
  region : String
  lang : String
  tags : List String
  weight : ℚ
deriving DecidableEq, Repr

/-- A normalized article record (the item dictionaries of `build.py`). -/
structure Item where
  id : String
  title : String
  link : String
  published : Option String
  source_id : String
  source : String
  region : String
  lang : String
  tags : List String
  weight : ℚ
  summary : String
deriving DecidableEq, Repr

/-- A parsed feed entry as `feedparser` presents it: every field the code
reads, each possibly absent. -/
structure Entry where
  link : Option String := none
  title : Option String := none
  published : Option String := none
  updated : Option String := none
  created : Option String := none
  pubDate : Option String := none
  published_parsed : Option (Nat × Nat × Nat × Nat × Nat × Nat) := none
  updated_parsed : Option (Nat × Nat × Nat × Nat × Nat × Nat) := none
  summary : Option String := none
  description : Option String := none
  subtitle : Option String := none
deriving DecidableEq, Repr

/-! ## Source adapters -/

/-- First textual date field that is present, non-empty and parseable
(the first loop of `parse_date`). -/
def tryParseText : List (Option String) → Option Int
  | [] => none
  | some s :: rest =>
    if s ≠ "" then
      match pyDateParse s with
      | some t => some t
      | none => tryParseText rest
    else tryParseText rest
  | none :: rest => tryParseText rest

/-- `datetime(*tp[:6], tzinfo=utc)`: `none` when the constructor would raise. -/
def tupleToEpoch (tp : Nat × Nat × Nat × Nat × Nat × Nat) : Option Int :=
  let (y, m, d, h, mi, s) := tp
  if civilOk y m d h mi s then some (epochOf y m d h mi s) else none

/-- First structured time tuple that yields a datetime
(the second loop of `parse_date`). -/
def tryParseTuples : List (Option (Nat × Nat × Nat × Nat × Nat × Nat)) → Option Int
  | [] => none
  | some tp :: rest =>
    match tupleToEpoch tp with
    | some t => some t
    | none => tryParseTuples rest
  | none :: rest => tryParseTuples rest

/-- Model of `parse_date`. -/
def parse_date (e : Entry) : Option Int :=
  match tryParseText [e.published, e.updated, e.created, e.pubDate] with
  | some t => some t
  | none => tryParseTuples [e.published_parsed, e.updated_parsed]

/-- First present non-empty value (the summary-selection loop). -/
def firstNonEmpty : List (Option String) → String
  | [] => ""
  | some s :: rest => if s ≠ "" then s else firstNonEmpty rest
  | none :: rest => firstNonEmpty rest

/-- Model of `parse_rss`, applied to the already-fetched entry list. -/
def parse_rss (feed : FeedDef) (entries : List Entry) (max_items : Nat) : List Item :=
  (entries.take max_items).filterMap (fun e =>
    let link := canonicalize_url (e.link.getD "")
    if link = "" then none
    else
      let dt := parse_date e
      let summary := clean_html (firstNonEmpty [e.summary, e.description, e.subtitle])
      some
        { id := sha1 (feed.id ++ "|" ++ link)
          title := clean_html (e.title.getD "")
          link := link
          published := dt.map isoOfEpoch
          source_id := feed.id
          source := feed.name
          region := feed.region
          lang := feed.lang
          tags := feed.tags
          weight := feed.weight
          summary := String.mk (summary.data.take 600) })

/-- A `<sitemap>` node of the sitemap index: the raw texts of its
`<loc>` and `<lastmod>` children. -/
structure SmRef where
  loc : Option String := none
  lastmod : Option String := none
deriving DecidableEq, Repr

/-- A `<url>` node of a child sitemap: the raw texts of its `<loc>`,
`<news:title>` and `<news:publication_date>` descendants. -/
structure SmUrl where
  loc : Option String := none
  title : Option String := none
  pub : Option String := none
deriving DecidableEq, Repr

/-- The external world as the sitemap adapter sees it: the outcome of
fetching and parsing the index, and of fetching and parsing each child. -/
structure ReutersData where
  indexResult : Except String (List SmRef)
  child : String → Except String (List SmUrl)

/-- Model of `_et_find_text`: the stripped text when the element exists and
its text is non-empty. -/
def etText (o : Option String) : Option String :=
  match o with
  | some t => if t ≠ "" then some (pyStripStr t) else none
  | none => none

/-- The lastmod timestamp of a sitemap reference (`none` when absent, empty
or unparseable). -/
def smLastmod (r : SmRef) : Option Int :=
  match etText r.lastmod with
  | some lm => if lm ≠ "" then pyDateParse lm else none
  | none => none

/-- Stable insertion of `x` into `l`, placing it before the first element
`y` with `prec x y` (used to model Python stable sorting). -/
def insStable {α : Type} (prec : α → α → Bool) (x : α) : List α → List α
  | [] => [x]
  | y :: t => if prec x y then x :: y :: t else y :: insStable prec x t

/-- Stable sort: the order of elements that `prec` does not separate is the
input order, as with Python `list.sort`. -/
def sortStable {α : Type} (prec : α → α → Bool) (l : List α) : List α :=
  l.foldl (fun acc x => insStable prec x acc) []

/-- Inner loop of the sitemap adapter over one child sitemap: skip entries
without a link or title, append the rest, stop once `max_items` items have
been accumulated. -/
def reutersCollect (tagOrder : List String → List String) (feed : FeedDef)
    (max_items : Nat) : List SmUrl → List Item → List Item
  | [], out => out
  | u :: rest, out =>
    match etText u.loc, etText u.title with
    | some link, some title =>
      if link = "" ∨ title = "" then reutersCollect tagOrder feed max_items rest out
      else
        let dt : Option Int :=
          match etText u.pub with
          | some p => if p ≠ "" then pyDateParse p else none
          | none => none
        let item : Item :=
          { id := sha1 (feed.id ++ "|" ++ link)
            title := pyStripStr title
            link := canonicalize_url (pyStripStr link)
            published := dt.map isoOfEpoch
            source_id := feed.id
            source := feed.name
            region := feed.region
            lang := feed.lang
            tags := tagOrder (feed.tags ++ ["Reuters"])
            weight := feed.weight
            summary := "" }
        let out1 := out ++ [item]
        if max_items ≤ out1.length then out1
        else reutersCollect tagOrder feed max_items rest out1
    | _, _ => reutersCollect tagOrder feed max_items rest out

/-- Outer loop of the sitemap adapter over the selected child sitemaps:
a failing child is skipped, and the loop stops once `max_items` items have
been accumulated. -/
def reutersChildren (tagOrder : List String → List String) (feed : FeedDef)
    (d : ReutersData) (max_items : Nat) : List (String × Option Int) → List Item → List Item
  | [], out => out
  | (loc, _) :: rest, out =>
    match d.child loc with
    | .error _ => reutersChildren tagOrder feed d max_items rest out
    | .ok urls =>
      let out1 := reutersCollect tagOrder feed max_items urls out
      if max_items ≤ out1.length then out1
      else reutersChildren tagOrder feed d max_items rest out1

/-- Model of `parse_reuters_news_sitemap_index`. `tagOrder` models the
enumeration order of the Python string set `set(feed.tags + ["Reuters"])`,
which depends on the interpreter hash seed. -/
def parse_reuters (tagOrder : List String → List String) (feed : FeedDef)
    (d : ReutersData) (max_items : Nat) : Except String (List Item) :=
  match d.indexResult with
  | .error e => .error e
  | .ok refs =>
    let sitemaps := refs.filterMap (fun r =>
      match etText r.loc with
      | none => none
      | some loc => if loc = "" then none else some (loc, smLastmod r))
    let sorted := sortStable
      (fun a b => decide ((b.2.getD 0 : Int) < (a.2.getD 0 : Int))) sitemaps
    .ok (reutersChildren tagOrder feed d max_items (sorted.take 6) [])

/-! ## Age filter, deduplication -/

/-- The predicate of `filter_by_age`: keep when `published` is absent or
empty, when it does not parse, or when it is at or after the cutoff
`now - max_age_days` days. -/
def keepByAge (max_age_days : Int) (now : Int) (it : Item) : Bool :=
  match it.published with
  | none => true
  | some p =>
    if p = "" then true
    else
      match pyDateParse p with
      | none => true
      | some t => decide (now - max_age_days * 86400 ≤ t)

/-- Model of `filter_by_age`. -/
def filter_by_age (items : List Item) (max_age_days : Int) (now : Int) : List Item :=
  items.filter (keepByAge max_age_days now)

/-- ASCII lower-casing of a string (model of `str.lower()` on the
pipeline's data). -/
def strLower (s : String) : String := String.mk (s.data.map asciiLowerCh)

/-- The dedup key: canonicalized link and lower-cased whitespace-collapsed
title, as in `dedupe`. -/
def dkey (it : Item) : String × String :=
  (canonicalize_url it.link, strLower (String.mk (pyStrip (collapseGo false it.title.data))))

/-- The loop of `dedupe`, carrying the set of keys seen so far. -/
def dedupeGo (seen : List (String × String)) : List Item → List Item
  | [] => []
  | it :: rest =>
    let k := dkey it
    if seen.contains k then dedupeGo seen rest
    else it :: dedupeGo (k :: seen) rest

/-- Model of `dedupe`. -/
def dedupe (items : List Item) : List Item := dedupeGo [] items

/-! ## Tokenizing, similarity, clustering -/

/-- A character matched by `WORD_RE` (`[A-Za-z0-9\u4e00-\u9fff]`). -/
def wordCh (c : Char) : Bool :=
  isAsciiAlphaCh c || isDigitCh c || (19968 ≤ c.toNat && c.toNat ≤ 40959)

/-- Maximal runs of word characters (`WORD_RE.findall`). -/
def findWords : Nat → List Char → List (List Char)
  | 0, _ => []
  | _ + 1, [] => []
  | fuel + 1, c :: t =>
    if wordCh c then (c :: t.takeWhile wordCh) :: findWords fuel (t.dropWhile wordCh)
    else findWords fuel t

/-- Model of `tokenize`: lower-case, extract word runs, keep tokens of
length at least 2. -/
def tokenize (title : String) : List String :=
  let lowered := title.data.map asciiLowerCh
  ((findWords (lowered.length + 1) lowered).map String.mk).filter (fun x => 2 ≤ x.length)

/-- Model of `jaccard` over exact rationals: 0 when either token set is
empty, otherwise intersection size over union size of the two sets. -/
def jaccard (a b : List String) : ℚ :=
  let sa := a.dedup
  let sb := b.dedup
  if sa = [] ∨ sb = [] then 0
  else
    let inter := (sa.filter (fun x => x ∈ sb)).length
    let union := (sa ++ sb.filter (fun x => x ∉ sa)).length
    if union = 0 then 0 else (inter : ℚ) / (union : ℚ)

/-- A cluster as maintained by `build_topics`; `sources` is the Python set
kept as its insertion-ordered list of distinct names. -/
structure Cluster where
  id : String
  headline : String
  tokens : List String
  items : List String
  sources : List String
  max_weight : ℚ
deriving DecidableEq, Repr

/-- A new singleton cluster. -/
def newCluster (it : Item) (toks : List String) : Cluster :=
  { id := String.mk ((sha1 ("topic|" ++ it.title)).data.take 12)
    headline := it.title
    tokens := toks
    items := [it.id]
    sources := [it.source]
    max_weight := it.weight }

/-- Membership update of a cluster: append the item id, add the source,
raise `max_weight`, and adopt the item's headline and tokens exactly when
its title is strictly longer. -/
def updateCluster (c : Cluster) (it : Item) (toks : List String) : Cluster :=
  { c with
    items := c.items ++ [it.id]
    sources := if it.source ∈ c.sources then c.sources else c.sources ++ [it.source]
    max_weight := max c.max_weight it.weight
    headline := if c.headline.length < it.title.length then it.title else c.headline
    tokens := if c.headline.length < it.title.length then toks else c.tokens }

/-- The cluster scan for one item: update the first cluster whose
similarity reaches 0.55, else append a new singleton cluster. -/
def assignGo (it : Item) (toks : List String) : List Cluster → List Cluster
  | [] => [newCluster it toks]
  | c :: rest =>
    if (11 : ℚ) / 20 ≤ jaccard toks c.tokens then updateCluster c it toks :: rest
    else c :: assignGo it toks rest

/-- The clustering pass of `build_topics`. -/
def buildClusters (items : List Item) : List Cluster :=
  items.foldl (fun cs it => assignGo it (tokenize it.title) cs) []

/-- Model of the `id_to_item` dictionary: the last item with a given id. -/
def lookupLast (items : List Item) (iid : String) : Option Item :=
  items.reverse.find? (fun it => it.id = iid)

/-- Newest parseable published timestamp among the cluster members
(the accumulation loop of `cluster_score`). -/
def newestOf (items : List Item) (ids : List String) : Option Int :=
  ids.foldl (fun acc iid =>
    match (lookupLast items iid).bind (fun it => it.published) with
    | none => acc
    | some p =>
      if p = "" then acc
      else
        match pyDateParse p with
        | none => acc
        | some t =>
          match acc with
          | none => some t
          | some cur => some (max cur t)) none

/-- The decay factor `1 / (1 + age_hours / 12)`. -/
def recencyOfAge (ageH : ℚ) : ℚ := 1 / (1 + ageH / 12)

/-- The recency factor of a cluster: decay of the newest member age,
clamped at zero, or the neutral 0.6 when no member has a timestamp. -/
def clusterRecency (items : List Item) (now : Int) (c : Cluster) : ℚ :=
  match newestOf items c.items with
  | some t => recencyOfAge (max 0 (((now - t : Int) : ℚ) / 3600))
  | none => 3 / 5

/-- The scoring formula
`count * (1 + 0.25 * (diversity - 1)) * recency * (0.9 + 0.1 * max_weight)`. -/
def scoreOf (count diversity : Nat) (recency mw : ℚ) : ℚ :=
  ((count : ℚ) * (1 + (1 / 4) * ((diversity : ℚ) - 1))) * recency * (9 / 10 + (1 / 10) * mw)

/-- Model of `cluster_score`. -/
def cluster_score (items : List Item) (now : Int) (c : Cluster) : ℚ :=
  scoreOf c.items.length c.sources.length (clusterRecency items now c) c.max_weight

/-- An output topic record. -/
structure Topic where
  id : String
  headline : String
  count : Nat
  sources : List String
  items : List String
  score : ℚ
deriving DecidableEq, Repr

/-- Python `round(x, 4)` over exact rationals: round half to even at four
decimal places. -/
def round4 (q : ℚ) : ℚ :=
  let n : Int := ⌊q * 10000⌋
  let fr : ℚ := q * 10000 - (n : ℚ)
  let r : Int :=
    if (1 : ℚ) / 2 < fr then n + 1
    else if fr < (1 : ℚ) / 2 then n
    else if n % 2 = 0 then n else n + 1
  (r : ℚ) / 10000

/-- Code-point lexicographic comparison (Python string `<`). -/
def listCharLt : List Char → List Char → Bool
  | [], [] => false
  | [], _ :: _ => true
  | _ :: _, [] => false
  | c :: cs, d :: ds => c.toNat < d.toNat || (c = d && listCharLt cs ds)

/-- Model of `sorted` on a list of strings. -/
def sortedStrings (l : List String) : List String :=
  sortStable (fun a b => listCharLt a.data b.data) l

/-- Model of `build_topics`: cluster, score, sort by score descending, keep
the top `top_k`, and emit each with its sources sorted and capped at 10 and
its member ids capped at 10. -/
def build_topics (items : List Item) (top_k : Nat) (now : Int) : List Topic :=
  let clusters := buildClusters items
  let scored := clusters.map (fun c => (c, cluster_score items now c))
  let ranked := sortStable (fun a b => decide (b.2 < a.2)) scored
  (ranked.take top_k).map (fun p =>
    { id := p.1.id
      headline := p.1.headline
      count := p.1.items.length
      sources := (sortedStrings p.1.sources).take 10
      items := p.1.items.take 10
      score := round4 p.2 })

/-! ## Orchestrator (model of `main` after fetching, up to serialization) -/

/-- A recorded per-feed failure. -/
structure Failure where
  feed : String
  url : String
  error : String
deriving DecidableEq, Repr

/-- What the world returns for one feed: the parsed entries its URL yields
to `feedparser`, and the sitemap fetch outcomes. -/
structure FeedData where
  entries : List Entry := []
  reuters : ReutersData := ⟨.ok [], fun _ => .ok []⟩

/-- Adapter dispatch on the descriptor type (the `if/elif/else` of `main`);
the result is the per-feed item list or the caught exception message. -/
def runFeed (tagOrder : List String → List String) (max_items : Nat)
    (f : FeedDef) (d : FeedData) : Except String (List Item) :=
  if f.type = "rss" then .ok (parse_rss f d.entries max_items)
  else if f.type = "reuters_news_sitemap_index" then parse_reuters tagOrder f d.reuters max_items
  else .ok []

/-- The fetch loop of `main`: accumulate items of successful feeds in feed
order and record a `Failure` for each failing feed. -/
def collectFeeds (tagOrder : List String → List String) (max_items : Nat) :
    List (FeedDef × FeedData) → List Item × List Failure
  | [] => ([], [])
  | (f, d) :: rest =>
    let r := collectFeeds tagOrder max_items rest
    match runFeed tagOrder max_items f d with
    | .ok its => (its ++ r.1, r.2)
    | .error e => (r.1, ⟨f.id, f.url, e⟩ :: r.2)

/-- The key `(published datetime, weight)` of the final item sort;
absent or unparseable dates are the epoch. -/
def sortKeyDt (it : Item) : Int :=
  match it.published with
  | none => 0
  | some p => if p = "" then 0 else (pyDateParse p).getD 0

/-- Strict precedence for the final descending stable item sort. -/
def precItem (a b : Item) : Bool :=
  decide (sortKeyDt b < sortKeyDt a) ||
    (decide (sortKeyDt a = sortKeyDt b) && decide (b.weight < a.weight))

/-- Model of `main` between fetching and serialization: collect per-feed
results, filter by age, dedupe, sort, build topics; returns the item list,
topic list and failure list. -/
def pipelineRun (tagOrder : List String → List String)
    (feeds : List (FeedDef × FeedData)) (max_age_days : Int)
    (max_items_per_feed : Nat) (now : Int) :
    List Item × List Topic × List Failure :=
  let cf := collectFeeds tagOrder max_items_per_feed feeds
  let items1 := filter_by_age cf.1 max_age_days now
  let items2 := dedupe items1
  let items3 := sortStable precItem items2
  (items3, build_topics items3 10 now, cf.2)

/-- A valid enumeration of a Python string set built from a list: the
result lists each member exactly once. -/
def IsSetOrder (f : List String → List String) : Prop :=
  ∀ l, (f l).Nodup ∧ ∀ x, x ∈ f l ↔ x ∈ l

/-- An item with its tags list emptied (every pipeline stage except the
sitemap tag assignment is insensitive to tags). -/
def scrubTags (it : Item) : Item := { it with tags := [] }

/-! ## Claim C6: the age filter -/

/-- A minimal item with a given published value, for the age-filter claim. -/
def itemAged (p : Option String) : Item :=
  { id := "t", title := "T", link := "http://e.com/a", published := p,
    source_id := "s", source := "S", region := "G", lang := "en",
    tags := [], weight := 1, summary := "" }

/-- `keepByAge` holds exactly when the published value is absent,
unparseable, or within the age window. -/
theorem keepByAge_iff (d now : Int) (it : Item) :
    keepByAge d now it = true ↔
      it.published = none ∨
        ∃ p, it.published = some p ∧
          (pyDateParse p = none ∨
            ∃ t, pyDateParse p = some t ∧ now - d * 86400 ≤ t) := by
  unfold keepByAge
  cases hp : it.published with
  | none => simp
  | some p =>
    by_cases hpe : p = ""
    · subst hpe
      have h0 : pyDateParse "" = none := rfl
      simp [h0]
    · cases hd : pyDateParse p with
      | none => simp [hpe, hd]
      | some t => simp [hpe, hd]

/-- **C6**: the age filter keeps an item iff its published timestamp is
absent, recorded but unparseable, or at or after `now` minus the age
window; with a 7-day window an item 8 days old is dropped, one 6 days old
is kept, and one with no published value is kept. -/
theorem c6_age_filter :
    (∀ (items : List Item) (d now : Int) (it : Item),
      it ∈ filter_by_age items d now ↔
        it ∈ items ∧
          (it.published = none ∨
            ∃ p, it.published = some p ∧
              (pyDateParse p = none ∨
                ∃ t, pyDateParse p = some t ∧ now - d * 86400 ≤ t))) ∧
    filter_by_age [itemAged (some "2023-12-24T00:00:00+00:00")] 7 1704067200 = [] ∧
    filter_by_age [itemAged (some "2023-12-26T00:00:00+00:00")] 7 1704067200
      = [itemAged (some "2023-12-26T00:00:00+00:00")] ∧
    ∀ (d now : Int), filter_by_age [itemAged none] d now = [itemAged none] := by
  refine ⟨?_, by decide, by decide, fun d now => rfl⟩
  intro items d now it
  rw [filter_by_age, List.mem_filter, keepByAge_iff]

/-! ## Claim C8: scoring monotonicity -/

/-- The recency factor is positive for non-negative ages. -/
theorem recencyOfAge_pos {a : ℚ} (h : 0 ≤ a) : 0 < recencyOfAge a := by
  unfold recencyOfAge
  have h1 : (0 : ℚ) < 1 + a / 12 := by linarith
  exact one_div_pos.mpr h1

/-- The recency factor strictly decreases with age. -/
theorem recencyOfAge_anti {a1 a2 : ℚ} (h0 : 0 ≤ a1) (h : a1 < a2) :
    recencyOfAge a2 < recencyOfAge a1 := by
  unfold recencyOfAge
  have h1 : (0 : ℚ) < 1 + a1 / 12 := by linarith
  have h2 : 1 + a1 / 12 < 1 + a2 / 12 := by linarith
  exact one_div_lt_one_div_of_lt h1 h2

/-- Every cluster recency the code computes is positive. -/
theorem clusterRecency_pos (items : List Item) (now : Int) (c : Cluster) :
    0 < clusterRecency items now c := by
  unfold clusterRecency
  cases newestOf items c.items with
  | none => norm_num
  | some t => exact recencyOfAge_pos (le_max_left 0 _)

/-- The diversity factor is monotone in the distinct-source count. -/
theorem divFactor_lt {d1 d2 : Nat} (h : d1 < d2) :
    1 + (1 / 4 : ℚ) * ((d1 : ℚ) - 1) < 1 + (1 / 4 : ℚ) * ((d2 : ℚ) - 1) := by
  have hc : (d1 : ℚ) < (d2 : ℚ) := by exact_mod_cast h
  linarith

/-- The diversity factor is positive. -/
theorem divFactor_pos (d : Nat) : (0 : ℚ) < 1 + (1 / 4 : ℚ) * ((d : ℚ) - 1) := by
  have hc : (0 : ℚ) ≤ (d : ℚ) := Nat.cast_nonneg d
  linarith

/-- **C8**: cluster scores are strictly monotone as specified: the recency
the code feeds into the formula is always positive; with count ≥ 1 and
weight ≥ 0, a larger distinct-source count gives a strictly larger score
(recency and weight held fixed); and a larger clamped age of the newest
member gives a strictly smaller score (count, diversity, weight fixed). -/
theorem c8_score_monotonicity :
    (∀ (items : List Item) (now : Int) (c : Cluster), 0 < clusterRecency items now c) ∧
    (∀ (count d1 d2 : Nat) (r mw : ℚ), 1 ≤ count → 0 ≤ mw → 0 < r → d1 < d2 →
      scoreOf count d1 r mw < scoreOf count d2 r mw) ∧
    (∀ (count d : Nat) (mw a1 a2 : ℚ), 1 ≤ count → 0 ≤ mw → 0 ≤ a1 → a1 < a2 →
      scoreOf count d (recencyOfAge a2) mw < scoreOf count d (recencyOfAge a1) mw) := by
  refine ⟨clusterRecency_pos, ?_, ?_⟩
  · intro count d1 d2 r mw hc hmw hr hd
    unfold scoreOf
    have hcount : (0 : ℚ) < (count : ℚ) := by exact_mod_cast hc
    have hg : (0 : ℚ) < 9 / 10 + 1 / 10 * mw := by linarith
    have h1 : (count : ℚ) * (1 + 1 / 4 * ((d1 : ℚ) - 1)) <
        (count : ℚ) * (1 + 1 / 4 * ((d2 : ℚ) - 1)) :=
      mul_lt_mul_of_pos_left (divFactor_lt hd) hcount
    exact mul_lt_mul_of_pos_right (mul_lt_mul_of_pos_right h1 hr) hg
  · intro count d mw a1 a2 hc hmw h0 ha
    unfold scoreOf
    have hcount : (0 : ℚ) < (count : ℚ) := by exact_mod_cast hc
    have hg : (0 : ℚ) < 9 / 10 + 1 / 10 * mw := by linarith
    have hcf : (0 : ℚ) < (count : ℚ) * (1 + 1 / 4 * ((d : ℚ) - 1)) :=
      mul_pos hcount (divFactor_pos d)
    exact mul_lt_mul_of_pos_right
      (mul_lt_mul_of_pos_left (recencyOfAge_anti h0 ha) hcf) hg

/-- Witness for C8 at concrete values. -/
theorem c8_score_monotonicity_witness :
    scoreOf 1 1 1 1 < scoreOf 1 2 1 1 ∧
      scoreOf 1 1 (recencyOfAge 2) 1 < scoreOf 1 1 (recencyOfAge 1) 1 :=
  ⟨c8_score_monotonicity.2.1 1 1 2 1 1 (le_refl 1) (by norm_num) (by norm_num)
      (by norm_num),
   c8_score_monotonicity.2.2 1 1 1 1 2 (le_refl 1) (by norm_num) (by norm_num)
      (by norm_num)⟩

/-! ## Claim C5: deduplication -/

/-- Specification shape of deduplication, following the spec's words: keep
the first item and drop every later item with the same key, then recurse
on what is left. -/
def dedupeSpec : List Item → List Item
  | [] => []
  | it :: rest => it :: dedupeSpec (rest.filter (fun x => !(dkey x == dkey it)))
termination_by l => l.length
decreasing_by
  simp only [List.length_cons]
  exact Nat.lt_succ_of_le (List.length_filter_le _ _)

/-- The dedup loop with an arbitrary seen set equals the specification
shape applied to the unseen items. -/
theorem dedupeGo_eq_spec (seen : List (String × String)) (l : List Item) :
    dedupeGo seen l = dedupeSpec (l.filter (fun it => !(seen.contains (dkey it)))) := by
  induction l generalizing seen with
  | nil => simp [dedupeGo, dedupeSpec]
  | cons it rest ih =>
    by_cases h : seen.contains (dkey it)
    · simp only [dedupeGo, h, if_true, List.filter_cons, Bool.not_true,
        Bool.false_eq_true, if_false]
      exact ih seen
    · simp only [dedupeGo, h, Bool.false_eq_true, if_false, List.filter_cons,
        Bool.not_false, if_true, dedupeSpec]
      rw [ih (dkey it :: seen), List.filter_filter]
      refine congrArg (fun l => it :: dedupeSpec l) (List.filter_congr ?_)
      intro x _
      have hbeq : (dkey x == dkey it) = decide (dkey x = dkey it) := by
        by_cases h : dkey x = dkey it <;> simp [h]
      simp [List.contains_cons, Bool.not_or, hbeq]

/-- The dedup loop output is a sublist of its input. -/
theorem dedupeGo_sublist (seen : List (String × String)) (l : List Item) :
    (dedupeGo seen l).Sublist l := by
  induction l generalizing seen with
  | nil => exact List.Sublist.refl []
  | cons it rest ih =>
    by_cases h : seen.contains (dkey it)
    · simp only [dedupeGo, h, if_true]
      exact (ih seen).cons it
    · simp only [dedupeGo, h, Bool.false_eq_true, if_false]
      exact (ih (dkey it :: seen)).cons₂ it

/-- An item used in the C5 examples. -/
def itemD (link title src : String) : Item :=
  { id := src ++ "|" ++ link, title := title, link := link, published := none,
    source_id := src, source := src, region := "G", lang := "en",
    tags := [], weight := 1, summary := "" }

/-- **C5**: deduplication is stable and key-driven: it equals the
first-occurrence-per-key specification (so the first item with a key
survives and every later item with the same key is dropped while all other
items survive), its output preserves input order, and cross-source
duplicates collapse while distinct keys survive. -/
theorem c5_dedupe :
    (∀ items : List Item, dedupe items = dedupeSpec items) ∧
    (∀ items : List Item, (dedupe items).Sublist items) ∧
    dedupe [itemD "http://a.com/x?utm_a=1" "Same  Title" "s1",
            itemD "http://a.com/x" "same title" "s2"]
      = [itemD "http://a.com/x?utm_a=1" "Same  Title" "s1"] ∧
    dedupe [itemD "http://a.com/x" "Same Title" "s1",
            itemD "http://a.com/y" "Other Title" "s2"]
      = [itemD "http://a.com/x" "Same Title" "s1",
         itemD "http://a.com/y" "Other Title" "s2"] := by
  refine ⟨?_, fun items => dedupeGo_sublist [] items, by with_unfolding_all decide,
    by with_unfolding_all decide⟩
  intro items
  rw [dedupe, dedupeGo_eq_spec]
  congr 1
  simp

/-! ## Claim C7: greedy first-fit clustering -/

/-- **C7**: the similarity is 0 when either token list is empty; an item
matching no cluster starts a new singleton cluster at the end; an item is
assigned to the first cluster in creation order whose similarity reaches
0.55, leaving all other clusters unchanged; on assignment the member list
grows by the item id, the weight is raised, and the headline and
representative tokens are replaced exactly when the item's title is
strictly longer; and clustering is a single pass in input order. -/
theorem c7_clustering :
    (∀ b : List String, jaccard [] b = 0) ∧
    (∀ a : List String, jaccard a [] = 0) ∧
    (∀ (it : Item) (toks : List String) (cs : List Cluster),
      (∀ c ∈ cs, jaccard toks c.tokens < 11 / 20) →
        assignGo it toks cs = cs ++ [newCluster it toks]) ∧
    (∀ (it : Item) (toks : List String) (pre post : List Cluster) (c : Cluster),
      (∀ c' ∈ pre, jaccard toks c'.tokens < 11 / 20) →
        (11 : ℚ) / 20 ≤ jaccard toks c.tokens →
        assignGo it toks (pre ++ c :: post) = pre ++ updateCluster c it toks :: post) ∧
    (∀ (c : Cluster) (it : Item) (toks : List String),
      (updateCluster c it toks).items = c.items ++ [it.id] ∧
      (updateCluster c it toks).max_weight = max c.max_weight it.weight ∧
      (c.headline.length < it.title.length →
        (updateCluster c it toks).headline = it.title ∧
          (updateCluster c it toks).tokens = toks) ∧
      (¬ c.headline.length < it.title.length →
        (updateCluster c it toks).headline = c.headline ∧
          (updateCluster c it toks).tokens = c.tokens)) ∧
    (∀ (items : List Item) (it : Item),
      buildClusters (items ++ [it]) = assignGo it (tokenize it.title) (buildClusters items)) := by
  refine ⟨?_, ?_, ?_, ?_, ?_, ?_⟩
  · intro b
    simp [jaccard]
  · intro a
    simp [jaccard]
  · intro it toks cs h
    induction cs with
    | nil => rfl
    | cons c cs ih =>
      have hc := h c (List.mem_cons_self c cs)
      simp only [assignGo, not_le.mpr hc, if_false]
      rw [ih (fun c' hc' => h c' (List.mem_cons_of_mem c hc'))]
      rfl
  · intro it toks pre post c hpre hc
    induction pre with
    | nil =>
      simp only [List.nil_append, assignGo, hc, if_true]
    | cons c' pre ih =>
      have h1 := hpre c' (List.mem_cons_self c' pre)
      simp only [List.cons_append, assignGo, not_le.mpr h1, if_false, List.append_eq]
      rw [ih (fun x hx => hpre x (List.mem_cons_of_mem c' hx))]
  · intro c it toks
    refine ⟨rfl, rfl, ?_, ?_⟩
    · intro h
      constructor
      · simp only [updateCluster, if_pos h]
      · simp only [updateCluster, if_pos h]
    · intro h
      constructor
      · simp only [updateCluster, if_neg h]
      · simp only [updateCluster, if_neg h]
  · intro items it
    simp [buildClusters, List.foldl_append]

/-- Witness for C7: a fresh title starts a singleton cluster, and a
0.8-similar title joins the existing first cluster. -/
theorem c7_clustering_witness :
    assignGo (itemD "http://a.com/1" "Fed raises interest rates again" "sA")
        (tokenize "Fed raises interest rates again") []
      = [newCluster (itemD "http://a.com/1" "Fed raises interest rates again" "sA")
          (tokenize "Fed raises interest rates again")] ∧
    assignGo (itemD "http://b.com/1" "Fed raises interest rates" "sB")
        (tokenize "Fed raises interest rates")
        [newCluster (itemD "http://a.com/1" "Fed raises interest rates again" "sA")
          (tokenize "Fed raises interest rates again")]
      = [updateCluster
          (newCluster (itemD "http://a.com/1" "Fed raises interest rates again" "sA")
            (tokenize "Fed raises interest rates again"))
          (itemD "http://b.com/1" "Fed raises interest rates" "sB")
          (tokenize "Fed raises interest rates")] :=
  ⟨c7_clustering.2.2.1 _ _ [] (fun c hc => absurd hc (List.not_mem_nil c)),
   c7_clustering.2.2.2.1 _ _ [] [] _ (fun c hc => absurd hc (List.not_mem_nil c))
     (by with_unfolding_all decide)⟩

/-! ## Claim C9: per-feed failure isolation -/

/-- The failure list is exactly one record `{feed id, url, error}` per
failing feed, in feed order. -/
theorem collectFeeds_failures (tagOrder : List String → List String) (m : Nat)
    (feeds : List (FeedDef × FeedData)) :
    (collectFeeds tagOrder m feeds).2 =
      feeds.filterMap (fun fd =>
        match runFeed tagOrder m fd.1 fd.2 with
        | .error e => some ⟨fd.1.id, fd.1.url, e⟩
        | .ok _ => none) := by
  induction feeds with
  | nil => rfl
  | cons fd rest ih =>
    obtain ⟨f, d⟩ := fd
    cases h : runFeed tagOrder m f d with
    | ok its => simp [collectFeeds, h, ih, List.filterMap_cons]
    | error e => simp [collectFeeds, h, ih, List.filterMap_cons]

/-- The item pool is unchanged when failing feeds are removed: a failing
feed contributes zero items. -/
theorem collectFeeds_items_good (tagOrder : List String → List String) (m : Nat)
    (feeds : List (FeedDef × FeedData)) :
    (collectFeeds tagOrder m feeds).1 =
      (collectFeeds tagOrder m
        (feeds.filter (fun fd => (runFeed tagOrder m fd.1 fd.2).isOk))).1 := by
  induction feeds with
  | nil => rfl
  | cons fd rest ih =>
    obtain ⟨f, d⟩ := fd
    cases h : runFeed tagOrder m f d with
    | ok its => simp [collectFeeds, List.filter_cons, h, Except.isOk, Except.toBool, ih]
    | error e => simp [collectFeeds, List.filter_cons, h, Except.isOk, Except.toBool, ih]

/-- **C9**: the pipeline (a total function, so it always yields an item
list, a topic list and a failure list) records one `{feed id, url, error
message}` entry per failing feed, and its items and topics are those of
the run over the non-failing feeds alone. -/
theorem c9_failure_handling :
    ∀ (tagOrder : List String → List String) (feeds : List (FeedDef × FeedData))
      (d : Int) (m : Nat) (now : Int),
      (pipelineRun tagOrder feeds d m now).2.2 =
        feeds.filterMap (fun fd =>
          match runFeed tagOrder m fd.1 fd.2 with
          | .error e => some ⟨fd.1.id, fd.1.url, e⟩
          | .ok _ => none) ∧
      (pipelineRun tagOrder feeds d m now).1 =
        (pipelineRun tagOrder
          (feeds.filter (fun fd => (runFeed tagOrder m fd.1 fd.2).isOk)) d m now).1 ∧
      (pipelineRun tagOrder feeds d m now).2.1 =
        (pipelineRun tagOrder
          (feeds.filter (fun fd => (runFeed tagOrder m fd.1 fd.2).isOk)) d m now).2.1 := by
  intro tagOrder feeds d m now
  refine ⟨collectFeeds_failures tagOrder m feeds, ?_, ?_⟩
  · simp only [pipelineRun]
    rw [collectFeeds_items_good]
  · simp only [pipelineRun]
    rw [collectFeeds_items_good]

/-! ## Claim C10: topic output invariants -/

/-- The invariant maintained for every cluster during the pass: non-empty
members and sources, and member ids drawn from the input items. -/
def ClusterInv (items : List Item) (c : Cluster) : Prop :=
  c.items ≠ [] ∧ c.sources ≠ [] ∧ ∀ iid ∈ c.items, ∃ it ∈ items, it.id = iid

/-- Where a cluster in the scan output comes from. -/
theorem assignGo_mem {it : Item} {toks : List String} {cs : List Cluster}
    {c' : Cluster} (h : c' ∈ assignGo it toks cs) :
    c' ∈ cs ∨ c' = newCluster it toks ∨ ∃ c ∈ cs, c' = updateCluster c it toks := by
  induction cs with
  | nil =>
    simp only [assignGo, List.mem_singleton] at h
    exact Or.inr (Or.inl h)
  | cons c cs ih =>
    by_cases hj : (11 : ℚ) / 20 ≤ jaccard toks c.tokens
    · simp only [assignGo, hj, if_true, List.mem_cons] at h
      rcases h with h | h
      · exact Or.inr (Or.inr ⟨c, List.mem_cons_self c cs, h⟩)
      · exact Or.inl (List.mem_cons_of_mem c h)
    · simp only [assignGo, hj, if_false, List.mem_cons] at h
      rcases h with h | h
      · exact Or.inl (h ▸ List.mem_cons_self c cs)
      · rcases ih h with h | h | ⟨c0, hc0, he⟩
        · exact Or.inl (List.mem_cons_of_mem c h)
        · exact Or.inr (Or.inl h)
        · exact Or.inr (Or.inr ⟨c0, List.mem_cons_of_mem c hc0, he⟩)

/-- The cluster scan preserves the invariant. -/
theorem assignGo_inv {items : List Item} {it : Item} {toks : List String}
    {cs : List Cluster} (hid : ∃ x ∈ items, x.id = it.id)
    (h : ∀ c ∈ cs, ClusterInv items c) :
    ∀ c' ∈ assignGo it toks cs, ClusterInv items c' := by
  intro c' hc'
  rcases assignGo_mem hc' with hm | hm | ⟨c, hc, hm⟩
  · exact h c' hm
  · subst hm
    refine ⟨by simp [newCluster], by simp [newCluster], ?_⟩
    intro iid hiid
    simp only [newCluster, List.mem_singleton] at hiid
    exact hiid ▸ hid
  · subst hm
    obtain ⟨h1, h2, h3⟩ := h c hc
    refine ⟨by simp [updateCluster], ?_, ?_⟩
    · simp only [updateCluster]
      by_cases hs : it.source ∈ c.sources
      · simpa [hs] using h2
      · simp [hs]
    · intro iid hiid
      simp only [updateCluster, List.mem_append, List.mem_singleton] at hiid
      rcases hiid with hiid | hiid
      · exact h3 iid hiid
      · exact hiid ▸ hid

/-- Every cluster of the clustering pass satisfies the invariant. -/
theorem buildClusters_inv (items : List Item) :
    ∀ c ∈ buildClusters items, ClusterInv items c := by
  suffices h : ∀ (l : List Item) (cs : List Cluster), (∀ x ∈ l, x ∈ items) →
      (∀ c ∈ cs, ClusterInv items c) →
      ∀ c ∈ l.foldl (fun cs it => assignGo it (tokenize it.title) cs) cs, ClusterInv items c by
    exact h items [] (fun x hx => hx) (by simp)
  intro l
  induction l with
  | nil => intro cs _ hcs; exact hcs
  | cons x t ih =>
    intro cs hl hcs
    exact ih _ (fun y hy => hl y (List.mem_cons_of_mem x hy))
      (assignGo_inv ⟨x, hl x (List.mem_cons_self x t), rfl⟩ hcs)

/-- Stable insertion permutes cons. -/
theorem insStable_perm {α : Type} (prec : α → α → Bool) (x : α) (l : List α) :
    (insStable prec x l).Perm (x :: l) := by
  induction l with
  | nil => exact List.Perm.refl _
  | cons y t ih =>
    by_cases h : prec x y
    · simp [insStable, h]
    · simp only [insStable, h, Bool.false_eq_true, if_false]
      exact (ih.cons y).trans (List.Perm.swap x y t)

/-- Stable sorting permutes the input. -/
theorem sortStable_perm {α : Type} (prec : α → α → Bool) (l : List α) :
    (sortStable prec l).Perm l := by
  suffices h : ∀ (l acc : List α),
      (l.foldl (fun a x => insStable prec x a) acc).Perm (acc ++ l) by
    simpa using h l []
  intro l
  induction l with
  | nil => intro acc; simp
  | cons x t ih =>
    intro acc
    refine (ih (insStable prec x acc)).trans ?_
    refine (List.Perm.append_right t (insStable_perm prec x acc)).trans ?_
    exact List.perm_middle.symm

/-- A positive-length cap keeps a non-empty list non-empty. -/
theorem take_ten_ne_nil {α : Type} {l : List α} (h : l ≠ []) : l.take 10 ≠ [] := by
  cases l with
  | nil => exact absurd rfl h
  | cons a t => simp

/-- **C10**: every emitted topic has at most 10 member ids, a count at
least the length of its capped id list and equal to the full membership of
its cluster, a non-empty sources list of at most 10 entries, and member
ids that are ids of input items. -/
theorem c10_topic_invariants :
    ∀ (items : List Item) (k : Nat) (now : Int) (t : Topic),
      t ∈ build_topics items k now →
        t.items.length ≤ 10 ∧ t.items.length ≤ t.count ∧
        t.sources ≠ [] ∧ t.sources.length ≤ 10 ∧
        (∀ iid ∈ t.items, ∃ it ∈ items, it.id = iid) ∧
        ∃ c ∈ buildClusters items, t.count = c.items.length ∧ t.items = c.items.take 10 := by
  intro items k now t ht
  unfold build_topics at ht
  obtain ⟨p, hp, hpt⟩ := List.mem_map.mp ht
  have hp2 := List.mem_of_mem_take hp
  have hp3 := (sortStable_perm _ _).mem_iff.mp hp2
  obtain ⟨c, hc, rfl⟩ := List.mem_map.mp hp3
  obtain ⟨h1, h2, h3⟩ := buildClusters_inv items c hc
  subst hpt
  refine ⟨?_, ?_, ?_, ?_, ?_, c, hc, rfl, rfl⟩
  · exact List.length_take_le 10 c.items
  · simp only [List.length_take_le']
  · apply take_ten_ne_nil
    intro hnil
    have hperm := sortStable_perm (fun a b => listCharLt a.data b.data) c.sources
    rw [sortedStrings] at hnil
    rw [hnil] at hperm
    exact h2 hperm.symm.eq_nil
  · exact List.length_take_le 10 _
  · intro iid hiid
    exact h3 iid (List.mem_of_mem_take hiid)

/-- The one-item input of the C10 witness. -/
def itemC10 : Item := itemD "http://a.com/1" "Fed raises interest rates" "SA"

/-- The topic `build_topics` emits for the C10 witness input. -/
def topicC10 : Topic :=
  ⟨"de48380822b4", "Fed raises interest rates", 1, ["SA"], ["SA|http://a.com/1"], 3 / 5⟩

set_option maxRecDepth 40000 in
/-- Witness for C10 at a one-item run. -/
theorem c10_topic_invariants_witness :
    topicC10.items.length ≤ 10 ∧ topicC10.items.length ≤ topicC10.count ∧
    topicC10.sources ≠ [] ∧ topicC10.sources.length ≤ 10 ∧
    (∀ iid ∈ topicC10.items, ∃ it ∈ [itemC10], it.id = iid) ∧
    ∃ c ∈ buildClusters [itemC10], topicC10.count = c.items.length ∧
      topicC10.items = c.items.take 10 :=
  c10_topic_invariants [itemC10] 10 0 topicC10 (by with_unfolding_all decide)

/-! ## Claim C1: item ids -/

/-- Equality of `Except` results is decidable (needed to evaluate the
adapter on concrete inputs). -/
instance {ε α : Type} [DecidableEq ε] [DecidableEq α] : DecidableEq (Except ε α) :=
  fun a b =>
    match a, b with
    | .ok x, .ok y =>
      if h : x = y then isTrue (by rw [h]) else isFalse (by simp [h])
    | .error x, .error y =>
      if h : x = y then isTrue (by rw [h]) else isFalse (by simp [h])
    | .ok _, .error _ => isFalse (by simp)
    | .error _, .ok _ => isFalse (by simp)

/-- The sitemap feed of the C1 examples. -/
def feedC1 : FeedDef :=
  ⟨"reuters", "Reuters", "http://r.example.com/sitemap.xml",
   "reuters_news_sitemap_index", "Global", "en", [], 1⟩

/-- Its fetched sitemap data: one child carrying one article whose link
holds a tracking parameter. -/
def dataC1 : ReutersData :=
  ⟨.ok [{ loc := some "http://r.example.com/s1.xml" }],
   fun _ => .ok [{ loc := some "https://r.example.com/art1?utm_source=t",
                   title := some "Title" }]⟩

/-- The item the sitemap adapter produces for `dataC1`: its id hashes the
raw link, while its link field holds the canonical link. -/
def itemC1 : Item :=
  { id := "430116c35cf631bf1cf7d462405a115c3bd62e9f", title := "Title",
    link := "https://r.example.com/art1", published := none,
    source_id := "reuters", source := "Reuters", region := "Global",
    lang := "en", tags := ["Reuters"], weight := 1, summary := "" }

/-- An RSS feed for the C1 witness. -/
def feedRss : FeedDef := ⟨"src", "Src", "http://s", "rss", "Global", "en", [], 1⟩

/-- The item `parse_rss` produces for the witness entry. -/
def itemRss : Item :=
  { id := "00aafec205e77a9e75f504765653b9249a0f0450", title := "T",
    link := "http://a.com/1", published := none, source_id := "src",
    source := "Src", region := "Global", lang := "en", tags := [],
    weight := 1, summary := "" }

set_option maxRecDepth 100000 in
/-- Counterexample to C1 as stated: for the sitemap adapter the id is the
hash of the raw, uncanonicalized link, so it differs from the hash of the
(source identifier, canonical link) pair whenever canonicalization changes
the link. -/
theorem c1_counterexample :
    parse_reuters List.dedup feedC1 dataC1 40 = .ok [itemC1] ∧
      itemC1.id ≠ sha1 (itemC1.source_id ++ "|" ++ itemC1.link) := by
  with_unfolding_all decide

/-- Membership in `parse_rss` output via the producing entry. -/
theorem parse_rss_mem {feed : FeedDef} {entries : List Entry} {m : Nat} {it : Item}
    (h : it ∈ parse_rss feed entries m) :
    ∃ e ∈ entries.take m,
      canonicalize_url (e.link.getD "") ≠ "" ∧
        it = { id := sha1 (feed.id ++ "|" ++ canonicalize_url (e.link.getD ""))
               title := clean_html (e.title.getD "")
               link := canonicalize_url (e.link.getD "")
               published := (parse_date e).map isoOfEpoch
               source_id := feed.id
               source := feed.name
               region := feed.region
               lang := feed.lang
               tags := feed.tags
               weight := feed.weight
               summary := String.mk ((clean_html
                 (firstNonEmpty [e.summary, e.description, e.subtitle])).data.take 600) } := by
  obtain ⟨e, he, hfe⟩ := List.mem_filterMap.mp h
  refine ⟨e, he, ?_⟩
  by_cases hl : canonicalize_url (e.link.getD "") = ""
  · rw [if_pos hl] at hfe
    exact absurd hfe (by simp)
  · rw [if_neg hl] at hfe
    exact ⟨hl, (Option.some_inj.mp hfe).symm⟩

/-- The production shape of every item the sitemap adapter emits: the id
hashes a raw link text and the link field holds its canonicalized
stripped form; the title is a stripped raw title. -/
def ReutersShape (feed : FeedDef) (it : Item) : Prop :=
  ∃ raw, it.id = sha1 (feed.id ++ "|" ++ raw) ∧
    it.link = canonicalize_url (pyStripStr raw) ∧
    ∃ rawTitle, it.title = pyStripStr rawTitle

/-- Appending one shaped item preserves the shape invariant. -/
theorem reutersShape_append (feed : FeedDef) (out : List Item) (x : Item)
    (hout : ∀ it ∈ out, ReutersShape feed it) (hx : ReutersShape feed x) :
    ∀ it ∈ out ++ [x], ReutersShape feed it := by
  intro it hit
  rcases List.mem_append.mp hit with hit | hit
  · exact hout it hit
  · exact (List.mem_singleton.mp hit) ▸ hx

/-- The inner sitemap loop preserves the production shape. -/
theorem reutersCollect_shape (tagOrder : List String → List String)
    (feed : FeedDef) (m : Nat) (urls : List SmUrl) (out : List Item)
    (hout : ∀ it ∈ out, ReutersShape feed it) :
    ∀ it ∈ reutersCollect tagOrder feed m urls out, ReutersShape feed it := by
  induction urls generalizing out with
  | nil => exact hout
  | cons u rest ih =>
    cases hl : etText u.loc with
    | none =>
      simp only [reutersCollect, hl]
      exact ih out hout
    | some link =>
      cases ht : etText u.title with
      | none =>
        simp only [reutersCollect, hl, ht]
        exact ih out hout
      | some title =>
        simp only [reutersCollect, hl, ht]
        by_cases hb : link = "" ∨ title = ""
        · rw [if_pos hb]
          exact ih out hout
        · rw [if_neg hb]
          split
          · exact reutersShape_append feed out _ hout ⟨link, rfl, rfl, title, rfl⟩
          · exact ih _ (reutersShape_append feed out _ hout ⟨link, rfl, rfl, title, rfl⟩)

/-- The outer sitemap loop preserves the production shape. -/
theorem reutersChildren_shape (tagOrder : List String → List String)
    (feed : FeedDef) (d : ReutersData) (m : Nat)
    (refs : List (String × Option Int)) (out : List Item)
    (hout : ∀ it ∈ out, ReutersShape feed it) :
    ∀ it ∈ reutersChildren tagOrder feed d m refs out, ReutersShape feed it := by
  induction refs generalizing out with
  | nil => exact hout
  | cons r rest ih =>
    obtain ⟨loc, lm⟩ := r
    simp only [reutersChildren]
    cases hc : d.child loc with
    | error e => exact ih out hout
    | ok urls =>
      have h1 := reutersCollect_shape tagOrder feed m urls out hout
      show ∀ it ∈ (if m ≤ (reutersCollect tagOrder feed m urls out).length
          then reutersCollect tagOrder feed m urls out
          else reutersChildren tagOrder feed d m rest
            (reutersCollect tagOrder feed m urls out)), ReutersShape feed it
      by_cases hlen : m ≤ (reutersCollect tagOrder feed m urls out).length
      · rw [if_pos hlen]
        exact h1
      · rw [if_neg hlen]
        exact ih _ h1

/-- Every item the sitemap adapter returns has the production shape. -/
theorem parse_reuters_shape {tagOrder : List String → List String}
    {feed : FeedDef} {d : ReutersData} {m : Nat} {items : List Item}
    (h : parse_reuters tagOrder feed d m = .ok items) :
    ∀ it ∈ items, ReutersShape feed it := by
  unfold parse_reuters at h
  cases hidx : d.indexResult with
  | error e => rw [hidx] at h; exact absurd h (by simp)
  | ok refs =>
    rw [hidx] at h
    rw [← Except.ok.inj h]
    exact reutersChildren_shape tagOrder feed d m _ [] (by simp)

/-- **C1 (amended)**: every RSS-adapter item's id is the hash of
`(source id, canonical link)` where the canonical link is the item's own
link field; every sitemap-adapter item's id is instead the hash of
`(source id, raw sitemap link)`, while the item's link field holds that
raw link canonicalized after stripping. -/
theorem c1_item_ids :
    (∀ (feed : FeedDef) (entries : List Entry) (m : Nat) (it : Item),
      it ∈ parse_rss feed entries m → it.id = sha1 (feed.id ++ "|" ++ it.link)) ∧
    (∀ (tagOrder : List String → List String) (feed : FeedDef) (d : ReutersData)
      (m : Nat) (items : List Item) (it : Item),
      parse_reuters tagOrder feed d m = .ok items → it ∈ items →
        ∃ raw, it.id = sha1 (feed.id ++ "|" ++ raw) ∧
          it.link = canonicalize_url (pyStripStr raw)) := by
  constructor
  · intro feed entries m it h
    obtain ⟨e, _, _, hit⟩ := parse_rss_mem h
    rw [hit]
  · intro tagOrder feed d m items it h hmem
    obtain ⟨raw, h1, h2, _⟩ := parse_reuters_shape h it hmem
    exact ⟨raw, h1, h2⟩

set_option maxRecDepth 100000 in
/-- Witness for C1 (amended) on the concrete RSS and sitemap runs. -/
theorem c1_item_ids_witness :
    itemRss.id = sha1 (feedRss.id ++ "|" ++ itemRss.link) ∧
      ∃ raw, itemC1.id = sha1 (feedC1.id ++ "|" ++ raw) ∧
        itemC1.link = canonicalize_url (pyStripStr raw) :=
  ⟨c1_item_ids.1 feedRss [{ link := some "http://a.com/1?utm_x=1", title := some "T" }]
      40 itemRss (by with_unfolding_all decide),
   c1_item_ids.2 List.dedup feedC1 dataC1 40 [itemC1] itemC1
      (by with_unfolding_all decide) (by with_unfolding_all decide)⟩

/-! ## Claim C3: title normalization

The key fact is that `clean_html` is idempotent. It rests on a shape
invariant of tag-stripped text: no `<` is followed by a later `>` except
an immediately adjacent one, so no substitution can fire again. -/

/-- No `<` in the list starts a removable tag: every `<` either has no
later `>`, or is immediately followed by `>`. -/
def TagFree : List Char → Prop
  | [] => True
  | c :: t => (c = '<' → ('>') ∉ t ∨ t.take 1 = ['>']) ∧ TagFree t

/-- A separator-free list splits trivially. -/
theorem splitAtFirstCh_of_not_mem {sep : Char} {l : List Char} (h : sep ∉ l) :
    splitAtFirstCh sep l = (l, none) := by
  induction l with
  | nil => rfl
  | cons c t ih =>
    have hc : ¬ c = sep := fun he => h (he ▸ List.mem_cons_self c t)
    simp only [splitAtFirstCh, hc, if_false]
    rw [ih (fun hm => h (List.mem_cons_of_mem c hm))]

/-- Splitting recovers the decomposition at the first separator. -/
theorem splitAtFirstCh_eq_some {sep : Char} {l a b : List Char}
    (h : splitAtFirstCh sep l = (a, some b)) : l = a ++ sep :: b ∧ sep ∉ a := by
  induction l generalizing a with
  | nil => simp [splitAtFirstCh] at h
  | cons c t ih =>
    by_cases hc : c = sep
    · subst hc
      simp only [splitAtFirstCh, if_pos rfl, Prod.mk.injEq, Option.some.injEq] at h
      obtain ⟨rfl, rfl⟩ := h
      exact ⟨rfl, List.not_mem_nil _⟩
    · simp only [splitAtFirstCh, hc, if_false, Prod.mk.injEq] at h
      obtain ⟨h1, h2⟩ := h
      have h3 : splitAtFirstCh sep t = ((splitAtFirstCh sep t).1, some b) := by
        rw [← h2]
      obtain ⟨hl, hsep⟩ := ih h3
      rw [← h1]
      constructor
      · rw [List.cons_append, ← hl]
      · intro hm
        rcases List.mem_cons.mp hm with hm | hm
        · exact hc hm.symm
        · exact hsep hm

/-- `TagFree` ignores a prefix. -/
theorem tagFree_suffix {a b : List Char} (h : TagFree (a ++ b)) : TagFree b := by
  induction a with
  | nil => exact h
  | cons c t ih => exact ih h.2

/-- `TagFree` survives removing a suffix: dropping text only removes
closing `>` characters. -/
theorem tagFree_prefix {a b : List Char} (h : TagFree (a ++ b)) : TagFree a := by
  induction a with
  | nil => trivial
  | cons c t ih =>
    refine ⟨?_, ih h.2⟩
    intro hc
    rcases h.1 hc with h1 | h1
    · exact Or.inl (fun hm => h1 (List.mem_append_left b hm))
    · cases t with
      | nil => exact Or.inl (List.not_mem_nil _)
      | cons d t2 =>
        have hd : d = '>' := by simpa using h1
        refine Or.inr ?_
        simp [hd]

/-- `TagFree` holds when `>` does not occur at all. -/
theorem tagFree_of_not_mem {l : List Char} (h : ('>') ∉ l) : TagFree l := by
  induction l with
  | nil => trivial
  | cons c t ih =>
    refine ⟨fun _ => Or.inl (fun hm => h (List.mem_cons_of_mem c hm)), ?_⟩
    exact ih (fun hm => h (List.mem_cons_of_mem c hm))

/-- A `none` split means the separator is absent. -/
theorem splitAtFirstCh_none_not_mem {sep : Char} {l a : List Char}
    (h : splitAtFirstCh sep l = (a, none)) : sep ∉ l := by
  induction l generalizing a with
  | nil => exact List.not_mem_nil sep
  | cons c t ih =>
    by_cases hc : c = sep
    · subst hc
      simp [splitAtFirstCh] at h
    · simp only [splitAtFirstCh, hc, if_false, Prod.mk.injEq] at h
      intro hm
      rcases List.mem_cons.mp hm with hm | hm
      · exact hc hm.symm
      · have h3 : splitAtFirstCh sep t = ((splitAtFirstCh sep t).1, none) := by
          rw [← h.2]
        exact ih h3 hm

/-- Unfolding of `subTags` when the remainder has no `>`. -/
theorem subTags_eq_none {f : Nat} {d : Char} {t a : List Char} (hd : d = '<')
    (hsp : splitAtFirstCh '>' t = (a, none)) :
    subTags (f + 1) (d :: t) = d :: subTags f t := by
  rw [subTags, if_pos hd, hsp]

/-- Unfolding of `subTags` at an immediate `<>` pair. -/
theorem subTags_eq_some_nil {f : Nat} {d : Char} {t r2 : List Char} (hd : d = '<')
    (hsp : splitAtFirstCh '>' t = ([], some r2)) :
    subTags (f + 1) (d :: t) = d :: subTags f t := by
  rw [subTags, if_pos hd, hsp]
  simp

/-- Unfolding of `subTags` at a removable tag. -/
theorem subTags_eq_some {f : Nat} {d : Char} {t mid r2 : List Char} (hd : d = '<')
    (hm : mid ≠ []) (hsp : splitAtFirstCh '>' t = (mid, some r2)) :
    subTags (f + 1) (d :: t) = ' ' :: subTags f r2 := by
  rw [subTags, if_pos hd, hsp]
  simp [hm]

/-- Unfolding of `subTags` at an ordinary character. -/
theorem subTags_eq_ne {f : Nat} {d : Char} {t : List Char} (hd : ¬ d = '<') :
    subTags (f + 1) (d :: t) = d :: subTags f t := by
  rw [subTags, if_neg hd]

/-- `subTags` changes nothing on tag-free text. -/
theorem subTags_id {l : List Char} (h : TagFree l) : ∀ fuel, subTags fuel l = l := by
  intro fuel
  induction fuel generalizing l with
  | zero => rfl
  | succ f ih =>
    cases l with
    | nil => rfl
    | cons c t =>
      by_cases hc : c = '<'
      · rcases h.1 hc with h1 | h1
        · rw [subTags_eq_none hc (splitAtFirstCh_of_not_mem h1), ih h.2]
        · cases t with
          | nil => simp at h1
          | cons d t2 =>
            have hd : d = '>' := by simpa using h1
            subst hd
            have hs : splitAtFirstCh '>' ('>' :: t2) = ([], some t2) := by
              simp [splitAtFirstCh]
            rw [subTags_eq_some_nil hc hs, ih h.2]
      · rw [subTags_eq_ne hc, ih h.2]

/-- Characters of the `subTags` output come from the input or are spaces. -/
theorem subTags_chars :
    ∀ (fuel : Nat) (l : List Char) (c : Char), c ∈ subTags fuel l → c ∈ l ∨ c = ' ' := by
  intro fuel
  induction fuel with
  | zero => exact fun l c h => Or.inl h
  | succ f ih =>
    intro l c h
    cases l with
    | nil => simp [subTags] at h
    | cons d t =>
      by_cases hd : d = '<'
      · rcases hsp : splitAtFirstCh '>' t with ⟨mid, r2⟩
        cases r2 with
        | none =>
          rw [subTags_eq_none hd hsp] at h
          rcases List.mem_cons.mp h with h' | h'
          · exact Or.inl (h' ▸ List.mem_cons_self d t)
          · rcases ih t c h' with h'' | h''
            · exact Or.inl (List.mem_cons_of_mem d h'')
            · exact Or.inr h''
        | some r2' =>
          obtain ⟨ht, _⟩ := splitAtFirstCh_eq_some hsp
          by_cases hm : mid = []
          · subst hm
            rw [subTags_eq_some_nil hd hsp] at h
            rcases List.mem_cons.mp h with h' | h'
            · exact Or.inl (h' ▸ List.mem_cons_self d t)
            · rcases ih t c h' with h'' | h''
              · exact Or.inl (List.mem_cons_of_mem d h'')
              · exact Or.inr h''
          · rw [subTags_eq_some hd hm hsp] at h
            rcases List.mem_cons.mp h with h' | h'
            · exact Or.inr h'
            · rcases ih r2' c h' with h'' | h''
              · refine Or.inl (List.mem_cons_of_mem d ?_)
                rw [ht]
                exact List.mem_append_right mid (List.mem_cons_of_mem _ h'')
              · exact Or.inr h''
      · rw [subTags_eq_ne hd] at h
        rcases List.mem_cons.mp h with h' | h'
        · exact Or.inl (h' ▸ List.mem_cons_self d t)
        · rcases ih t c h' with h'' | h''
          · exact Or.inl (List.mem_cons_of_mem d h'')
          · exact Or.inr h''

/-- With enough fuel, the `subTags` output is tag-free. -/
theorem subTags_tagFree :
    ∀ (fuel : Nat) (l : List Char), l.length ≤ fuel → TagFree (subTags fuel l) := by
  intro fuel
  induction fuel with
  | zero =>
    intro l h
    rw [List.length_eq_zero.mp (Nat.le_zero.mp h)]
    trivial
  | succ f ih =>
    intro l hlen
    cases l with
    | nil => trivial
    | cons d t =>
      have hlent : t.length ≤ f := by
        simpa [Nat.succ_le_succ_iff] using hlen
      by_cases hd : d = '<'
      · rcases hsp : splitAtFirstCh '>' t with ⟨mid, r2⟩
        cases r2 with
        | none =>
          rw [subTags_eq_none hd hsp]
          refine ⟨fun _ => Or.inl ?_, ih t hlent⟩
          intro hm
          rcases subTags_chars f t '>' hm with hm' | hm'
          · exact splitAtFirstCh_none_not_mem hsp hm'
          · exact absurd hm' (by decide)
        | some r2' =>
          obtain ⟨ht, _⟩ := splitAtFirstCh_eq_some hsp
          by_cases hm : mid = []
          · subst hm
            rw [List.nil_append] at ht
            rw [subTags_eq_some_nil hd hsp]
            cases f with
            | zero =>
              rw [ht] at hlent
              simp at hlent
            | succ f2 =>
              refine ⟨fun _ => Or.inr ?_, ih t hlent⟩
              rw [ht, subTags_eq_ne (by decide)]
              rfl
          · have hr2len : r2'.length ≤ f := by
              rw [ht] at hlent
              simp only [List.length_append, List.length_cons] at hlent
              omega
            rw [subTags_eq_some hd hm hsp]
            exact ⟨fun h' => absurd h' (by decide), ih r2' hr2len⟩
      · rw [subTags_eq_ne hd]
        exact ⟨fun h' => absurd h' hd, ih t hlent⟩

/-- `Char.ofNat` below the surrogate range keeps the code point. -/
theorem toNat_ofNat_small {n : Nat} (h : n < 55296) : (Char.ofNat n).toNat = n := by
  unfold Char.ofNat
  rw [dif_pos (Or.inl h : Nat.isValidChar n)]
  rfl

/-- Code points determine characters. -/
theorem char_toNat_inj {c d : Char} (h : c.toNat = d.toNat) : c = d := by
  rw [← Char.ofNat_toNat c, ← Char.ofNat_toNat d, h]

/-- The code point of the ASCII lower-casing. -/
theorem asciiLowerCh_toNat (c : Char) :
    (asciiLowerCh c).toNat =
      if 65 ≤ c.toNat ∧ c.toNat ≤ 90 then c.toNat + 32 else c.toNat := by
  unfold asciiLowerCh
  by_cases h : 65 ≤ c.toNat ∧ c.toNat ≤ 90
  · rw [if_pos (by simpa using h), if_pos h]
    exact toNat_ofNat_small (by omega)
  · rw [if_neg (by simpa using h), if_neg h]

/-- Only `<` lower-cases to `<`. -/
theorem asciiLowerCh_eq_lt {c : Char} (h : asciiLowerCh c = '<') : c = '<' := by
  have h2 := congrArg Char.toNat h
  rw [asciiLowerCh_toNat] at h2
  have h60 : ('<').toNat = 60 := rfl
  rw [h60] at h2
  split at h2
  · omega
  · exact char_toNat_inj (h2.trans h60.symm)

/-- A character whose lower-casing is not `>` is not `>`. -/
theorem ne_gt_of_asciiLowerCh {c d : Char} (h : asciiLowerCh c = d) (hd : d ≠ '>') :
    c ≠ '>' := by
  intro hc
  subst hc
  apply hd
  rw [← h]
  decide

/-- A successful case-insensitive search decomposes the list. -/
theorem findCI_eq_some {pat l b occ : List Char}
    (h : findCI pat l = some (b, occ)) : l = b ++ occ ∧ prefixCI pat occ = true := by
  induction l generalizing b with
  | nil =>
    by_cases hp : prefixCI pat [] = true
    · rw [findCI, if_pos hp] at h
      simp only [Option.some.injEq, Prod.mk.injEq] at h
      obtain ⟨rfl, rfl⟩ := h
      exact ⟨rfl, hp⟩
    · rw [findCI, if_neg hp] at h
      exact absurd h (by simp)
  | cons c t ih =>
    by_cases hp : prefixCI pat (c :: t) = true
    · rw [findCI, if_pos hp] at h
      simp only [Option.some.injEq, Prod.mk.injEq] at h
      obtain ⟨rfl, rfl⟩ := h
      exact ⟨rfl, hp⟩
    · rw [findCI, if_neg hp] at h
      cases hf : findCI pat t with
      | none => rw [hf] at h; exact absurd h (by simp)
      | some r =>
        rw [hf] at h
        simp only [Option.some.injEq, Prod.mk.injEq] at h
        obtain ⟨h1, h2⟩ := h
        have h3 : findCI pat t = some (r.1, occ) := by
          rw [hf, ← h2]
        obtain ⟨h4, h5⟩ := ih h3
        rw [← h1]
        exact ⟨by rw [List.cons_append, ← h4], h5⟩

/-- A non-empty pattern match exposes the first matched character. -/
theorem prefixCI_cons {p : Char} {ps l : List Char} (h : prefixCI (p :: ps) l = true) :
    ∃ c t, l = c :: t ∧ asciiLowerCh c = p ∧ prefixCI ps t = true := by
  cases l with
  | nil => simp [prefixCI] at h
  | cons c t =>
    rw [prefixCI, Bool.and_eq_true] at h
    exact ⟨c, t, rfl, of_decide_eq_true h.1, h.2⟩

/-- `stripBlock` does nothing when the opener never occurs. -/
theorem stripBlock_eq_noopener {op cl : List Char} {f : Nat} {l : List Char}
    (h : findCI op l = none) : stripBlock op cl (f + 1) l = l := by
  simp only [stripBlock, h]

/-- `stripBlock` does nothing when no `>` follows the first opener. -/
theorem stripBlock_eq_nogt {op cl : List Char} {f : Nat} {l b occ a : List Char}
    (h : findCI op l = some (b, occ))
    (h2 : splitAtFirstCh '>' (occ.drop op.length) = (a, none)) :
    stripBlock op cl (f + 1) l = l := by
  simp only [stripBlock, h, h2]

/-- On tag-free text, a block pattern `<X...` (with `X` not `>`) never
matches, so `stripBlock` is the identity. -/
theorem stripBlock_id {d : Char} {pt cl : List Char} (hd : d ≠ '>')
    {l : List Char} (h : TagFree l) :
    ∀ fuel, stripBlock ('<' :: d :: pt) cl fuel l = l := by
  intro fuel
  cases fuel with
  | zero => rfl
  | succ f =>
    cases hf : findCI ('<' :: d :: pt) l with
    | none => exact stripBlock_eq_noopener hf
    | some r =>
      obtain ⟨b, occ⟩ := r
      obtain ⟨hl, hpre⟩ := findCI_eq_some hf
      obtain ⟨c0, t0, rfl, hc0, hpre1⟩ := prefixCI_cons hpre
      obtain ⟨c1, t1, rfl, hc1, _⟩ := prefixCI_cons hpre1
      have hc0e : c0 = '<' := asciiLowerCh_eq_lt hc0
      have hc1ne : c1 ≠ '>' := ne_gt_of_asciiLowerCh hc1 hd
      subst hc0e
      have htf : TagFree ('<' :: c1 :: t1) := tagFree_suffix (hl ▸ h)
      have hng : ('>') ∉ (c1 :: t1) := by
        rcases htf.1 rfl with h1 | h1
        · exact h1
        · exact absurd (by simpa using h1) hc1ne
      have hdrop : ('>') ∉ (('<' :: c1 :: t1).drop ('<' :: d :: pt).length) := by
        intro hm
        apply hng
        have he : ('<' :: c1 :: t1).drop ('<' :: d :: pt).length
            = (c1 :: t1).drop (pt.length + 1) := by
          simp [List.length_cons]
        rw [he] at hm
        exact List.drop_subset (pt.length + 1) (c1 :: t1) hm
      exact stripBlock_eq_nogt hf (splitAtFirstCh_of_not_mem hdrop)

/-- The head is not whitespace. -/
def HeadNotSpace : List Char → Prop
  | [] => True
  | c :: _ => isSpaceCh c = false

/-- Whitespace-collapsed text: every whitespace character is a single
space followed by a non-space. -/
def Collapsed : List Char → Prop
  | [] => True
  | c :: t => (isSpaceCh c = true → c = ' ' ∧ HeadNotSpace t) ∧ Collapsed t

/-- Characters of the collapse output come from the input or are spaces. -/
theorem collapseGo_chars :
    ∀ (l : List Char) (b : Bool) (c : Char), c ∈ collapseGo b l → c ∈ l ∨ c = ' ' := by
  intro l
  induction l with
  | nil => intro b c h; simp [collapseGo] at h
  | cons d t ih =>
    intro b c h
    by_cases hs : isSpaceCh d = true
    · cases b with
      | true =>
        rw [collapseGo, if_pos hs, if_pos rfl] at h
        rcases ih true c h with h' | h'
        · exact Or.inl (List.mem_cons_of_mem d h')
        · exact Or.inr h'
      | false =>
        rw [collapseGo, if_pos hs, if_neg (by simp)] at h
        rcases List.mem_cons.mp h with h' | h'
        · exact Or.inr h'
        · rcases ih true c h' with h'' | h''
          · exact Or.inl (List.mem_cons_of_mem d h'')
          · exact Or.inr h''
    · rw [collapseGo, if_neg hs] at h
      rcases List.mem_cons.mp h with h' | h'
      · exact Or.inl (h' ▸ List.mem_cons_self d t)
      · rcases ih false c h' with h'' | h''
        · exact Or.inl (List.mem_cons_of_mem d h'')
        · exact Or.inr h''

/-- Collapsing whitespace preserves tag-freedom. -/
theorem collapseGo_tagFree {l : List Char} (h : TagFree l) :
    ∀ b, TagFree (collapseGo b l) := by
  induction l with
  | nil => intro b; trivial
  | cons d t ih =>
    intro b
    by_cases hs : isSpaceCh d = true
    · cases b with
      | true =>
        rw [collapseGo, if_pos hs, if_pos rfl]
        exact ih h.2 true
      | false =>
        rw [collapseGo, if_pos hs, if_neg (by simp)]
        exact ⟨fun h' => absurd h' (by decide), ih h.2 true⟩
    · rw [collapseGo, if_neg hs]
      refine ⟨?_, ih h.2 false⟩
      intro hd
      rcases h.1 hd with h1 | h1
      · refine Or.inl ?_
        intro hm
        rcases collapseGo_chars t false '>' hm with hm' | hm'
        · exact h1 hm'
        · exact absurd hm' (by decide)
      · cases t with
        | nil => simp at h1
        | cons e t2 =>
          have he : e = '>' := by simpa using h1
          subst he
          refine Or.inr ?_
          rw [collapseGo, if_neg (by decide)]
          rfl

/-- After a space, the collapse output starts with a non-space. -/
theorem collapseGo_headNot (l : List Char) : HeadNotSpace (collapseGo true l) := by
  induction l with
  | nil => trivial
  | cons d t ih =>
    by_cases hs : isSpaceCh d = true
    · rw [collapseGo, if_pos hs, if_pos rfl]
      exact ih
    · rw [collapseGo, if_neg hs]
      simpa [HeadNotSpace] using hs

/-- The collapse output is collapsed. -/
theorem collapseGo_collapsed : ∀ (l : List Char) (b : Bool), Collapsed (collapseGo b l) := by
  intro l
  induction l with
  | nil => intro b; trivial
  | cons d t ih =>
    intro b
    by_cases hs : isSpaceCh d = true
    · cases b with
      | true =>
        rw [collapseGo, if_pos hs, if_pos rfl]
        exact ih true
      | false =>
        rw [collapseGo, if_pos hs, if_neg (by simp)]
        exact ⟨fun _ => ⟨rfl, collapseGo_headNot t⟩, ih true⟩
    · rw [collapseGo, if_neg hs]
      exact ⟨fun h' => absurd h' hs, ih false⟩

/-- Starting state does not matter on a non-space head. -/
theorem collapseGo_of_headNot {t : List Char} (h : HeadNotSpace t) :
    collapseGo true t = collapseGo false t := by
  cases t with
  | nil => rfl
  | cons d t2 =>
    have hd : isSpaceCh d = false := h
    rw [collapseGo, collapseGo, if_neg (by simp [hd]), if_neg (by simp [hd])]

/-- Collapsing is the identity on collapsed text. -/
theorem collapseGo_id {l : List Char} (h : Collapsed l) : collapseGo false l = l := by
  induction l with
  | nil => rfl
  | cons d t ih =>
    by_cases hs : isSpaceCh d = true
    · obtain ⟨hd, hh⟩ := h.1 hs
      rw [collapseGo, if_pos hs, if_neg (by simp), hd,
        collapseGo_of_headNot hh, ih h.2]
    · rw [collapseGo, if_neg hs, ih h.2]

/-- After `dropWhile`, the head fails the predicate. -/
theorem dropWhile_headNot (l : List Char) : HeadNotSpace (l.dropWhile isSpaceCh) := by
  induction l with
  | nil => trivial
  | cons d t ih =>
    rw [List.dropWhile_cons]
    by_cases hs : isSpaceCh d = true
    · rw [if_pos hs]
      exact ih
    · rw [if_neg hs]
      simpa [HeadNotSpace] using hs

/-- `dropWhile` does nothing when the head already fails the predicate. -/
theorem dropWhile_of_headNot {l : List Char} (h : HeadNotSpace l) :
    l.dropWhile isSpaceCh = l := by
  cases l with
  | nil => rfl
  | cons d t =>
    rw [List.dropWhile_cons, if_neg (by simp [show isSpaceCh d = false from h])]

/-- Every list splits around its strip. -/
theorem pyStrip_decomp (l : List Char) : ∃ a b, l = a ++ pyStrip l ++ b := by
  refine ⟨l.takeWhile isSpaceCh,
    ((l.dropWhile isSpaceCh).reverse.takeWhile isSpaceCh).reverse, ?_⟩
  unfold pyStrip
  conv => lhs; rw [← List.takeWhile_append_dropWhile isSpaceCh l]
  rw [List.append_assoc]
  congr 1
  conv => lhs; rw [← List.reverse_reverse (l.dropWhile isSpaceCh)]
  conv => lhs; rw [← List.takeWhile_append_dropWhile isSpaceCh (l.dropWhile isSpaceCh).reverse]
  rw [List.reverse_append]

/-- The strip output starts with a non-space. -/
theorem pyStrip_headNot (l : List Char) : HeadNotSpace (pyStrip l) := by
  have hM : HeadNotSpace (l.dropWhile isSpaceCh) := dropWhile_headNot l
  have hdec : ∃ b, l.dropWhile isSpaceCh = pyStrip l ++ b := by
    refine ⟨((l.dropWhile isSpaceCh).reverse.takeWhile isSpaceCh).reverse, ?_⟩
    unfold pyStrip
    conv => lhs; rw [← List.reverse_reverse (l.dropWhile isSpaceCh)]
    conv => lhs; rw [← List.takeWhile_append_dropWhile isSpaceCh (l.dropWhile isSpaceCh).reverse]
    rw [List.reverse_append]
  obtain ⟨b, hb⟩ := hdec
  cases hp : pyStrip l with
  | nil => trivial
  | cons c t =>
    rw [hp] at hb
    rw [hb] at hM
    exact hM

/-- The reversed strip output starts with a non-space (no trailing space). -/
theorem pyStrip_revHeadNot (l : List Char) : HeadNotSpace (pyStrip l).reverse := by
  unfold pyStrip
  rw [List.reverse_reverse]
  exact dropWhile_headNot _

/-- Stripping is the identity without leading or trailing whitespace. -/
theorem pyStrip_id {l : List Char} (h1 : HeadNotSpace l)
    (h2 : HeadNotSpace l.reverse) : pyStrip l = l := by
  unfold pyStrip
  rw [dropWhile_of_headNot h1, dropWhile_of_headNot h2, List.reverse_reverse]

/-- `TagFree` holds of any middle part. -/
theorem tagFree_middle {a m b : List Char} (h : TagFree (a ++ m ++ b)) : TagFree m :=
  tagFree_prefix (@tagFree_suffix a (m ++ b) (by rwa [← List.append_assoc]))

/-- `Collapsed` ignores a prefix. -/
theorem collapsed_suffix {a b : List Char} (h : Collapsed (a ++ b)) : Collapsed b := by
  induction a with
  | nil => exact h
  | cons c t ih => exact ih h.2

/-- `Collapsed` survives removing a suffix. -/
theorem collapsed_prefix {a b : List Char} (h : Collapsed (a ++ b)) : Collapsed a := by
  induction a with
  | nil => trivial
  | cons c t ih =>
    refine ⟨?_, ih h.2⟩
    intro hs
    obtain ⟨hc, hh⟩ := h.1 hs
    refine ⟨hc, ?_⟩
    cases t with
    | nil => trivial
    | cons e t2 => exact hh

/-- `Collapsed` holds of any middle part. -/
theorem collapsed_middle {a m b : List Char} (h : Collapsed (a ++ m ++ b)) : Collapsed m :=
  collapsed_prefix (@collapsed_suffix a (m ++ b) (by rwa [← List.append_assoc]))

/-- The tail of the `clean_html` pipeline yields tag-free, collapsed text. -/
theorem clean_html_tail_props (l : List Char) :
    TagFree (pyStrip (collapseGo false (subTags (l.length + 1) l))) ∧
      Collapsed (pyStrip (collapseGo false (subTags (l.length + 1) l))) := by
  have htf := subTags_tagFree (l.length + 1) l (Nat.le_succ _)
  have h1 := collapseGo_tagFree htf false
  have h2 := collapseGo_collapsed (subTags (l.length + 1) l) false
  obtain ⟨a, b, hab⟩ := pyStrip_decomp (collapseGo false (subTags (l.length + 1) l))
  rw [hab] at h1 h2
  exact ⟨tagFree_middle h1, collapsed_middle h2⟩

/-- `clean_html` fixes any tag-free, collapsed, stripped text. -/
theorem clean_html_fixed {l : List Char} (htf : TagFree l) (hc : Collapsed l)
    (hh : HeadNotSpace l) (hr : HeadNotSpace l.reverse)
    (hne : String.mk l ≠ "") : clean_html (String.mk l) = String.mk l := by
  simp only [clean_html, if_neg hne]
  have hscr : stripBlock "<script".data "</script>".data
      ((String.mk l).data.length + 1) (String.mk l).data = l := by
    have hpat : "<script".data = '<' :: 's' :: "cript".data := rfl
    rw [hpat]
    exact stripBlock_id (by decide) htf _
  rw [hscr]
  have hsty : stripBlock "<style".data "</style>".data (l.length + 1) l = l := by
    have hpat : "<style".data = '<' :: 's' :: "tyle".data := rfl
    rw [hpat]
    exact stripBlock_id (by decide) htf _
  rw [hsty, subTags_id htf (l.length + 1), collapseGo_id hc, pyStrip_id hh hr]

/-- `clean_html` is idempotent. -/
theorem clean_html_idem (s : String) : clean_html (clean_html s) = clean_html s := by
  by_cases h0 : s = ""
  · rw [h0]
    rfl
  · by_cases h1 : clean_html s = ""
    · rw [h1]
      rfl
    · have hdata : (clean_html s).data = pyStrip (collapseGo false
          (subTags ((stripBlock "<style".data "</style>".data
              ((stripBlock "<script".data "</script>".data (s.data.length + 1) s.data).length + 1)
              (stripBlock "<script".data "</script>".data (s.data.length + 1) s.data)).length + 1)
            (stripBlock "<style".data "</style>".data
              ((stripBlock "<script".data "</script>".data (s.data.length + 1) s.data).length + 1)
              (stripBlock "<script".data "</script>".data (s.data.length + 1) s.data)))) := by
        simp only [clean_html, if_neg h0]
      obtain ⟨htf, hcl⟩ := clean_html_tail_props
        (stripBlock "<style".data "</style>".data
          ((stripBlock "<script".data "</script>".data (s.data.length + 1) s.data).length + 1)
          (stripBlock "<script".data "</script>".data (s.data.length + 1) s.data))
      rw [← hdata] at htf hcl
      have hh : HeadNotSpace (clean_html s).data := by
        rw [hdata]
        exact pyStrip_headNot _
      have hr : HeadNotSpace (clean_html s).data.reverse := by
        rw [hdata]
        exact pyStrip_revHeadNot _
      exact clean_html_fixed htf hcl hh hr h1

/-- Stripping a string twice equals stripping once. -/
theorem pyStripStr_idem (s : String) : pyStripStr (pyStripStr s) = pyStripStr s := by
  unfold pyStripStr
  have hd : (String.mk (pyStrip s.data)).data = pyStrip s.data := rfl
  rw [hd, pyStrip_id (pyStrip_headNot s.data) (pyStrip_revHeadNot s.data)]

/-- The sitemap feed of the C3 counterexample. -/
def feedC3 : FeedDef :=
  ⟨"rx", "RX", "http://rx.example.com/map.xml", "reuters_news_sitemap_index",
   "G", "en", [], 1⟩

/-- Its sitemap data: one article whose title holds a double space. -/
def dataC3 : ReutersData :=
  ⟨.ok [{ loc := some "http://rx.example.com/s1.xml" }],
   fun _ => .ok [{ loc := some "http://rx.com/a1",
                   title := some "A  double  spaced title" }]⟩

/-- The item the sitemap adapter emits for `dataC3`: its title keeps the
internal whitespace run. -/
def itemC3 : Item :=
  { id := "690aab3aa8d32f828b8840f10e35c0f6cc13d29a",
    title := "A  double  spaced title", link := "http://rx.com/a1",
    published := none, source_id := "rx", source := "RX", region := "G",
    lang := "en", tags := ["Reuters"], weight := 1, summary := "" }

set_option maxRecDepth 100000 in
/-- Counterexample to C3 as stated: the sitemap adapter only strips
leading and trailing whitespace from titles, so a title with an internal
whitespace run is not whitespace-collapsed. -/
theorem c3_counterexample :
    parse_reuters List.dedup feedC3 dataC3 40 = .ok [itemC3] ∧
      clean_html itemC3.title ≠ itemC3.title := by
  with_unfolding_all decide

/-- **C3 (amended)**: every RSS-adapter item title is HTML-stripped and
whitespace-collapsed (applying the normalization again changes nothing);
sitemap-adapter titles are only stripped of leading and trailing
whitespace (stripping again changes nothing). -/
theorem c3_titles :
    (∀ (feed : FeedDef) (entries : List Entry) (m : Nat) (it : Item),
      it ∈ parse_rss feed entries m → clean_html it.title = it.title) ∧
    (∀ (tagOrder : List String → List String) (feed : FeedDef) (d : ReutersData)
      (m : Nat) (items : List Item) (it : Item),
      parse_reuters tagOrder feed d m = .ok items → it ∈ items →
        pyStripStr it.title = it.title) := by
  constructor
  · intro feed entries m it h
    obtain ⟨e, _, _, hit⟩ := parse_rss_mem h
    rw [hit]
    exact clean_html_idem _
  · intro tagOrder feed d m items it h hm
    obtain ⟨raw, _, _, rawT, ht⟩ := parse_reuters_shape h it hm
    rw [ht]
    exact pyStripStr_idem _

/-- The RSS feed and item of the C3 witness. -/
def feedC3r : FeedDef := ⟨"s3", "S3", "http://s3", "rss", "G", "en", [], 1⟩

/-- The item `parse_rss` emits for the C3 witness entry. -/
def itemC3r : Item :=
  { id := "39ee66998b3853e980f2a3e5025113d343e6733e",
    title := "T3 boldly", link := "http://b.com/x", published := none,
    source_id := "s3", source := "S3", region := "G", lang := "en",
    tags := [], weight := 1, summary := "" }

set_option maxRecDepth 100000 in
/-- Witness for C3 (amended) on concrete adapter runs. -/
theorem c3_titles_witness :
    clean_html itemC3r.title = itemC3r.title ∧
      pyStripStr itemC3.title = itemC3.title :=
  ⟨c3_titles.1 feedC3r
      [{ link := some "http://b.com/x", title := some "T3  <b>boldly</b>" }] 40 itemC3r
      (by with_unfolding_all decide),
   c3_titles.2 List.dedup feedC3 dataC3 40 [itemC3] itemC3
      (by with_unfolding_all decide) (by with_unfolding_all decide)⟩

/-! ## C4: URL canonicalization -/

set_option maxRecDepth 20000 in
/-- **C4 (counterexample)**: `canonicalize_url` is not idempotent in general:
the input `"/////x"` canonicalizes to `"///x"` (the netloc is empty, and
Python 3.11's `urlunsplit` does not restore the dropped `//`), and a second
application shortens it again to `"/x"`. Moreover, on a URL on which
`urlsplit` raises — here an invalid bracketed host — the `except Exception`
fallback returns the input unchanged, keeping its tracking parameter
`utm_a`. -/
theorem c4_counterexample :
    canonicalize_url (canonicalize_url "/////x") ≠ canonicalize_url "/////x" ∧
    canonicalize_url "http://[abc]/x?utm_a=1&b=2" = "http://[abc]/x?utm_a=1&b=2" :=
  ⟨by decide, by decide⟩

/-- Tails that can follow the path part of a reassembled URL: nothing, a
query introduced by `?`, or a fragment introduced by `#`. -/
def TailShaped (x : List Char) : Prop :=
  x = [] ∨ (∃ t, x = '?' :: t) ∨ (∃ t, x = '#' :: t)

/-- A scheme as `urlsplit` accepts it: non-empty, starting with an ASCII
letter, made of scheme characters, and already lower-case. -/
def SchemeOk (s : List Char) : Prop :=
  (∃ c t, s = c :: t ∧ isAsciiAlphaCh c = true) ∧
    s.all schemeChar = true ∧ s.map asciiLowerCh = s

/-- URL splits that `urlunsplit` reassembles faithfully: either there is a
netloc, or the path does not itself begin with `//` and (when the scheme is
a netloc-using one) the path is empty or absolute, so that reassembly does
not move characters between components. -/
def GoodSplit (P : UrlParts) : Prop :=
  P.netloc ≠ [] ∨
    (P.path.take 2 ≠ ['/', '/'] ∧
      (P.scheme = [] ∨ P.scheme ∉ usesNetloc ∨ P.path = [] ∨ P.path.take 1 = ['/']))

/-- Splitting a list whose first separator lies in the first part ignores
the second part. -/
theorem splitAtFirstCh_append_some {sep : Char} {l1 l2 a b : List Char}
    (h : splitAtFirstCh sep l1 = (a, some b)) :
    splitAtFirstCh sep (l1 ++ l2) = (a, some (b ++ l2)) := by
  induction l1 generalizing a with
  | nil => simp [splitAtFirstCh] at h
  | cons c t ih =>
    by_cases hc : c = sep
    · subst hc
      simp only [splitAtFirstCh, if_pos rfl, Prod.mk.injEq, Option.some.injEq] at h
      obtain ⟨rfl, rfl⟩ := h
      simp [splitAtFirstCh]
    · simp only [splitAtFirstCh, hc, if_false, Prod.mk.injEq] at h
      obtain ⟨h1, h2⟩ := h
      have h3 : splitAtFirstCh sep t = ((splitAtFirstCh sep t).1, some b) := by rw [← h2]
      rw [List.cons_append]
      simp only [splitAtFirstCh, hc, if_false, ih h3]
      rw [← h1]

/-- Splitting past a separator-free prefix splits the remainder. -/
theorem splitAtFirstCh_append_not_mem {sep : Char} {l1 : List Char} (h : sep ∉ l1)
    (l2 : List Char) :
    splitAtFirstCh sep (l1 ++ l2) =
      (l1 ++ (splitAtFirstCh sep l2).1, (splitAtFirstCh sep l2).2) := by
  induction l1 with
  | nil => simp
  | cons c t ih =>
    have hc : ¬ c = sep := fun he => h (he ▸ List.mem_cons_self c t)
    rw [List.cons_append]
    simp only [splitAtFirstCh, hc, if_false, ih (fun hm => h (List.mem_cons_of_mem c hm))]
    simp

/-- Partitioning at an explicit first separator. -/
theorem splitOpt_append_sep {sep : Char} {a : List Char} (h : sep ∉ a) (b : List Char) :
    splitOpt sep (a ++ sep :: b) = (a, b) := by
  unfold splitOpt
  rw [splitAtFirstCh_append_not_mem h]
  simp [splitAtFirstCh]

/-- Partitioning a separator-free list. -/
theorem splitOpt_of_not_mem {sep : Char} {l : List Char} (h : sep ∉ l) :
    splitOpt sep l = (l, []) := by
  unfold splitOpt
  rw [splitAtFirstCh_of_not_mem h]

/-- The part before the first separator does not contain it. -/
theorem splitOpt_fst_not_mem (sep : Char) (l : List Char) : sep ∉ (splitOpt sep l).1 := by
  unfold splitOpt
  rcases hs : splitAtFirstCh sep l with ⟨a, o⟩
  cases o with
  | none =>
    have h1 := splitAtFirstCh_none_not_mem hs
    have h2 := splitAtFirstCh_of_not_mem h1
    rw [h2] at hs
    simpa using (Prod.mk.injEq _ _ _ _ ▸ hs : l = a ∧ (none : Option (List Char)) = none).1 ▸ h1
  | some b =>
    exact (splitAtFirstCh_eq_some hs).2

/-- A list is its partition's first part, possibly followed by the
separator and the second part. -/
theorem splitOpt_decomp (sep : Char) (l : List Char) :
    l = (splitOpt sep l).1 ∨ l = (splitOpt sep l).1 ++ sep :: (splitOpt sep l).2 := by
  unfold splitOpt
  rcases hs : splitAtFirstCh sep l with ⟨a, o⟩
  cases o with
  | none =>
    left
    have h1 := splitAtFirstCh_none_not_mem hs
    have h2 := (splitAtFirstCh_of_not_mem h1).symm.trans hs
    simpa using congrArg Prod.fst h2
  | some b =>
    right
    exact (splitAtFirstCh_eq_some hs).1

/-- `takeWhile` passes over a prefix it accepts wholly. -/
theorem takeWhile_append_all {p : Char → Bool} {a : List Char} (h : a.all p = true)
    (b : List Char) : (a ++ b).takeWhile p = a ++ b.takeWhile p := by
  induction a with
  | nil => simp
  | cons c t ih =>
    have h2 := h
    simp only [List.all_cons, Bool.and_eq_true] at h2
    rw [List.cons_append, List.takeWhile_cons, if_pos h2.1, ih h2.2]
    rfl

/-- `dropWhile` drops a prefix it accepts wholly. -/
theorem dropWhile_append_all {p : Char → Bool} {a : List Char} (h : a.all p = true)
    (b : List Char) : (a ++ b).dropWhile p = b.dropWhile p := by
  induction a with
  | nil => simp
  | cons c t ih =>
    have h2 := h
    simp only [List.all_cons, Bool.and_eq_true] at h2
    rw [List.cons_append, List.dropWhile_cons, if_pos h2.1, ih h2.2]

/-- `takeWhile` stops at a rejected head. -/
theorem takeWhile_nil_of_head {p : Char → Bool} {c : Char} (h : p c = false)
    (t : List Char) : (c :: t).takeWhile p = [] := by
  rw [List.takeWhile_cons, if_neg (by simp [h])]

/-- `dropWhile` keeps a rejected head. -/
theorem dropWhile_cons_of_head {p : Char → Bool} {c : Char} (h : p c = false)
    (t : List Char) : (c :: t).dropWhile p = c :: t := by
  rw [List.dropWhile_cons, if_neg (by simp [h])]

/-- The head surviving `dropWhile`, when any, is rejected. -/
theorem dropWhile_head_fails (p : Char → Bool) (l : List Char) :
    ∀ c t, l.dropWhile p = c :: t → p c = false := by
  induction l with
  | nil => intro c t h; simp at h
  | cons d t2 ih =>
    intro c t h
    rw [List.dropWhile_cons] at h
    by_cases hd : p d = true
    · exact ih c t (by rwa [if_pos hd] at h)
    · rw [if_neg hd] at h
      cases h
      exact Bool.not_eq_true _ ▸ hd

/-- Unfolding of `schemeSplit` when there is no colon. -/
theorem schemeSplit_eq_none {u a : List Char} (hs : splitAtFirstCh ':' u = (a, none)) :
    schemeSplit u = ([], u) := by
  simp only [schemeSplit, hs]

/-- Unfolding of `schemeSplit` when the part before the colon is empty. -/
theorem schemeSplit_eq_nil {u rest : List Char}
    (hs : splitAtFirstCh ':' u = ([], some rest)) : schemeSplit u = ([], u) := by
  simp only [schemeSplit, hs]

/-- Unfolding of `schemeSplit` on a non-empty candidate scheme. -/
theorem schemeSplit_eq_cons {u rest : List Char} {c : Char} {t : List Char}
    (hs : splitAtFirstCh ':' u = (c :: t, some rest)) :
    schemeSplit u =
      if isAsciiAlphaCh c && (c :: t).all schemeChar then ((c :: t).map asciiLowerCh, rest)
      else ([], u) := by
  simp only [schemeSplit, hs]

/-- Lower-casing is idempotent. -/
theorem asciiLowerCh_idem (c : Char) : asciiLowerCh (asciiLowerCh c) = asciiLowerCh c := by
  by_cases h : 65 ≤ c.toNat ∧ c.toNat ≤ 90
  · have h1 : (asciiLowerCh c).toNat = c.toNat + 32 := by rw [asciiLowerCh_toNat, if_pos h]
    have h2 : ¬ (65 ≤ (asciiLowerCh c).toNat ∧ (asciiLowerCh c).toNat ≤ 90) := by omega
    show (if 65 ≤ (asciiLowerCh c).toNat && (asciiLowerCh c).toNat ≤ 90 then
        Char.ofNat ((asciiLowerCh c).toNat + 32) else asciiLowerCh c) = asciiLowerCh c
    rw [if_neg (by simpa using h2)]
  · have h1 : asciiLowerCh c = c := by
      show (if 65 ≤ c.toNat && c.toNat ≤ 90 then Char.ofNat (c.toNat + 32) else c) = c
      rw [if_neg (by simpa using h)]
    rw [h1, h1]

/-- Lower-casing preserves ASCII letters. -/
theorem isAsciiAlphaCh_lower {c : Char} (h : isAsciiAlphaCh c = true) :
    isAsciiAlphaCh (asciiLowerCh c) = true := by
  unfold isAsciiAlphaCh at h ⊢
  have ht := asciiLowerCh_toNat c
  simp only [Bool.or_eq_true, Bool.and_eq_true, decide_eq_true_eq] at h ⊢
  split at ht <;> omega

/-- Lower-casing preserves scheme characters. -/
theorem schemeChar_lower {c : Char} (h : schemeChar c = true) :
    schemeChar (asciiLowerCh c) = true := by
  by_cases hr : 65 ≤ c.toNat ∧ c.toNat ≤ 90
  · have ht : (asciiLowerCh c).toNat = c.toNat + 32 := by rw [asciiLowerCh_toNat, if_pos hr]
    have h1 : isAsciiAlphaCh (asciiLowerCh c) = true := by
      unfold isAsciiAlphaCh
      simp only [Bool.or_eq_true, Bool.and_eq_true, decide_eq_true_eq, ht]
      omega
    unfold schemeChar
    rw [h1]
    simp
  · have ht : asciiLowerCh c = c := by
      unfold asciiLowerCh
      rw [if_neg (by simpa using hr)]
    rw [ht]
    exact h

/-- The scheme part that `schemeSplit` extracts is empty or well-formed. -/
theorem schemeSplit_fst_ok (u : List Char) :
    (schemeSplit u).1 = [] ∨ SchemeOk (schemeSplit u).1 := by
  rcases hs : splitAtFirstCh ':' u with ⟨pre, o⟩
  cases o with
  | none => rw [schemeSplit_eq_none hs]; left; rfl
  | some rest =>
    cases pre with
    | nil => rw [schemeSplit_eq_nil hs]; left; rfl
    | cons c t =>
      rw [schemeSplit_eq_cons hs]
      by_cases hc : (isAsciiAlphaCh c && (c :: t).all schemeChar) = true
      · rw [if_pos hc]
        have hc2 := hc
        simp only [Bool.and_eq_true] at hc2
        rcases hc2 with ⟨h1, h2⟩
        right
        refine ⟨⟨asciiLowerCh c, t.map asciiLowerCh, rfl, isAsciiAlphaCh_lower h1⟩, ?_, ?_⟩
        · apply List.all_eq_true.mpr
          intro x hx
          rcases List.mem_map.mp hx with ⟨y, hy, rfl⟩
          exact schemeChar_lower (List.all_eq_true.mp h2 y hy)
        · rw [List.map_map]
          exact List.map_congr_left (fun a _ => asciiLowerCh_idem a)
      · rw [if_neg hc]; left; rfl

/-- A well-formed scheme followed by a colon is recognized and stripped. -/
theorem schemeSplit_ok {s rest : List Char} (h : SchemeOk s) :
    schemeSplit (s ++ ':' :: rest) = (s, rest) := by
  obtain ⟨⟨c, t, rfl, hca⟩, hall, hlow⟩ := h
  have hnc : (':') ∉ c :: t := by
    intro hm
    have h2 := List.all_eq_true.mp hall ':' hm
    exact absurd h2 (by decide)
  have hin : splitAtFirstCh ':' ((c :: t) ++ ':' :: rest) = (c :: t, some rest) := by
    rw [splitAtFirstCh_append_not_mem hnc]
    simp [splitAtFirstCh]
  rw [schemeSplit_eq_cons hin, if_pos (by rw [hca, hall]; rfl), hlow]

/-- A colon-free URL yields no scheme. -/
theorem schemeSplit_of_no_colon {u : List Char} (h : (':') ∉ u) :
    schemeSplit u = ([], u) :=
  schemeSplit_eq_none (splitAtFirstCh_of_not_mem h)

/-- A URL starting with a non-letter yields no scheme. -/
theorem schemeSplit_fail_head {c : Char} {t : List Char} (h : isAsciiAlphaCh c = false) :
    schemeSplit (c :: t) = ([], c :: t) := by
  rcases hs : splitAtFirstCh ':' (c :: t) with ⟨pre, o⟩
  cases o with
  | none => exact schemeSplit_eq_none hs
  | some rest =>
    cases pre with
    | nil => exact schemeSplit_eq_nil hs
    | cons c0 t0 =>
      rw [schemeSplit_eq_cons hs]
      have hdec := (splitAtFirstCh_eq_some hs).1
      rw [List.cons_append] at hdec
      have hc0 : c0 = c := ((List.cons.injEq _ _ _ _).mp hdec).1.symm
      subst hc0
      rw [if_neg (by simp [h])]

/-- A candidate scheme containing a non-scheme character is rejected. -/
theorem schemeSplit_fail_of_pre_bad {u pre rest : List Char}
    (hs : splitAtFirstCh ':' u = (pre, some rest))
    (hbad : ∃ c ∈ pre, schemeChar c = false) :
    schemeSplit u = ([], u) := by
  cases pre with
  | nil => exact schemeSplit_eq_nil hs
  | cons c0 t0 =>
    rw [schemeSplit_eq_cons hs]
    rcases hbad with ⟨c, hc, hcf⟩
    have hall : (c0 :: t0).all schemeChar = false := by
      rcases hb : (c0 :: t0).all schemeChar with _ | _
      · rfl
      · exact absurd (List.all_eq_true.mp hb c hc) (by simp [hcf])
    rw [if_neg (by simp [hall])]

/-- An empty extracted scheme means `schemeSplit` left the URL alone. -/
theorem schemeSplit_fst_nil {u : List Char} (h : (schemeSplit u).1 = []) :
    schemeSplit u = ([], u) := by
  rcases hs : splitAtFirstCh ':' u with ⟨pre, o⟩
  cases o with
  | none => exact schemeSplit_eq_none hs
  | some rest =>
    cases pre with
    | nil => exact schemeSplit_eq_nil hs
    | cons c0 t0 =>
      rw [schemeSplit_eq_cons hs] at h ⊢
      by_cases hc : (isAsciiAlphaCh c0 && (c0 :: t0).all schemeChar) = true
      · rw [if_pos hc] at h
        simp at h
      · rw [if_neg hc]

/-- A non-separator character placed after a separator-free prefix lands in
the part before the first separator. -/
theorem mem_pre_of_first {sep c : Char} {p t pre rest : List Char}
    (hs : splitAtFirstCh sep (p ++ c :: t) = (pre, some rest))
    (hp : sep ∉ p) (hc : ¬ c = sep) : c ∈ pre := by
  rw [splitAtFirstCh_append_not_mem hp] at hs
  have hin : splitAtFirstCh sep (c :: t) =
      (c :: (splitAtFirstCh sep t).1, (splitAtFirstCh sep t).2) := by
    simp only [splitAtFirstCh, hc, if_false]
  rw [hin] at hs
  have h1 := congrArg Prod.fst hs
  simp only at h1
  rw [← h1]
  exact List.mem_append_right _ (List.mem_cons_self _ _)

/-- Scheme detection failure transfers between tails: if the candidate
scheme of `p ++ x` is rejected, so is that of `p ++ y` for any
query-or-fragment-shaped tail `y`. -/
theorem schemeSplit_shift {p x y : List Char} (hy : TailShaped y)
    (hx : schemeSplit (p ++ x) = ([], p ++ x)) :
    schemeSplit (p ++ y) = ([], p ++ y) := by
  by_cases hcp : (':') ∈ p
  · rcases hsp : splitAtFirstCh ':' p with ⟨a, o⟩
    cases o with
    | none => exact absurd hcp (splitAtFirstCh_none_not_mem hsp)
    | some b =>
      have hax : splitAtFirstCh ':' (p ++ x) = (a, some (b ++ x)) :=
        splitAtFirstCh_append_some hsp
      have hay : splitAtFirstCh ':' (p ++ y) = (a, some (b ++ y)) :=
        splitAtFirstCh_append_some hsp
      cases a with
      | nil => exact schemeSplit_eq_nil hay
      | cons c0 t0 =>
        rw [schemeSplit_eq_cons hax] at hx
        rw [schemeSplit_eq_cons hay]
        by_cases hc : (isAsciiAlphaCh c0 && (c0 :: t0).all schemeChar) = true
        · rw [if_pos hc] at hx
          exfalso
          have h1 := congrArg Prod.fst hx
          simp at h1
        · rw [if_neg hc]
  · have hbadc : ∀ c : Char, c = '?' ∨ c = '#' → ∀ t, schemeSplit (p ++ c :: t) = ([], p ++ c :: t) := by
      intro c hcq t
      by_cases hin : (':') ∈ p ++ c :: t
      · rcases hs : splitAtFirstCh ':' (p ++ c :: t) with ⟨pre, o⟩
        cases o with
        | none => exact schemeSplit_eq_none hs
        | some rest =>
          apply schemeSplit_fail_of_pre_bad hs
          exact ⟨c, mem_pre_of_first hs hcp (by rcases hcq with rfl | rfl <;> decide),
            by rcases hcq with rfl | rfl <;> decide⟩
      · exact schemeSplit_of_no_colon hin
    rcases hy with rfl | ⟨t, rfl⟩ | ⟨t, rfl⟩
    · rw [List.append_nil]
      exact schemeSplit_of_no_colon hcp
    · exact hbadc '?' (Or.inl rfl) t
    · exact hbadc '#' (Or.inr rfl) t

/-- Unfolding of `splitOpt` when the separator is absent. -/
theorem splitOpt_eq_none {sep : Char} {l a : List Char}
    (hs : splitAtFirstCh sep l = (a, none)) : splitOpt sep l = (a, []) := by
  simp only [splitOpt, hs]

/-- Unfolding of `splitOpt` when the separator occurs. -/
theorem splitOpt_eq_some {sep : Char} {l a b : List Char}
    (hs : splitAtFirstCh sep l = (a, some b)) : splitOpt sep l = (a, b) := by
  simp only [splitOpt, hs]

/-- A partition either returns the whole list with an empty second part, or
decomposes the list around the first separator. -/
theorem splitOpt_full (sep : Char) (l : List Char) :
    (l = (splitOpt sep l).1 ∧ (splitOpt sep l).2 = []) ∨
      l = (splitOpt sep l).1 ++ sep :: (splitOpt sep l).2 := by
  rcases hs : splitAtFirstCh sep l with ⟨a, o⟩
  cases o with
  | none =>
    rw [splitOpt_eq_none hs]
    left
    have h1 := splitAtFirstCh_none_not_mem hs
    have h2 := (splitAtFirstCh_of_not_mem h1).symm.trans hs
    exact ⟨(congrArg Prod.fst h2 : l = a), rfl⟩
  | some b =>
    rw [splitOpt_eq_some hs]
    right
    exact (splitAtFirstCh_eq_some hs).1

/-- The first part of a partition is a prefix of the list. -/
theorem splitOpt_fst_prefix (sep : Char) (l : List Char) :
    ∃ z, l = (splitOpt sep l).1 ++ z := by
  rcases splitOpt_full sep l with ⟨h1, _⟩ | h1
  · exact ⟨[], by rw [List.append_nil]; exact h1⟩
  · exact ⟨sep :: (splitOpt sep l).2, h1⟩

/-- A character rejected by `netlocChar` is `/`, `?` or `#`. -/
theorem netlocChar_false {c : Char} (h : netlocChar c = false) :
    c = '/' ∨ c = '?' ∨ c = '#' := by
  by_cases h1 : c = '/'
  · exact Or.inl h1
  by_cases h2 : c = '?'
  · exact Or.inr (Or.inl h2)
  by_cases h3 : c = '#'
  · exact Or.inr (Or.inr h3)
  exfalso
  simp [netlocChar, h1, h2, h3] at h

/-- A query-or-fragment-shaped list yields no scheme. -/
theorem schemeSplit_fail_tail {y : List Char} (hy : TailShaped y) :
    schemeSplit y = ([], y) := by
  rcases hy with rfl | ⟨t, rfl⟩ | ⟨t, rfl⟩
  · decide
  · exact schemeSplit_fail_head (by decide)
  · exact schemeSplit_fail_head (by decide)

/-- The fragment-then-query partition of a base list: the path part is free
of `?` and `#`, the query part is free of `#`, and the base is the path
followed by a query-or-fragment-shaped tail. -/
theorem pqParts_props (L : List Char) :
    ('?') ∉ (splitOpt '?' (splitOpt '#' L).1).1 ∧
    ('#') ∉ (splitOpt '?' (splitOpt '#' L).1).1 ∧
    ('#') ∉ (splitOpt '?' (splitOpt '#' L).1).2 ∧
    ∃ z, TailShaped z ∧ L = (splitOpt '?' (splitOpt '#' L).1).1 ++ z := by
  have hXn : ('#') ∉ (splitOpt '#' L).1 := splitOpt_fst_not_mem '#' L
  refine ⟨splitOpt_fst_not_mem '?' (splitOpt '#' L).1, ?_, ?_, ?_⟩
  · intro hm
    rcases splitOpt_fst_prefix '?' (splitOpt '#' L).1 with ⟨z, hz⟩
    exact hXn (hz ▸ List.mem_append_left z hm)
  · intro hm
    rcases splitOpt_full '?' (splitOpt '#' L).1 with ⟨_, h0⟩ | h0
    · rw [h0] at hm
      exact absurd hm (List.not_mem_nil _)
    · exact hXn (h0 ▸ List.mem_append_right _ (List.mem_cons_of_mem _ hm))
  · rcases splitOpt_full '#' L with ⟨g1, _⟩ | g1 <;>
      rcases splitOpt_full '?' (splitOpt '#' L).1 with ⟨h1, _⟩ | h1
    · exact ⟨[], Or.inl rfl, by rw [List.append_nil, ← h1]; exact g1⟩
    · exact ⟨'?' :: (splitOpt '?' (splitOpt '#' L).1).2, Or.inr (Or.inl ⟨_, rfl⟩),
        g1.trans h1⟩
    · exact ⟨'#' :: (splitOpt '#' L).2, Or.inr (Or.inr ⟨_, rfl⟩), by rw [← h1]; exact g1⟩
    · refine ⟨'?' :: ((splitOpt '?' (splitOpt '#' L).1).2 ++ '#' :: (splitOpt '#' L).2),
        Or.inr (Or.inl ⟨_, rfl⟩), ?_⟩
      have hc : L = ((splitOpt '?' (splitOpt '#' L).1).1 ++
          '?' :: (splitOpt '?' (splitOpt '#' L).1).2) ++ '#' :: (splitOpt '#' L).2 := by
        rw [← h1]
        exact g1
      exact hc.trans (by simp)

/-- Unfolding of `splitUrl` when the remainder after the scheme begins with
`//`. -/
theorem splitUrl_eq_pos {u : String} {sch rest : List Char}
    (hs : schemeSplit u.data = (sch, rest)) (hnl : rest.take 2 = ['/', '/']) :
    splitUrl u = ⟨sch, (rest.drop 2).takeWhile netlocChar,
      (splitOpt '?' (splitOpt '#' ((rest.drop 2).dropWhile netlocChar)).1).1,
      (splitOpt '?' (splitOpt '#' ((rest.drop 2).dropWhile netlocChar)).1).2,
      (splitOpt '#' ((rest.drop 2).dropWhile netlocChar)).2⟩ := by
  simp only [splitUrl, hs]
  rw [if_pos hnl]

/-- Unfolding of `splitUrl` when the remainder after the scheme does not
begin with `//`. -/
theorem splitUrl_eq_neg {u : String} {sch rest : List Char}
    (hs : schemeSplit u.data = (sch, rest)) (hnl : ¬ rest.take 2 = ['/', '/']) :
    splitUrl u = ⟨sch, [],
      (splitOpt '?' (splitOpt '#' rest).1).1,
      (splitOpt '?' (splitOpt '#' rest).1).2,
      (splitOpt '#' rest).2⟩ := by
  simp only [splitUrl, hs]
  rw [if_neg hnl]

/-- The structural invariants of every `urlsplit` result: a well-formed or
empty scheme, a netloc of netloc characters, a path free of `?` and `#`, a
query free of `#`, a path that is empty or absolute whenever there is a
netloc, and (when there is no scheme) a path that starts no scheme whatever
query-or-fragment tail follows it. -/
theorem splitUrl_invariants (u : String) :
    ((splitUrl u).scheme = [] ∨ SchemeOk (splitUrl u).scheme) ∧
    (splitUrl u).netloc.all netlocChar = true ∧
    (('?') ∉ (splitUrl u).path ∧ ('#') ∉ (splitUrl u).path ∧ ('#') ∉ (splitUrl u).query) ∧
    ((splitUrl u).netloc ≠ [] → (splitUrl u).path = [] ∨ (splitUrl u).path.take 1 = ['/']) ∧
    ((splitUrl u).scheme = [] → ∀ y, TailShaped y →
      schemeSplit ((splitUrl u).path ++ y) = ([], (splitUrl u).path ++ y)) := by
  rcases hs : schemeSplit u.data with ⟨sch, rest⟩
  have hso : sch = [] ∨ SchemeOk sch := by
    have h1 := schemeSplit_fst_ok u.data
    rw [hs] at h1
    exact h1
  by_cases hnl : rest.take 2 = ['/', '/']
  · have he := splitUrl_eq_pos hs hnl
    rw [he]
    obtain ⟨hq, hh, hhq, z, hz, hM⟩ := pqParts_props ((rest.drop 2).dropWhile netlocChar)
    have hshape :
        (splitOpt '?' (splitOpt '#' ((rest.drop 2).dropWhile netlocChar)).1).1 = [] ∨
        ∃ p', (splitOpt '?' (splitOpt '#' ((rest.drop 2).dropWhile netlocChar)).1).1 =
          '/' :: p' := by
      rcases hE : (splitOpt '?' (splitOpt '#' ((rest.drop 2).dropWhile netlocChar)).1).1 with
        _ | ⟨c, p'⟩
      · exact Or.inl rfl
      · rw [hE] at hq hh hM
        have hM2 : (rest.drop 2).dropWhile netlocChar = c :: (p' ++ z) := by
          rw [hM]
          rfl
        have hcf : netlocChar c = false :=
          dropWhile_head_fails netlocChar (rest.drop 2) c (p' ++ z) hM2
        rcases netlocChar_false hcf with rfl | rfl | rfl
        · exact Or.inr ⟨p', rfl⟩
        · exact absurd (List.mem_cons_self _ _) hq
        · exact absurd (List.mem_cons_self _ _) hh
    refine ⟨hso, ?_, ⟨hq, hh, hhq⟩,
      fun _ => hshape.imp id (fun hp => by rcases hp with ⟨p', hp⟩; rw [hp]; rfl), ?_⟩
    · show ((rest.drop 2).takeWhile netlocChar).all netlocChar = true
      exact List.all_eq_true.mpr fun x hx => List.mem_takeWhile_imp hx
    · show sch = [] → ∀ y, TailShaped y →
        schemeSplit ((splitOpt '?' (splitOpt '#' ((rest.drop 2).dropWhile netlocChar)).1).1
            ++ y) =
          ([], (splitOpt '?' (splitOpt '#' ((rest.drop 2).dropWhile netlocChar)).1).1 ++ y)
      intro _ y hy
      rcases hshape with hE | ⟨p', hE⟩
      · rw [hE, List.nil_append]
        exact schemeSplit_fail_tail hy
      · rw [hE, List.cons_append]
        exact schemeSplit_fail_head (by decide)
  · have he := splitUrl_eq_neg hs hnl
    rw [he]
    obtain ⟨hq, hh, hhq, z, hz, hM⟩ := pqParts_props rest
    refine ⟨hso, rfl, ⟨hq, hh, hhq⟩, fun hn => absurd rfl hn, ?_⟩
    show sch = [] → ∀ y, TailShaped y →
      schemeSplit ((splitOpt '?' (splitOpt '#' rest).1).1 ++ y) =
        ([], (splitOpt '?' (splitOpt '#' rest).1).1 ++ y)
    intro hsc0 y hy
    have h1 : (schemeSplit u.data).1 = [] := by
      rw [hs]
      exact hsc0
    have h2 := schemeSplit_fst_nil h1
    have h3 : u.data = rest := congrArg Prod.snd (h2.symm.trans hs)
    have hfail : schemeSplit ((splitOpt '?' (splitOpt '#' rest).1).1 ++ z) =
        ([], (splitOpt '?' (splitOpt '#' rest).1).1 ++ z) := by
      rw [← hM, ← h3]
      exact h2
    exact schemeSplit_shift hy hfail

/-- The query-and-fragment tail that `urlunsplit` appends after the path. -/
def tailOf (q f : List Char) : List Char :=
  (if q ≠ [] then '?' :: q else []) ++ (if f ≠ [] then '#' :: f else [])

/-- The appended tail is query-or-fragment shaped. -/
theorem tailOf_shaped (q f : List Char) : TailShaped (tailOf q f) := by
  by_cases hq : q = []
  · by_cases hf : f = []
    · subst hq
      subst hf
      exact Or.inl (by decide)
    · subst hq
      exact Or.inr (Or.inr ⟨f, by simp [tailOf, hf]⟩)
  · exact Or.inr (Or.inl ⟨q ++ (if f ≠ [] then '#' :: f else []),
      by simp [tailOf, hq]⟩)

/-- Splitting fragment-then-query recovers the components from a path
followed by the appended tail. -/
theorem pqt_recover {p q f : List Char} (hpq : ('?') ∉ p) (hpf : ('#') ∉ p)
    (hqf : ('#') ∉ q) :
    (splitOpt '#' (p ++ tailOf q f)).2 = f ∧
    (splitOpt '?' (splitOpt '#' (p ++ tailOf q f)).1).1 = p ∧
    (splitOpt '?' (splitOpt '#' (p ++ tailOf q f)).1).2 = q := by
  by_cases hq : q = []
  · subst hq
    by_cases hf : f = []
    · subst hf
      have h0 : tailOf ([] : List Char) ([] : List Char) = [] := by decide
      rw [h0, List.append_nil]
      simp [splitOpt_of_not_mem hpf, splitOpt_of_not_mem hpq]
    · have h0 : tailOf ([] : List Char) f = '#' :: f := by simp [tailOf, hf]
      rw [h0]
      simp [splitOpt_append_sep hpf, splitOpt_of_not_mem hpq]
  · have hq2 : ('#') ∉ p ++ '?' :: q := by
      intro hm
      rcases List.mem_append.mp hm with h | h
      · exact hpf h
      · rcases List.mem_cons.mp h with h | h
        · exact absurd h (by decide)
        · exact hqf h
    by_cases hf : f = []
    · subst hf
      have h0 : tailOf q ([] : List Char) = '?' :: q := by simp [tailOf, hq]
      rw [h0]
      simp [splitOpt_of_not_mem hq2, splitOpt_append_sep hpq]
    · have h0 : p ++ tailOf q f = (p ++ '?' :: q) ++ '#' :: f := by
        rw [tailOf, if_pos hq, if_pos hf, List.append_assoc, List.cons_append]
      rw [h0]
      simp only [splitOpt_append_sep hq2, splitOpt_append_sep hpq]
      exact ⟨trivial, trivial, trivial⟩

/-- Scanning for the netloc stops immediately on an empty-or-absolute path
followed by the appended tail. -/
theorem netloc_scan_stop {p x : List Char} (hx : TailShaped x)
    (hp : p = [] ∨ p.take 1 = ['/']) :
    (p ++ x).takeWhile netlocChar = [] ∧ (p ++ x).dropWhile netlocChar = p ++ x := by
  rcases hp with rfl | hp
  · rw [List.nil_append]
    rcases hx with rfl | ⟨t, rfl⟩ | ⟨t, rfl⟩
    · exact ⟨rfl, rfl⟩
    · exact ⟨takeWhile_nil_of_head (by decide) t, dropWhile_cons_of_head (by decide) t⟩
    · exact ⟨takeWhile_nil_of_head (by decide) t, dropWhile_cons_of_head (by decide) t⟩
  · cases p with
    | nil => simp at hp
    | cons c p' =>
      have hc : c = '/' := by simpa using hp
      subst hc
      rw [List.cons_append]
      exact ⟨takeWhile_nil_of_head (by decide) _, dropWhile_cons_of_head (by decide) _⟩

/-- A `//` prefix of a path-plus-tail already lies in the path. -/
theorem take2_append_tail {p x : List Char} (hx : TailShaped x)
    (h : (p ++ x).take 2 = ['/', '/']) : p.take 2 = ['/', '/'] := by
  cases p with
  | nil =>
    exfalso
    rw [List.nil_append] at h
    rcases hx with rfl | ⟨t, rfl⟩ | ⟨t, rfl⟩ <;> simp at h
  | cons c1 p1 =>
    cases p1 with
    | nil =>
      exfalso
      rw [List.cons_append, List.nil_append] at h
      rcases hx with rfl | ⟨t, rfl⟩ | ⟨t, rfl⟩ <;> simp at h
    | cons c2 p2 =>
      rw [List.cons_append, List.cons_append] at h
      simpa using h

/-- Re-splitting a reassembled URL recovers its components, given the
`urlsplit` invariants and a faithfully reassemblable split. -/
theorem splitUrl_unsplit {P : UrlParts}
    (hso : P.scheme = [] ∨ SchemeOk P.scheme)
    (hn : P.netloc.all netlocChar = true)
    (hpq : ('?') ∉ P.path) (hpf : ('#') ∉ P.path) (hqf : ('#') ∉ P.query)
    (hnp : P.netloc ≠ [] → P.path = [] ∨ P.path.take 1 = ['/'])
    (hsf : P.scheme = [] → ∀ y, TailShaped y →
      schemeSplit (P.path ++ y) = ([], P.path ++ y))
    (hgood : GoodSplit P) :
    splitUrl ⟨unsplitUrl P⟩ = P := by
  have hrec := pqt_recover hpq hpf hqf (f := P.fragment)
  by_cases hc1 : P.netloc ≠ [] ∨
      (P.scheme ≠ [] ∧ P.scheme ∈ usesNetloc ∧ P.path.take 2 ≠ ['/', '/'])
  · have hpa : P.path = [] ∨ P.path.take 1 = ['/'] := by
      by_cases hn0 : P.netloc = []
      · rcases hgood with h | ⟨h1, h2⟩
        · exact absurd hn0 h
        · rcases hc1 with h3 | ⟨h4, h5, h6⟩
          · exact absurd hn0 h3
          · rcases h2 with h7 | h7 | h7 | h7
            · exact absurd h7 h4
            · exact absurd h5 h7
            · exact Or.inl h7
            · exact Or.inr h7
      · exact hnp hn0
    have hinner : ¬ (P.path ≠ [] ∧ P.path.take 1 ≠ ['/']) := by
      rcases hpa with h | h
      · exact fun hx => hx.1 h
      · exact fun hx => hx.2 h
    have hq2 : (if P.path ≠ [] ∧ P.path.take 1 ≠ ['/'] then '/' :: P.path else P.path) =
        P.path := if_neg hinner
    have hR : unsplitUrl P =
        (if P.scheme ≠ [] then P.scheme ++ ':' :: ('/' :: '/' :: (P.netloc ++ P.path))
         else '/' :: '/' :: (P.netloc ++ P.path)) ++ tailOf P.query P.fragment := by
      simp only [unsplitUrl, if_pos hc1, hq2]
      by_cases hqe : P.query = [] <;> by_cases hfe : P.fragment = [] <;>
        simp [tailOf, hqe, hfe, List.append_assoc]
    have hstop := netloc_scan_stop (tailOf_shaped P.query P.fragment) hpa
    have hsx : schemeSplit (String.mk (unsplitUrl P)).data =
        (P.scheme, '/' :: '/' :: ((P.netloc ++ P.path) ++ tailOf P.query P.fragment)) := by
      show schemeSplit (unsplitUrl P) = _
      rw [hR]
      by_cases hse : P.scheme = []
      · rw [if_neg (not_not_intro hse), hse]
        have ha : ('/' :: '/' :: (P.netloc ++ P.path)) ++ tailOf P.query P.fragment =
            '/' :: '/' :: ((P.netloc ++ P.path) ++ tailOf P.query P.fragment) := by simp
        rw [ha]
        exact schemeSplit_fail_head (by decide)
      · rcases hso with h | h
        · exact absurd h hse
        rw [if_pos hse]
        have ha : (P.scheme ++ ':' :: ('/' :: '/' :: (P.netloc ++ P.path))) ++
              tailOf P.query P.fragment =
            P.scheme ++ ':' ::
              ('/' :: '/' :: ((P.netloc ++ P.path) ++ tailOf P.query P.fragment)) := by
          simp
        rw [ha]
        exact schemeSplit_ok h
    rw [splitUrl_eq_pos hsx rfl]
    have hd : ('/' :: '/' ::
          ((P.netloc ++ P.path) ++ tailOf P.query P.fragment) : List Char).drop 2 =
        P.netloc ++ (P.path ++ tailOf P.query P.fragment) := by
      simp [List.append_assoc]
    rw [hd]
    have e1 : (P.netloc ++ (P.path ++ tailOf P.query P.fragment)).takeWhile netlocChar =
        P.netloc := by
      rw [takeWhile_append_all hn, hstop.1, List.append_nil]
    have e2 : (P.netloc ++ (P.path ++ tailOf P.query P.fragment)).dropWhile netlocChar =
        P.path ++ tailOf P.query P.fragment := by
      rw [dropWhile_append_all hn, hstop.2]
    rw [e1, e2, hrec.1, hrec.2.1, hrec.2.2]
  · have hnl0 : P.netloc = [] := not_not.mp (fun h => hc1 (Or.inl h))
    have hgood2 : ¬ P.path.take 2 = ['/', '/'] := by
      rcases hgood with h | ⟨h1, _⟩
      · exact absurd hnl0 h
      · exact h1
    have hR : unsplitUrl P =
        (if P.scheme ≠ [] then P.scheme ++ ':' :: P.path else P.path) ++
          tailOf P.query P.fragment := by
      simp only [unsplitUrl, if_neg hc1]
      by_cases hqe : P.query = [] <;> by_cases hfe : P.fragment = [] <;>
        simp [tailOf, hqe, hfe, List.append_assoc]
    have hsx : schemeSplit (String.mk (unsplitUrl P)).data =
        (P.scheme, P.path ++ tailOf P.query P.fragment) := by
      show schemeSplit (unsplitUrl P) = _
      rw [hR]
      by_cases hse : P.scheme = []
      · rw [if_neg (not_not_intro hse), hse]
        exact hsf hse _ (tailOf_shaped P.query P.fragment)
      · rcases hso with h | h
        · exact absurd h hse
        rw [if_pos hse]
        have ha : (P.scheme ++ ':' :: P.path) ++ tailOf P.query P.fragment =
            P.scheme ++ ':' :: (P.path ++ tailOf P.query P.fragment) := by simp
        rw [ha]
        exact schemeSplit_ok h
    have hnt : ¬ (P.path ++ tailOf P.query P.fragment).take 2 = ['/', '/'] :=
      fun h => hgood2 (take2_append_tail (tailOf_shaped _ _) h)
    rw [splitUrl_eq_neg hsx hnt, hrec.1, hrec.2.1, hrec.2.2, ← hnl0]

/-- `hexByteVal` on a byte in a known hexadecimal range. -/
theorem hexByteVal_eq {b v : Nat}
    (h : (48 ≤ b ∧ b ≤ 57 ∧ v = b - 48) ∨ (65 ≤ b ∧ b ≤ 70 ∧ v = b - 55)) :
    hexByteVal b = v := by
  unfold hexByteVal
  rcases h with ⟨h1, h2, rfl⟩ | ⟨h1, h2, rfl⟩
  · rw [if_pos h2]
  · rw [if_neg (by omega), if_pos h2]

/-- The code point of an upper-case hexadecimal digit. -/
theorem hexDigitU_toNat {n : Nat} (h : n < 16) :
    (hexDigitU n).toNat = if n < 10 then 48 + n else 65 + (n - 10) := by
  unfold hexDigitU
  by_cases h1 : n < 10
  · rw [if_pos h1, if_pos h1]
    exact toNat_ofNat_small (by omega)
  · rw [if_neg h1, if_neg h1]
    exact toNat_ofNat_small (by omega)

/-- An upper-case hexadecimal digit is a hex byte that decodes back. -/
theorem hexDigitU_props {n : Nat} (h : n < 16) :
    ((48 ≤ (hexDigitU n).toNat ∧ (hexDigitU n).toNat ≤ 57) ∨
      (65 ≤ (hexDigitU n).toNat ∧ (hexDigitU n).toNat ≤ 70)) ∧
    isHexByte ((hexDigitU n).toNat) = true ∧
    hexByteVal ((hexDigitU n).toNat) = n := by
  by_cases h1 : n < 10
  · have ht : (hexDigitU n).toNat = 48 + n := by rw [hexDigitU_toNat h, if_pos h1]
    refine ⟨Or.inl (by omega), ?_, hexByteVal_eq (Or.inl ⟨by omega, by omega, by omega⟩)⟩
    unfold isHexByte
    simp only [Bool.or_eq_true, Bool.and_eq_true, decide_eq_true_eq]
    omega
  · have ht : (hexDigitU n).toNat = 65 + (n - 10) := by rw [hexDigitU_toNat h, if_neg h1]
    refine ⟨Or.inr (by omega), ?_, hexByteVal_eq (Or.inr ⟨by omega, by omega, by omega⟩)⟩
    unfold isHexByte
    simp only [Bool.or_eq_true, Bool.and_eq_true, decide_eq_true_eq]
    omega

/-- The bytes that `quote` keeps verbatim are ASCII and are none of the
separator bytes. -/
theorem safeByte_props {b : Nat} (h : safeByte b = true) :
    b < 128 ∧ b ≠ 37 ∧ b ≠ 43 ∧ b ≠ 38 ∧ b ≠ 61 ∧ b ≠ 35 := by
  unfold safeByte at h
  simp only [Bool.or_eq_true, Bool.and_eq_true, decide_eq_true_eq] at h
  omega

/-- `percentDecode` passes a non-`%` byte through. -/
theorem percentDecode_cons_ne {c : Nat} (h : ¬ c = 37) (rest : List Nat) :
    percentDecode (c :: rest) = c :: percentDecode rest := by
  cases rest with
  | nil => simp [percentDecode]
  | cons a r2 =>
    cases r2 with
    | nil => simp [percentDecode]
    | cons b r3 => simp [percentDecode, h]

/-- `percentDecode` decodes a valid escape. -/
theorem percentDecode_escape {a b : Nat} (ha : isHexByte a = true)
    (hb2 : isHexByte b = true) (rest : List Nat) :
    percentDecode (37 :: a :: b :: rest) =
      (16 * hexByteVal a + hexByteVal b) :: percentDecode rest := by
  simp [percentDecode, ha, hb2]

/-- `percentDecode` keeps a `%` that starts no valid escape. -/
theorem percentDecode_nothex {a b : Nat} (h : ¬ (isHexByte a && isHexByte b) = true)
    (rest : List Nat) :
    percentDecode (37 :: a :: b :: rest) = 37 :: percentDecode (a :: b :: rest) := by
  simp [percentDecode, h]

/-- One step of `quotePlus`. -/
theorem quotePlus_cons (b : Nat) (t : List Nat) :
    quotePlus (b :: t) =
      (if b = 32 then ['+']
       else if safeByte b then [Char.ofNat b]
       else ['%', hexDigitU (b / 16), hexDigitU (b % 16)]) ++ quotePlus t := by
  simp [quotePlus]

/-- UTF-8 of an ASCII character is its single code point. -/
theorem utf8Char_ascii {c : Char} (h : c.toNat < 128) : utf8Char c = [c.toNat] := by
  simp only [utf8Char]
  rw [if_pos h]

/-- UTF-8 of an empty list. -/
theorem utf8List_nil : utf8List [] = [] := rfl

/-- UTF-8 of a cons. -/
theorem utf8List_cons (c : Char) (t : List Char) :
    utf8List (c :: t) = utf8Char c ++ utf8List t := by
  simp [utf8List]

/-- UTF-8 distributes over append. -/
theorem utf8List_append (a b : List Char) :
    utf8List (a ++ b) = utf8List a ++ utf8List b := by
  simp [utf8List]

/-- Every character that `quote_plus` emits for bytes is ASCII and is none
of `&`, `=`, `#`. -/
theorem quotePlus_chars {bs : List Nat} (hb : ∀ b ∈ bs, b < 256) :
    ∀ c ∈ quotePlus bs, c.toNat < 128 ∧ c.toNat ≠ 38 ∧ c.toNat ≠ 61 ∧ c.toNat ≠ 35 := by
  induction bs with
  | nil =>
    intro c hc
    simp [quotePlus] at hc
  | cons b t ih =>
    intro c hc
    rw [quotePlus_cons] at hc
    rcases List.mem_append.mp hc with h | h
    · have hblt : b < 256 := hb b (List.mem_cons_self _ _)
      by_cases h32 : b = 32
      · rw [if_pos h32] at h
        have hc2 : c = '+' := by simpa using h
        subst hc2
        exact ⟨by decide, by decide, by decide, by decide⟩
      · rw [if_neg h32] at h
        by_cases hsf : safeByte b = true
        · rw [if_pos hsf] at h
          have hc2 : c = Char.ofNat b := by simpa using h
          subst hc2
          have hprops := safeByte_props hsf
          have htn : (Char.ofNat b).toNat = b := toNat_ofNat_small (by omega)
          rw [htn]
          omega
        · rw [if_neg hsf] at h
          rcases List.mem_cons.mp h with rfl | h2
          · exact ⟨by decide, by decide, by decide, by decide⟩
          rcases List.mem_cons.mp h2 with rfl | h3
          · have hp := hexDigitU_props (n := b / 16) (by omega)
            rcases hp.1 with hr | hr <;> omega
          rcases List.mem_cons.mp h3 with rfl | h4
          · have hp := hexDigitU_props (n := b % 16) (by omega)
            rcases hp.1 with hr | hr <;> omega
          · exact absurd h4 (List.not_mem_nil c)
    · exact ih (fun x hx => hb x (List.mem_cons_of_mem _ hx)) c h

/-- `&` never occurs in `quote_plus` output. -/
theorem quotePlus_no_amp {bs : List Nat} (hb : ∀ b ∈ bs, b < 256) :
    ('&') ∉ quotePlus bs :=
  fun hm => ((quotePlus_chars hb) '&' hm).2.1 (by decide)

/-- `=` never occurs in `quote_plus` output. -/
theorem quotePlus_no_eq {bs : List Nat} (hb : ∀ b ∈ bs, b < 256) :
    ('=') ∉ quotePlus bs :=
  fun hm => ((quotePlus_chars hb) '=' hm).2.2.1 (by decide)

/-- `#` never occurs in `quote_plus` output. -/
theorem quotePlus_no_hash {bs : List Nat} (hb : ∀ b ∈ bs, b < 256) :
    ('#') ∉ quotePlus bs :=
  fun hm => ((quotePlus_chars hb) '#' hm).2.2.2 (by decide)

/-- Decoding the encoding of a byte list prepended to any remainder yields
the bytes followed by the decoded remainder. -/
theorem percentDecode_quotePlus_append {bs : List Nat} (hb : ∀ b ∈ bs, b < 256)
    (r : List Nat) :
    percentDecode ((utf8List (quotePlus bs)).map (fun x => if x = 43 then 32 else x) ++ r) =
      bs ++ percentDecode r := by
  induction bs generalizing r with
  | nil => simp [quotePlus, utf8List]
  | cons b t ih =>
    have hblt : b < 256 := hb b (List.mem_cons_self _ _)
    have iht := ih (fun x hx => hb x (List.mem_cons_of_mem _ hx))
    rw [quotePlus_cons, utf8List_append, List.map_append, List.append_assoc]
    by_cases h32 : b = 32
    · subst h32
      rw [if_pos rfl]
      have e1 : (utf8List ['+']).map (fun x => if x = 43 then 32 else x) = [32] := by decide
      rw [e1, List.singleton_append, percentDecode_cons_ne (by omega), iht r]
      rfl
    · rw [if_neg h32]
      by_cases hsf : safeByte b = true
      · rw [if_pos hsf]
        have hprops := safeByte_props hsf
        have htn : (Char.ofNat b).toNat = b := toNat_ofNat_small (by omega)
        have e1 : (utf8List [Char.ofNat b]).map (fun x => if x = 43 then 32 else x) =
            [b] := by
          rw [utf8List_cons, utf8List_nil, List.append_nil,
            utf8Char_ascii (by rw [htn]; omega), htn]
          have h43 : ¬ b = 43 := by omega
          simp [h43]
        rw [e1, List.singleton_append, percentDecode_cons_ne (by omega), iht r]
        rfl
      · rw [if_neg hsf]
        have hp1 := hexDigitU_props (n := b / 16) (by omega)
        have hp2 := hexDigitU_props (n := b % 16) (by omega)
        have e1 : (utf8List ['%', hexDigitU (b / 16), hexDigitU (b % 16)]).map
            (fun x => if x = 43 then 32 else x) =
            [37, (hexDigitU (b / 16)).toNat, (hexDigitU (b % 16)).toNat] := by
          rw [utf8List_cons, utf8List_cons, utf8List_cons, utf8List_nil, List.append_nil]
          rw [utf8Char_ascii (by decide),
            utf8Char_ascii (by rcases hp1.1 with hr | hr <;> omega),
            utf8Char_ascii (by rcases hp2.1 with hr | hr <;> omega)]
          have hm1 : ¬ (hexDigitU (b / 16)).toNat = 43 := by
            rcases hp1.1 with hr | hr <;> omega
          have hm2 : ¬ (hexDigitU (b % 16)).toNat = 43 := by
            rcases hp2.1 with hr | hr <;> omega
          simp [hm1, hm2]
        rw [e1]
        simp only [List.cons_append, List.nil_append]
        rw [percentDecode_escape hp1.2.1 hp2.2.1, hp1.2.2, hp2.2.2, iht r]
        have hbb : 16 * (b / 16) + b % 16 = b := by omega
        rw [hbb]

/-- Decoding inverts encoding on byte lists. -/
theorem unquotePlus_quotePlus {bs : List Nat} (hb : ∀ b ∈ bs, b < 256) :
    unquotePlus (quotePlus bs) = bs := by
  unfold unquotePlus
  have h := percentDecode_quotePlus_append hb []
  rw [List.append_nil] at h
  have h2 : percentDecode ([] : List Nat) = [] := rfl
  rw [h2, List.append_nil] at h
  exact h

/-- Bitwise or of bytes is a byte. -/
theorem or_byte_lt {x y : Nat} (hx : x < 256) (hy : y < 256) : x ||| y < 256 := by
  have h : x ||| y < 2 ^ 8 :=
    Nat.or_lt_two_pow (by simpa using hx) (by simpa using hy)
  simpa using h

/-- Every UTF-8 byte is below 256. -/
theorem utf8Char_lt (c : Char) : ∀ x ∈ utf8Char c, x < 256 := by
  have hval : c.toNat < 1114112 := by
    have h1 := c.valid
    have h2 : c.toNat = c.val.toNat := rfl
    rcases h1 with h | ⟨_, h⟩ <;> omega
  have hdiv : ∀ k : Nat, c.toNat >>> k = c.toNat / 2 ^ k := fun k =>
    Nat.shiftRight_eq_div_pow _ _
  intro x hx
  simp only [utf8Char] at hx
  by_cases h1 : c.toNat < 128
  · rw [if_pos h1] at hx
    have : x = c.toNat := by simpa using hx
    omega
  · rw [if_neg h1] at hx
    by_cases h2 : c.toNat < 2048
    · rw [if_pos h2] at hx
      have h6 := hdiv 6
      have h64 : (2 : Nat) ^ 6 = 64 := by norm_num
      rcases (by simpa using hx : x = 192 ||| (c.toNat >>> 6) ∨ x = 128 ||| (c.toNat &&& 63))
        with rfl | rfl
      · exact or_byte_lt (by omega) (by omega)
      · have ha : c.toNat &&& 63 ≤ 63 := Nat.and_le_right
        exact or_byte_lt (by omega) (by omega)
    · rw [if_neg h2] at hx
      by_cases h3 : c.toNat < 65536
      · rw [if_pos h3] at hx
        have h12 := hdiv 12
        have h6 := hdiv 6
        have hp12 : (2 : Nat) ^ 12 = 4096 := by norm_num
        have ha1 : (c.toNat >>> 6) &&& 63 ≤ 63 := Nat.and_le_right
        have ha2 : c.toNat &&& 63 ≤ 63 := Nat.and_le_right
        rcases (by simpa using hx :
            x = 224 ||| (c.toNat >>> 12) ∨ x = 128 ||| ((c.toNat >>> 6) &&& 63) ∨
              x = 128 ||| (c.toNat &&& 63)) with rfl | rfl | rfl
        · exact or_byte_lt (by omega) (by omega)
        · exact or_byte_lt (by omega) (by omega)
        · exact or_byte_lt (by omega) (by omega)
      · rw [if_neg h3] at hx
        have h18 := hdiv 18
        have hp18 : (2 : Nat) ^ 18 = 262144 := by norm_num
        have h12 := hdiv 12
        have h6 := hdiv 6
        have ha1 : (c.toNat >>> 12) &&& 63 ≤ 63 := Nat.and_le_right
        have ha2 : (c.toNat >>> 6) &&& 63 ≤ 63 := Nat.and_le_right
        have ha3 : c.toNat &&& 63 ≤ 63 := Nat.and_le_right
        rcases (by simpa using hx :
            x = 240 ||| (c.toNat >>> 18) ∨ x = 128 ||| ((c.toNat >>> 12) &&& 63) ∨
              x = 128 ||| ((c.toNat >>> 6) &&& 63) ∨ x = 128 ||| (c.toNat &&& 63))
          with rfl | rfl | rfl | rfl
        · exact or_byte_lt (by omega) (by omega)
        · exact or_byte_lt (by omega) (by omega)
        · exact or_byte_lt (by omega) (by omega)
        · exact or_byte_lt (by omega) (by omega)

/-- Every byte of a UTF-8 encoded list is below 256. -/
theorem utf8List_lt (l : List Char) : ∀ x ∈ utf8List l, x < 256 := by
  intro x hx
  rcases List.mem_flatten.mp hx with ⟨seg, hseg, hxs⟩
  rcases List.mem_map.mp hseg with ⟨c, _, rfl⟩
  exact utf8Char_lt c x hxs

/-- A hex byte decodes to a value below 16. -/
theorem hexByteVal_lt {x : Nat} (h : isHexByte x = true) : hexByteVal x < 16 := by
  unfold isHexByte at h
  simp only [Bool.or_eq_true, Bool.and_eq_true, decide_eq_true_eq] at h
  unfold hexByteVal
  by_cases h1 : x ≤ 57
  · rw [if_pos h1]
    omega
  · rw [if_neg h1]
    by_cases h2 : x ≤ 70
    · rw [if_pos h2]
      omega
    · rw [if_neg h2]
      omega

/-- Percent-decoding preserves the byte bound. -/
theorem percentDecode_lt : ∀ (l : List Nat), (∀ x ∈ l, x < 256) →
    ∀ x ∈ percentDecode l, x < 256
  | [], _, x, hx => by simp [percentDecode] at hx
  | [c], h, x, hx => by
    simp only [percentDecode] at hx
    rcases List.mem_cons.mp hx with rfl | hx2
    · exact h x (List.mem_cons_self _ _)
    · exact absurd hx2 (by simp [percentDecode])
  | [c, a], h, x, hx => by
    simp only [percentDecode] at hx
    rcases List.mem_cons.mp hx with rfl | hx2
    · exact h x (List.mem_cons_self _ _)
    · rcases List.mem_cons.mp hx2 with rfl | hx3
      · exact h x (List.mem_cons_of_mem _ (List.mem_cons_self _ _))
      · exact absurd hx3 (by simp [percentDecode])
  | c :: a :: b :: rest, h, x, hx => by
    have hta : ∀ y ∈ a :: b :: rest, y < 256 :=
      fun y hy => h y (List.mem_cons_of_mem _ hy)
    have htr : ∀ y ∈ rest, y < 256 :=
      fun y hy => hta y (List.mem_cons_of_mem _ (List.mem_cons_of_mem _ hy))
    by_cases hc : c = 37
    · subst hc
      by_cases hhex : (isHexByte a && isHexByte b) = true
      · rcases Bool.and_eq_true_iff.mp hhex with ⟨ha, hb2⟩
        rw [percentDecode_escape ha hb2] at hx
        rcases List.mem_cons.mp hx with rfl | hx2
        · have hva := hexByteVal_lt ha
          have hvb := hexByteVal_lt hb2
          omega
        · exact percentDecode_lt rest htr x hx2
      · rw [percentDecode_nothex hhex] at hx
        rcases List.mem_cons.mp hx with rfl | hx2
        · omega
        · exact percentDecode_lt (a :: b :: rest) hta x hx2
    · rw [percentDecode_cons_ne hc] at hx
      rcases List.mem_cons.mp hx with rfl | hx2
      · exact h x (List.mem_cons_self _ _)
      · exact percentDecode_lt (a :: b :: rest) hta x hx2

/-- Decoded query components consist of bytes. -/
theorem unquotePlus_lt (cs : List Char) : ∀ x ∈ unquotePlus cs, x < 256 := by
  unfold unquotePlus
  apply percentDecode_lt
  intro x hx
  rcases List.mem_map.mp hx with ⟨y, hy, rfl⟩
  have := utf8List_lt cs y hy
  by_cases h43 : y = 43
  · rw [if_pos h43]
    omega
  · rw [if_neg h43]
    omega

/-- Every name and value `parse_qsl` yields consists of bytes. -/
theorem parse_qsl_lt (q : List Char) :
    ∀ kv ∈ parse_qsl q, (∀ x ∈ kv.1, x < 256) ∧ (∀ x ∈ kv.2, x < 256) := by
  intro kv hkv
  unfold parse_qsl at hkv
  rcases List.mem_filterMap.mp hkv with ⟨piece, _, hpf⟩
  by_cases hp0 : piece = []
  · rw [if_pos hp0] at hpf
    exact absurd hpf (by simp)
  · rw [if_neg hp0] at hpf
    have h1 := Option.some.inj hpf
    rw [← h1]
    exact ⟨unquotePlus_lt _, unquotePlus_lt _⟩

/-- Splitting a separator-free list yields one piece. -/
theorem splitOnChar_not_mem {sep : Char} {l : List Char} (h : sep ∉ l) :
    splitOnChar sep l = [l] := by
  induction l with
  | nil => rfl
  | cons c t ih =>
    have hc : ¬ c = sep := fun he => h (he ▸ List.mem_cons_self c t)
    have iht := ih (fun hm => h (List.mem_cons_of_mem c hm))
    simp only [splitOnChar, hc, if_false, iht]

/-- Splitting past the first separator yields the first piece and the
remaining split. -/
theorem splitOnChar_append_sep {sep : Char} {a : List Char} (h : sep ∉ a)
    (b : List Char) :
    splitOnChar sep (a ++ sep :: b) = a :: splitOnChar sep b := by
  induction a with
  | nil =>
    rw [List.nil_append]
    simp [splitOnChar]
  | cons c t ih =>
    have hc : ¬ c = sep := fun he => h (he ▸ List.mem_cons_self c t)
    have iht := ih (fun hm => h (List.mem_cons_of_mem c hm))
    rw [List.cons_append]
    simp only [splitOnChar, hc, if_false, iht]

/-- Encoding no pairs yields the empty query. -/
theorem urlencodeQ_nil : urlencodeQ [] = [] := rfl

/-- Encoding one pair. -/
theorem urlencodeQ_single (kv : List Nat × List Nat) :
    urlencodeQ [kv] = quotePlus kv.1 ++ '=' :: quotePlus kv.2 := by
  simp [urlencodeQ, List.intercalate]

/-- Encoding at least two pairs. -/
theorem urlencodeQ_cons (kv kv2 : List Nat × List Nat)
    (rest : List (List Nat × List Nat)) :
    urlencodeQ (kv :: kv2 :: rest) =
      (quotePlus kv.1 ++ '=' :: quotePlus kv.2) ++ '&' :: urlencodeQ (kv2 :: rest) := by
  simp [urlencodeQ, List.intercalate]

/-- The re-encoded query never contains `#`. -/
theorem urlencodeQ_chars {pairs : List (List Nat × List Nat)}
    (hb : ∀ kv ∈ pairs, (∀ x ∈ kv.1, x < 256) ∧ (∀ x ∈ kv.2, x < 256)) :
    ∀ c ∈ urlencodeQ pairs, c ≠ '#' := by
  induction pairs with
  | nil =>
    intro c hc
    rw [urlencodeQ_nil] at hc
    exact absurd hc (List.not_mem_nil c)
  | cons kv rest ih =>
    obtain ⟨hk, hv⟩ := hb kv (List.mem_cons_self _ _)
    cases rest with
    | nil =>
      intro c hc
      rw [urlencodeQ_single] at hc
      rcases List.mem_append.mp hc with h | h
      · intro he
        subst he
        exact quotePlus_no_hash hk h
      · rcases List.mem_cons.mp h with rfl | h2
        · exact (by decide)
        · intro he
          subst he
          exact quotePlus_no_hash hv h2
    | cons kv2 rest2 =>
      have ihr := ih (fun x hx => hb x (List.mem_cons_of_mem _ hx))
      intro c hc
      rw [urlencodeQ_cons] at hc
      rcases List.mem_append.mp hc with h | h
      · rcases List.mem_append.mp h with h1 | h1
        · intro he
          subst he
          exact quotePlus_no_hash hk h1
        · rcases List.mem_cons.mp h1 with rfl | h2
          · exact (by decide)
          · intro he
            subst he
            exact quotePlus_no_hash hv h2
      · rcases List.mem_cons.mp h with rfl | h2
        · exact (by decide)
        · exact ihr c h2

/-- `parse_qsl` inverts `urlencode` on byte pairs. -/
theorem parse_qsl_urlencodeQ {pairs : List (List Nat × List Nat)}
    (hb : ∀ kv ∈ pairs, (∀ x ∈ kv.1, x < 256) ∧ (∀ x ∈ kv.2, x < 256)) :
    parse_qsl (urlencodeQ pairs) = pairs := by
  induction pairs with
  | nil => rfl
  | cons kv rest ih =>
    obtain ⟨hk, hv⟩ := hb kv (List.mem_cons_self _ _)
    have hpe : ('=') ∉ quotePlus kv.1 := quotePlus_no_eq hk
    have hamp : ('&') ∉ quotePlus kv.1 ++ '=' :: quotePlus kv.2 := by
      intro hm
      rcases List.mem_append.mp hm with h | h
      · exact quotePlus_no_amp hk h
      · rcases List.mem_cons.mp h with h | h
        · exact absurd h (by decide)
        · exact quotePlus_no_amp hv h
    have hne : ¬ (quotePlus kv.1 ++ '=' :: quotePlus kv.2) = [] := by simp
    cases rest with
    | nil =>
      rw [urlencodeQ_single]
      unfold parse_qsl
      rw [splitOnChar_not_mem hamp]
      simp [hne, splitOpt_append_sep hpe, unquotePlus_quotePlus hk,
        unquotePlus_quotePlus hv]
    | cons kv2 rest2 =>
      have ihr := ih (fun x hx => hb x (List.mem_cons_of_mem _ hx))
      rw [urlencodeQ_cons]
      unfold parse_qsl
      unfold parse_qsl at ihr
      rw [splitOnChar_append_sep hamp]
      simp [hne, splitOpt_append_sep hpe, unquotePlus_quotePlus hk,
        unquotePlus_quotePlus hv, ihr]

/-- Unfolding of `canonicalize_url` on a URL that `urlsplit` parses. -/
theorem canonicalize_eq_ok {u : String} {P : UrlParts} (hok : urlsplitE u = .ok P) :
    canonicalize_url u = String.mk (unsplitUrl
      ⟨P.scheme, P.netloc, P.path,
        urlencodeQ ((parse_qsl P.query).filter (fun kv => !matchesTracking kv.1)),
        P.fragment⟩) := by
  unfold canonicalize_url
  rw [hok]

/-- Unfolding of `canonicalize_url` on a URL on which `urlsplit` raises:
the `except Exception` fallback returns the input unchanged. -/
theorem canonicalize_eq_err {u e : String} (h : urlsplitE u = .error e) :
    canonicalize_url u = u := by
  unfold canonicalize_url
  rw [h]

/-- Reassemblability of a split is decidable. -/
instance (P : UrlParts) : Decidable (GoodSplit P) := by
  unfold GoodSplit
  infer_instance

/-- What a successful `urlsplit` certifies: the components are the total
split of the cleaned URL, the brackets of the netloc are balanced, a
bracketed host is valid, and the NFKC netloc check passed. -/
theorem urlsplitE_ok_inv {u : String} {P : UrlParts} (hok : urlsplitE u = .ok P) :
    P = splitUrl (String.mk (whatwgClean u.data)) ∧
    checknetlocOk P.netloc = true ∧
    ¬ ((('[') ∈ P.netloc ∧ (']') ∉ P.netloc) ∨
        ((']') ∈ P.netloc ∧ ('[') ∉ P.netloc)) ∧
    (('[') ∈ P.netloc ∧ (']') ∈ P.netloc →
      bracketedHostOk (splitOpt ']' (splitOpt '[' P.netloc).2).1 = true) := by
  simp only [urlsplitE] at hok
  by_cases h1 : (('[') ∈ (splitUrl (String.mk (whatwgClean u.data))).netloc ∧
      (']') ∉ (splitUrl (String.mk (whatwgClean u.data))).netloc) ∨
      ((']') ∈ (splitUrl (String.mk (whatwgClean u.data))).netloc ∧
        ('[') ∉ (splitUrl (String.mk (whatwgClean u.data))).netloc)
  · rw [if_pos h1] at hok
    exact Except.noConfusion hok
  · rw [if_neg h1] at hok
    by_cases h2 : ('[') ∈ (splitUrl (String.mk (whatwgClean u.data))).netloc ∧
        (']') ∈ (splitUrl (String.mk (whatwgClean u.data))).netloc
    · rw [if_pos h2] at hok
      by_cases h3 : bracketedHostOk
          (splitOpt ']' (splitOpt '['
            (splitUrl (String.mk (whatwgClean u.data))).netloc).2).1 = true
      · rw [if_pos h3] at hok
        by_cases h4 : checknetlocOk (splitUrl (String.mk (whatwgClean u.data))).netloc = true
        · rw [if_pos h4] at hok
          have hP := Except.ok.inj hok
          subst hP
          exact ⟨rfl, h4, h1, fun _ => h3⟩
        · rw [if_neg h4] at hok
          exact Except.noConfusion hok
      · rw [if_neg h3] at hok
        exact Except.noConfusion hok
    · rw [if_neg h2] at hok
      by_cases h4 : checknetlocOk (splitUrl (String.mk (whatwgClean u.data))).netloc = true
      · rw [if_pos h4] at hok
        have hP := Except.ok.inj hok
        subst hP
        exact ⟨rfl, h4, h1, fun hb => absurd hb h2⟩
      · rw [if_neg h4] at hok
        exact Except.noConfusion hok

/-- A URL that is already clean and whose split passes the netloc checks is
parsed by `urlsplit` into that split. -/
theorem urlsplitE_ok_intro {v : String} {P : UrlParts}
    (hclean : whatwgClean v.data = v.data) (hsplit : splitUrl v = P)
    (hCN : checknetlocOk P.netloc = true)
    (hnb : ¬ ((('[') ∈ P.netloc ∧ (']') ∉ P.netloc) ∨
        ((']') ∈ P.netloc ∧ ('[') ∉ P.netloc)))
    (hb : ('[') ∈ P.netloc ∧ (']') ∈ P.netloc →
      bracketedHostOk (splitOpt ']' (splitOpt '[' P.netloc).2).1 = true) :
    urlsplitE v = .ok P := by
  have hv : String.mk (whatwgClean v.data) = v := by
    rw [hclean]
  simp only [urlsplitE, hv, hsplit]
  rw [if_neg hnb]
  by_cases h2 : ('[') ∈ P.netloc ∧ (']') ∈ P.netloc
  · rw [if_pos h2, if_pos (hb h2), if_pos hCN]
  · rw [if_neg h2, if_pos hCN]

/-- Both parts of a partition consist of characters of the list. -/
theorem splitOpt_mem {sep : Char} {l : List Char} {c : Char}
    (h : c ∈ (splitOpt sep l).1 ∨ c ∈ (splitOpt sep l).2) : c ∈ l := by
  rcases splitOpt_full sep l with ⟨h1, h2⟩ | h1
  · rcases h with h | h
    · rw [h1]
      exact h
    · rw [h2] at h
      exact absurd h (List.not_mem_nil c)
  · rw [h1]
    rcases h with h | h
    · exact List.mem_append_left _ h
    · exact List.mem_append_right _ (List.mem_cons_of_mem _ h)

/-- The remainder after scheme detection consists of input characters. -/
theorem schemeSplit_snd_mem {u : List Char} {c : Char}
    (h : c ∈ (schemeSplit u).2) : c ∈ u := by
  rcases hs : splitAtFirstCh ':' u with ⟨pre, o⟩
  cases o with
  | none =>
    rw [schemeSplit_eq_none hs] at h
    exact h
  | some rest =>
    cases pre with
    | nil =>
      rw [schemeSplit_eq_nil hs] at h
      exact h
    | cons p0 pt =>
      rw [schemeSplit_eq_cons hs] at h
      by_cases hc : (isAsciiAlphaCh p0 && (p0 :: pt).all schemeChar) = true
      · rw [if_pos hc] at h
        rw [(splitAtFirstCh_eq_some hs).1]
        exact List.mem_append_right _ (List.mem_cons_of_mem _ h)
      · rw [if_neg hc] at h
        exact h

/-- Every character of the netloc, path, query or fragment of a split comes
from the input. -/
theorem splitUrl_mem {u : String} {c : Char}
    (h : c ∈ (splitUrl u).netloc ∨ c ∈ (splitUrl u).path ∨ c ∈ (splitUrl u).query ∨
      c ∈ (splitUrl u).fragment) : c ∈ u.data := by
  rcases hs : schemeSplit u.data with ⟨sch, rest⟩
  have hrest : ∀ x ∈ rest, x ∈ u.data := by
    intro x hx
    have hx2 : x ∈ (schemeSplit u.data).2 := by
      rw [hs]
      exact hx
    exact schemeSplit_snd_mem hx2
  by_cases hnl : rest.take 2 = ['/', '/']
  · rw [splitUrl_eq_pos hs hnl] at h
    have hM : ∀ x, x ∈ (rest.drop 2).dropWhile netlocChar → x ∈ u.data :=
      fun x hx => hrest x (List.drop_subset 2 rest (List.dropWhile_subset netlocChar hx))
    rcases h with h | h | h | h
    · exact hrest c (List.drop_subset 2 rest (List.takeWhile_subset netlocChar h))
    · exact hM c (splitOpt_mem (Or.inl (splitOpt_mem (Or.inl h))))
    · exact hM c (splitOpt_mem (Or.inl (splitOpt_mem (Or.inr h))))
    · exact hM c (splitOpt_mem (Or.inr h))
  · rw [splitUrl_eq_neg hs hnl] at h
    rcases h with h | h | h | h
    · exact absurd h (List.not_mem_nil c)
    · exact hrest c (splitOpt_mem (Or.inl (splitOpt_mem (Or.inl h))))
    · exact hrest c (splitOpt_mem (Or.inl (splitOpt_mem (Or.inr h))))
    · exact hrest c (splitOpt_mem (Or.inr h))

/-- Membership in a conditional list. -/
theorem mem_ite_or {c : Char} {q : Prop} [Decidable q] {A B : List Char}
    (h : c ∈ if q then A else B) : c ∈ A ∨ c ∈ B := by
  split at h
  · exact Or.inl h
  · exact Or.inr h

/-- Membership in an optionally suffixed component. -/
theorem mem_stage_suffix {c sep : Char} {q : Prop} [Decidable q] {X Y : List Char}
    (h : c ∈ if q then X ++ sep :: Y else X) : c ∈ X ∨ c = sep ∨ c ∈ Y := by
  rcases mem_ite_or h with h | h
  · rcases List.mem_append.mp h with h | h
    · exact Or.inl h
    · rcases List.mem_cons.mp h with h | h
      · exact Or.inr (Or.inl h)
      · exact Or.inr (Or.inr h)
  · exact Or.inl h

/-- Membership in an optionally prefixed component. -/
theorem mem_stage_scheme {c sep : Char} {q : Prop} [Decidable q] {S X : List Char}
    (h : c ∈ if q then S ++ sep :: X else X) : c ∈ S ∨ c = sep ∨ c ∈ X := by
  rcases mem_ite_or h with h | h
  · rcases List.mem_append.mp h with h | h
    · exact Or.inl h
    · rcases List.mem_cons.mp h with h | h
      · exact Or.inr (Or.inl h)
      · exact Or.inr (Or.inr h)
  · exact Or.inr (Or.inr h)

/-- Every character of a reassembled URL comes from one of the components
or is one of the four URL delimiters. -/
theorem unsplitUrl_mem {P : UrlParts} {c : Char} (h : c ∈ unsplitUrl P) :
    c ∈ P.scheme ∨ c ∈ P.netloc ∨ c ∈ P.path ∨ c ∈ P.query ∨ c ∈ P.fragment ∨
      c = ':' ∨ c = '/' ∨ c = '?' ∨ c = '#' := by
  simp only [unsplitUrl] at h
  rcases mem_stage_suffix h with h | h | h
  · rcases mem_stage_suffix h with h | h | h
    · rcases mem_stage_scheme h with h | h | h
      · exact Or.inl h
      · tauto
      · rcases mem_ite_or h with h | h
        · rcases List.mem_cons.mp h with h | h
          · tauto
          · rcases List.mem_cons.mp h with h | h
            · tauto
            · rcases List.mem_append.mp h with h | h
              · tauto
              · rcases mem_ite_or h with h | h
                · rcases List.mem_cons.mp h with h | h
                  · tauto
                  · tauto
                · tauto
        · tauto
    · tauto
    · tauto
  · tauto
  · tauto

/-- An ASCII letter is printable. -/
theorem alpha_gt32 {c : Char} (h : isAsciiAlphaCh c = true) : 32 < c.toNat := by
  unfold isAsciiAlphaCh at h
  simp only [Bool.or_eq_true, Bool.and_eq_true, decide_eq_true_eq] at h
  omega

/-- A scheme character is printable. -/
theorem schemeChar_gt32 {c : Char} (h : schemeChar c = true) : 32 < c.toNat := by
  have key : isAsciiAlphaCh c = true ∨ isDigitCh c = true ∨ c = '+' ∨ c = '-' ∨ c = '.' := by
    unfold schemeChar at h
    simp only [Bool.or_eq_true, decide_eq_true_eq] at h
    tauto
  rcases key with h1 | h1 | rfl | rfl | rfl
  · exact alpha_gt32 h1
  · unfold isDigitCh at h1
    simp only [Bool.and_eq_true, decide_eq_true_eq] at h1
    omega
  · decide
  · decide
  · decide

/-- Every character that `quote_plus` emits for bytes is printable. -/
theorem quotePlus_gt32 {bs : List Nat} (hb : ∀ b ∈ bs, b < 256) :
    ∀ c ∈ quotePlus bs, 32 < c.toNat := by
  induction bs with
  | nil =>
    intro c hc
    simp [quotePlus] at hc
  | cons b t ih =>
    intro c hc
    rw [quotePlus_cons] at hc
    rcases List.mem_append.mp hc with h | h
    · have hblt : b < 256 := hb b (List.mem_cons_self _ _)
      by_cases h32 : b = 32
      · rw [if_pos h32] at h
        have hc2 : c = '+' := by simpa using h
        subst hc2
        decide
      · rw [if_neg h32] at h
        by_cases hsf : safeByte b = true
        · rw [if_pos hsf] at h
          have hc2 : c = Char.ofNat b := by simpa using h
          subst hc2
          have hp := safeByte_props hsf
          rw [toNat_ofNat_small (by omega)]
          unfold safeByte at hsf
          simp only [Bool.or_eq_true, Bool.and_eq_true, decide_eq_true_eq] at hsf
          omega
        · rw [if_neg hsf] at h
          rcases List.mem_cons.mp h with rfl | h2
          · decide
          rcases List.mem_cons.mp h2 with rfl | h3
          · have hp := hexDigitU_props (n := b / 16) (by omega)
            rcases hp.1 with hr | hr <;> omega
          rcases List.mem_cons.mp h3 with rfl | h4
          · have hp := hexDigitU_props (n := b % 16) (by omega)
            rcases hp.1 with hr | hr <;> omega
          · exact absurd h4 (List.not_mem_nil c)
    · exact ih (fun x hx => hb x (List.mem_cons_of_mem _ hx)) c h

/-- Every character of the re-encoded query is printable. -/
theorem urlencodeQ_gt32 {pairs : List (List Nat × List Nat)}
    (hb : ∀ kv ∈ pairs, (∀ x ∈ kv.1, x < 256) ∧ (∀ x ∈ kv.2, x < 256)) :
    ∀ c ∈ urlencodeQ pairs, 32 < c.toNat := by
  induction pairs with
  | nil =>
    intro c hc
    rw [urlencodeQ_nil] at hc
    exact absurd hc (List.not_mem_nil c)
  | cons kv rest ih =>
    obtain ⟨hk, hv⟩ := hb kv (List.mem_cons_self _ _)
    cases rest with
    | nil =>
      intro c hc
      rw [urlencodeQ_single] at hc
      rcases List.mem_append.mp hc with h | h
      · exact quotePlus_gt32 hk c h
      · rcases List.mem_cons.mp h with rfl | h2
        · decide
        · exact quotePlus_gt32 hv c h2
    | cons kv2 rest2 =>
      have ihr := ih (fun x hx => hb x (List.mem_cons_of_mem _ hx))
      intro c hc
      rw [urlencodeQ_cons] at hc
      rcases List.mem_append.mp hc with h | h
      · rcases List.mem_append.mp h with h1 | h1
        · exact quotePlus_gt32 hk c h1
        · rcases List.mem_cons.mp h1 with rfl | h2
          · decide
          · exact quotePlus_gt32 hv c h2
      · rcases List.mem_cons.mp h with rfl | h2
        · decide
        · exact ihr c h2

/-- The cleanup output contains no tab, carriage return or line feed. -/
theorem whatwgClean_no_unsafe {l : List Char} :
    ∀ c ∈ whatwgClean l, ¬ (c = '\t' ∨ c = '\r' ∨ c = '\n') := by
  intro c hc
  unfold whatwgClean at hc
  have h2 := List.of_mem_filter hc
  intro hor
  rcases hor with rfl | rfl | rfl <;> simp at h2

/-- The cleanup output starts with a printable character. -/
theorem whatwgClean_head {l : List Char} :
    ∀ c t, whatwgClean l = c :: t → 32 < c.toNat := by
  intro c t h
  unfold whatwgClean at h
  rcases hd : l.dropWhile (fun c => c.toNat ≤ 32) with _ | ⟨d, rest⟩
  · rw [hd] at h
    simp at h
  · rw [hd] at h
    have hdf := dropWhile_head_fails (fun c => decide (c.toNat ≤ 32)) l d rest hd
    have hdg : ¬ d.toNat ≤ 32 := of_decide_eq_false hdf
    have h9 : ¬ d = '\t' := fun he => hdg (by rw [he]; decide)
    have h10 : ¬ d = '\r' := fun he => hdg (by rw [he]; decide)
    have h11 : ¬ d = '\n' := fun he => hdg (by rw [he]; decide)
    have hq : (!(d = '\t' || d = '\r' || d = '\n') : Bool) = true := by
      simp [h9, h10, h11]
    rw [List.filter_cons, if_pos hq] at h
    have h1 := ((List.cons.injEq _ _ _ _).mp h).1
    rw [h1] at hdg
    omega

/-- The cleanup fixes a list that has a printable head and contains no tab,
carriage return or line feed. -/
theorem whatwgClean_id {l : List Char}
    (h1 : ∀ c ∈ l, ¬ (c = '\t' ∨ c = '\r' ∨ c = '\n'))
    (h2 : ∀ c t, l = c :: t → 32 < c.toNat) :
    whatwgClean l = l := by
  unfold whatwgClean
  have hdrop : l.dropWhile (fun c => c.toNat ≤ 32) = l := by
    cases l with
    | nil => rfl
    | cons c t =>
      have hgt := h2 c t rfl
      exact dropWhile_cons_of_head (decide_eq_false (by omega)) t
  rw [hdrop]
  apply List.filter_eq_self.mpr
  intro a ha
  have hno := h1 a ha
  have ha1 : ¬ a = '\t' := fun he => hno (Or.inl he)
  have ha2 : ¬ a = '\r' := fun he => hno (Or.inr (Or.inl he))
  have ha3 : ¬ a = '\n' := fun he => hno (Or.inr (Or.inr he))
  simp [ha1, ha2, ha3]

/-- Without a scheme, the split path is empty, absolute, or begins with the
first character of the input. -/
theorem splitUrl_path_shape (u : String) (hs0 : (splitUrl u).scheme = []) :
    (splitUrl u).path = [] ∨ (splitUrl u).path.take 1 = ['/'] ∨
      (splitUrl u).path.take 1 = u.data.take 1 := by
  rcases hs : schemeSplit u.data with ⟨sch, rest⟩
  by_cases hnl : rest.take 2 = ['/', '/']
  · rw [splitUrl_eq_pos hs hnl]
    obtain ⟨hq, hh, hhq, z, hz, hM⟩ := pqParts_props ((rest.drop 2).dropWhile netlocChar)
    rcases hE : (splitOpt '?' (splitOpt '#' ((rest.drop 2).dropWhile netlocChar)).1).1 with
      _ | ⟨c, p'⟩
    · exact Or.inl rfl
    · rw [hE] at hq hh hM
      have hM2 : (rest.drop 2).dropWhile netlocChar = c :: (p' ++ z) := by
        rw [hM]
        rfl
      have hcf : netlocChar c = false :=
        dropWhile_head_fails netlocChar (rest.drop 2) c (p' ++ z) hM2
      rcases netlocChar_false hcf with rfl | rfl | rfl
      · exact Or.inr (Or.inl rfl)
      · exact absurd (List.mem_cons_self _ _) hq
      · exact absurd (List.mem_cons_self _ _) hh
  · rw [splitUrl_eq_neg hs hnl] at hs0 ⊢
    have hsc : sch = [] := hs0
    have h1 : (schemeSplit u.data).1 = [] := by
      rw [hs]
      exact hsc
    have h2 := schemeSplit_fst_nil h1
    have h3 : u.data = rest := congrArg Prod.snd (h2.symm.trans hs)
    obtain ⟨hq, hh, hhq, z, hz, hM⟩ := pqParts_props rest
    rcases hE : (splitOpt '?' (splitOpt '#' rest).1).1 with _ | ⟨c, p'⟩
    · exact Or.inl rfl
    · refine Or.inr (Or.inr ?_)
      rw [hE] at hM
      have h4 : u.data.take 1 = [c] := by
        rw [h3, hM]
        rfl
      rw [h4]
      rfl

/-- Reassembly with the authority part, as a single append. -/
theorem unsplit_eq_pos {P : UrlParts}
    (hc1 : P.netloc ≠ [] ∨
      (P.scheme ≠ [] ∧ P.scheme ∈ usesNetloc ∧ P.path.take 2 ≠ ['/', '/']))
    (hpa : P.path = [] ∨ P.path.take 1 = ['/']) :
    unsplitUrl P =
      (if P.scheme ≠ [] then P.scheme ++ ':' :: ('/' :: '/' :: (P.netloc ++ P.path))
       else '/' :: '/' :: (P.netloc ++ P.path)) ++ tailOf P.query P.fragment := by
  have hinner : ¬ (P.path ≠ [] ∧ P.path.take 1 ≠ ['/']) := by
    rcases hpa with h | h
    · exact fun hx => hx.1 h
    · exact fun hx => hx.2 h
  have hq2 : (if P.path ≠ [] ∧ P.path.take 1 ≠ ['/'] then '/' :: P.path else P.path) =
      P.path := if_neg hinner
  simp only [unsplitUrl, if_pos hc1, hq2]
  by_cases hqe : P.query = [] <;> by_cases hfe : P.fragment = [] <;>
    simp [tailOf, hqe, hfe, List.append_assoc]

/-- Reassembly without the authority part, as a single append. -/
theorem unsplit_eq_neg {P : UrlParts}
    (hc1 : ¬ (P.netloc ≠ [] ∨
      (P.scheme ≠ [] ∧ P.scheme ∈ usesNetloc ∧ P.path.take 2 ≠ ['/', '/']))) :
    unsplitUrl P =
      (if P.scheme ≠ [] then P.scheme ++ ':' :: P.path else P.path) ++
        tailOf P.query P.fragment := by
  simp only [unsplitUrl, if_neg hc1]
  by_cases hqe : P.query = [] <;> by_cases hfe : P.fragment = [] <;>
    simp [tailOf, hqe, hfe, List.append_assoc]

/-- The reassembled URL of a faithful split is empty or begins with a
printable character. -/
theorem unsplit_shape {P : UrlParts}
    (hso : P.scheme = [] ∨ SchemeOk P.scheme)
    (hps : P.scheme = [] → P.path = [] ∨ ∀ c t, P.path = c :: t → 32 < c.toNat)
    (hgood : GoodSplit P)
    (hnp : P.netloc ≠ [] → P.path = [] ∨ P.path.take 1 = ['/']) :
    unsplitUrl P = [] ∨ ∃ a r, unsplitUrl P = a :: r ∧ 32 < a.toNat := by
  by_cases hc1 : P.netloc ≠ [] ∨
      (P.scheme ≠ [] ∧ P.scheme ∈ usesNetloc ∧ P.path.take 2 ≠ ['/', '/'])
  · have hpa : P.path = [] ∨ P.path.take 1 = ['/'] := by
      by_cases hn0 : P.netloc = []
      · rcases hgood with h | ⟨h1, h2⟩
        · exact absurd hn0 h
        · rcases hc1 with h3 | ⟨h4, h5, h6⟩
          · exact absurd hn0 h3
          · rcases h2 with h7 | h7 | h7 | h7
            · exact absurd h7 h4
            · exact absurd h5 h7
            · exact Or.inl h7
            · exact Or.inr h7
      · exact hnp hn0
    have hR := unsplit_eq_pos hc1 hpa
    right
    by_cases hs0 : P.scheme ≠ []
    · rcases hso with h | ⟨⟨s0, st, hsch, hal⟩, hall, hlow⟩
      · exact absurd h hs0
      · rw [hR, if_pos hs0, hsch, List.cons_append, List.cons_append]
        exact ⟨s0, _, rfl, alpha_gt32 hal⟩
    · rw [hR, if_neg hs0, List.cons_append]
      exact ⟨'/', _, rfl, by decide⟩
  · have hR := unsplit_eq_neg hc1
    by_cases hs0 : P.scheme ≠ []
    · rcases hso with h | ⟨⟨s0, st, hsch, hal⟩, hall, hlow⟩
      · exact absurd h hs0
      · right
        rw [hR, if_pos hs0, hsch, List.cons_append, List.cons_append]
        exact ⟨s0, _, rfl, alpha_gt32 hal⟩
    · have hsE : P.scheme = [] := not_not.mp hs0
      rw [hR, if_neg hs0]
      cases hp : P.path with
      | nil =>
        rcases tailOf_shaped P.query P.fragment with h0 | ⟨t2, h0⟩ | ⟨t2, h0⟩
        · exact Or.inl h0
        · exact Or.inr ⟨'?', t2, h0, by decide⟩
        · exact Or.inr ⟨'#', t2, h0, by decide⟩
      | cons c0 t0 =>
        have h32 : 32 < c0.toNat := by
          rcases hps hsE with hpe | hph
          · exact absurd (hpe.symm.trans hp) (by simp)
          · exact hph c0 t0 hp
        exact Or.inr ⟨c0, t0 ++ tailOf P.query P.fragment,
          List.cons_append c0 t0 (tailOf P.query P.fragment), h32⟩

/-- The reassembled URL contains no tab, carriage return or line feed when
its components contain none. -/
theorem unsplit_no_unsafe {P : UrlParts}
    (h1 : ∀ c ∈ P.scheme, ¬ (c = '\t' ∨ c = '\r' ∨ c = '\n'))
    (h2 : ∀ c ∈ P.netloc, ¬ (c = '\t' ∨ c = '\r' ∨ c = '\n'))
    (h3 : ∀ c ∈ P.path, ¬ (c = '\t' ∨ c = '\r' ∨ c = '\n'))
    (h4 : ∀ c ∈ P.query, ¬ (c = '\t' ∨ c = '\r' ∨ c = '\n'))
    (h5 : ∀ c ∈ P.fragment, ¬ (c = '\t' ∨ c = '\r' ∨ c = '\n')) :
    ∀ c ∈ unsplitUrl P, ¬ (c = '\t' ∨ c = '\r' ∨ c = '\n') := by
  intro c hc
  rcases unsplitUrl_mem hc with h | h | h | h | h | rfl | rfl | rfl | rfl
  · exact h1 c h
  · exact h2 c h
  · exact h3 c h
  · exact h4 c h
  · exact h5 c h
  · intro hor
    rcases hor with h | h | h <;> exact absurd h (by decide)
  · intro hor
    rcases hor with h | h | h <;> exact absurd h (by decide)
  · intro hor
    rcases hor with h | h | h <;> exact absurd h (by decide)
  · intro hor
    rcases hor with h | h | h <;> exact absurd h (by decide)

set_option maxHeartbeats 2000000 in
/-- **C4 (amended)**: for every URL that `urlsplit` parses without raising
(`urlsplitE` returns `.ok`; on a raising URL the `except Exception` fallback
returns the input unchanged, tracking parameters intact, see
`c4_counterexample`) and whose split reassembles faithfully (`GoodSplit`),
canonicalization is idempotent; the canonical URL again parses, with the
same scheme, netloc, path and fragment; and its query parses to exactly the
original parameters whose keys match no case-insensitive tracking prefix
(`utm_`, `spm`, `from`, `share`, `mkt_`, `mc_`), in order. -/
theorem c4_url_canonicalization (u : String) (P : UrlParts)
    (hok : urlsplitE u = .ok P) (hgood : GoodSplit P) :
    canonicalize_url (canonicalize_url u) = canonicalize_url u ∧
    urlsplitE (canonicalize_url u) =
      .ok ⟨P.scheme, P.netloc, P.path,
        urlencodeQ ((parse_qsl P.query).filter (fun kv => !matchesTracking kv.1)),
        P.fragment⟩ ∧
    parse_qsl (urlencodeQ ((parse_qsl P.query).filter (fun kv => !matchesTracking kv.1))) =
      (parse_qsl P.query).filter (fun kv => !matchesTracking kv.1) := by
  obtain ⟨hPeq, hCN, hnb, hbr⟩ := urlsplitE_ok_inv hok
  have hinv := splitUrl_invariants (String.mk (whatwgClean u.data))
  rw [← hPeq] at hinv
  obtain ⟨hso, hn, ⟨hpq, hpf, hqf⟩, hnp, hsf⟩ := hinv
  have hbkept : ∀ kv ∈ (parse_qsl P.query).filter (fun kv => !matchesTracking kv.1),
      (∀ x ∈ kv.1, x < 256) ∧ (∀ x ∈ kv.2, x < 256) :=
    fun kv hkv => parse_qsl_lt _ kv (List.mem_of_mem_filter hkv)
  have hq2 : ('#') ∉ urlencodeQ ((parse_qsl P.query).filter (fun kv => !matchesTracking kv.1)) :=
    fun hm => urlencodeQ_chars hbkept '#' hm rfl
  have hqgt : ∀ c ∈ urlencodeQ ((parse_qsl P.query).filter (fun kv => !matchesTracking kv.1)),
      32 < c.toNat := urlencodeQ_gt32 hbkept
  have hgood2 : GoodSplit (⟨P.scheme, P.netloc, P.path,
      urlencodeQ ((parse_qsl P.query).filter (fun kv => !matchesTracking kv.1)),
      P.fragment⟩ : UrlParts) := by
    unfold GoodSplit at hgood ⊢
    exact hgood
  have hsplitv : splitUrl ⟨unsplitUrl ⟨P.scheme, P.netloc, P.path,
      urlencodeQ ((parse_qsl P.query).filter (fun kv => !matchesTracking kv.1)),
      P.fragment⟩⟩ = ⟨P.scheme, P.netloc, P.path,
      urlencodeQ ((parse_qsl P.query).filter (fun kv => !matchesTracking kv.1)),
      P.fragment⟩ :=
    splitUrl_unsplit hso hn hpq hpf hq2 hnp hsf hgood2
  have hcanon : canonicalize_url u = String.mk (unsplitUrl ⟨P.scheme, P.netloc, P.path,
      urlencodeQ ((parse_qsl P.query).filter (fun kv => !matchesTracking kv.1)),
      P.fragment⟩) := canonicalize_eq_ok hok
  have hmem : ∀ c, (c ∈ P.netloc ∨ c ∈ P.path ∨ c ∈ P.query ∨ c ∈ P.fragment) →
      c ∈ whatwgClean u.data := by
    intro c hc
    have hc2 : c ∈ (splitUrl (String.mk (whatwgClean u.data))).netloc ∨
        c ∈ (splitUrl (String.mk (whatwgClean u.data))).path ∨
        c ∈ (splitUrl (String.mk (whatwgClean u.data))).query ∨
        c ∈ (splitUrl (String.mk (whatwgClean u.data))).fragment := by
      rw [← hPeq]
      exact hc
    exact splitUrl_mem hc2
  have hsafeW : ∀ c ∈ whatwgClean u.data, ¬ (c = '\t' ∨ c = '\r' ∨ c = '\n') :=
    fun c hc => whatwgClean_no_unsafe c hc
  have hsch_safe : ∀ c ∈ P.scheme, ¬ (c = '\t' ∨ c = '\r' ∨ c = '\n') := by
    rcases hso with h | ⟨hex, hall, hlow⟩
    · rw [h]
      intro c hc
      exact absurd hc (List.not_mem_nil c)
    · intro c hc
      have hgt := schemeChar_gt32 (List.all_eq_true.mp hall c hc)
      intro hor
      rcases hor with rfl | rfl | rfl <;> exact absurd hgt (by decide)
  have hqsafe : ∀ c ∈ urlencodeQ ((parse_qsl P.query).filter
      (fun kv => !matchesTracking kv.1)), ¬ (c = '\t' ∨ c = '\r' ∨ c = '\n') := by
    intro c hc hor
    rcases hor with rfl | rfl | rfl <;> exact absurd (hqgt _ hc) (by decide)
  have hnosafe : ∀ c ∈ unsplitUrl ⟨P.scheme, P.netloc, P.path,
      urlencodeQ ((parse_qsl P.query).filter (fun kv => !matchesTracking kv.1)),
      P.fragment⟩, ¬ (c = '\t' ∨ c = '\r' ∨ c = '\n') :=
    unsplit_no_unsafe hsch_safe
      (fun c hc => hsafeW c (hmem c (Or.inl hc)))
      (fun c hc => hsafeW c (hmem c (Or.inr (Or.inl hc))))
      hqsafe
      (fun c hc => hsafeW c (hmem c (Or.inr (Or.inr (Or.inr hc)))))
  have hps : P.scheme = [] → P.path = [] ∨ ∀ c t, P.path = c :: t → 32 < c.toNat := by
    intro hs0
    have hshape := splitUrl_path_shape (String.mk (whatwgClean u.data))
      (by rw [← hPeq]; exact hs0)
    rw [← hPeq] at hshape
    rcases hshape with h | h | h
    · exact Or.inl h
    · right
      intro c t hct
      rw [hct] at h
      have hcs : c = '/' := by simpa using h
      rw [hcs]
      decide
    · right
      intro c t hct
      rw [hct] at h
      rcases hW : whatwgClean u.data with _ | ⟨d, w'⟩
      · rw [show (String.mk (whatwgClean u.data)).data = whatwgClean u.data from rfl, hW] at h
        simp at h
      · rw [show (String.mk (whatwgClean u.data)).data = whatwgClean u.data from rfl, hW] at h
        have hcd : c = d := by simpa using h
        rw [hcd]
        exact whatwgClean_head d w' hW
  have hhead : ∀ c t, unsplitUrl ⟨P.scheme, P.netloc, P.path,
      urlencodeQ ((parse_qsl P.query).filter (fun kv => !matchesTracking kv.1)),
      P.fragment⟩ = c :: t → 32 < c.toNat := by
    intro c t h
    rcases unsplit_shape (P := ⟨P.scheme, P.netloc, P.path,
        urlencodeQ ((parse_qsl P.query).filter (fun kv => !matchesTracking kv.1)),
        P.fragment⟩) hso hps hgood2 hnp with h0 | ⟨a, r, he, ha⟩
    · rw [h0] at h
      exact absurd h (by simp)
    · rw [he] at h
      have h1 := ((List.cons.injEq _ _ _ _).mp h).1
      rw [← h1]
      exact ha
  have hclean : whatwgClean (canonicalize_url u).data = (canonicalize_url u).data := by
    rw [hcanon]
    exact whatwgClean_id hnosafe hhead
  have hok2 : urlsplitE (canonicalize_url u) = .ok ⟨P.scheme, P.netloc, P.path,
      urlencodeQ ((parse_qsl P.query).filter (fun kv => !matchesTracking kv.1)),
      P.fragment⟩ := by
    refine urlsplitE_ok_intro hclean ?_ hCN hnb hbr
    rw [hcanon]
    exact hsplitv
  have hroundq : parse_qsl (urlencodeQ ((parse_qsl P.query).filter
      (fun kv => !matchesTracking kv.1))) =
      (parse_qsl P.query).filter (fun kv => !matchesTracking kv.1) :=
    parse_qsl_urlencodeQ hbkept
  refine ⟨?_, hok2, hroundq⟩
  rw [canonicalize_eq_ok hok2]
  simp only [hroundq, List.filter_filter, Bool.and_self]
  rw [canonicalize_eq_ok hok]

set_option maxRecDepth 40000 in
set_option maxHeartbeats 2000000 in
/-- Witness for C4 (amended) at a concrete URL with one tracking and one
ordinary parameter. -/
theorem c4_url_canonicalization_witness :
    urlsplitE "https://x.com/a?utm_source=1&b=2#f" =
      .ok ⟨"https".data, "x.com".data, "/a".data, "utm_source=1&b=2".data, "f".data⟩ ∧
    GoodSplit ⟨"https".data, "x.com".data, "/a".data, "utm_source=1&b=2".data, "f".data⟩ ∧
    (canonicalize_url (canonicalize_url "https://x.com/a?utm_source=1&b=2#f") =
        canonicalize_url "https://x.com/a?utm_source=1&b=2#f" ∧
      urlsplitE (canonicalize_url "https://x.com/a?utm_source=1&b=2#f") =
        .ok ⟨"https".data, "x.com".data, "/a".data,
          urlencodeQ ((parse_qsl ("utm_source=1&b=2".data)).filter
            (fun kv => !matchesTracking kv.1)), "f".data⟩ ∧
      parse_qsl (urlencodeQ ((parse_qsl ("utm_source=1&b=2".data)).filter
          (fun kv => !matchesTracking kv.1))) =
        (parse_qsl ("utm_source=1&b=2".data)).filter (fun kv => !matchesTracking kv.1)) :=
  ⟨by decide, by decide,
    c4_url_canonicalization "https://x.com/a?utm_source=1&b=2#f"
      ⟨"https".data, "x.com".data, "/a".data, "utm_source=1&b=2".data, "f".data⟩
      (by decide) (by decide)⟩

/-! ## Claim C2: run determinism up to set-enumeration order -/

/-- Items that agree except possibly in the order of their tags list. -/
def TagEquiv (a b : Item) : Prop := scrubTags a = scrubTags b ∧ a.tags.Perm b.tags

/-- `TagEquiv` is reflexive. -/
theorem tagEquiv_refl (a : Item) : TagEquiv a a := ⟨rfl, List.Perm.refl _⟩

/-- All non-tag fields agree under `TagEquiv`. -/
theorem tagEquiv_fields {a b : Item} (h : TagEquiv a b) :
    a.id = b.id ∧ a.title = b.title ∧ a.link = b.link ∧ a.published = b.published ∧
      a.source_id = b.source_id ∧ a.source = b.source ∧ a.region = b.region ∧
      a.lang = b.lang ∧ a.weight = b.weight ∧ a.summary = b.summary := by
  obtain ⟨hs, _⟩ := h
  have h1 := congrArg Item.id hs
  have h2 := congrArg Item.title hs
  have h3 := congrArg Item.link hs
  have h4 := congrArg Item.published hs
  have h5 := congrArg Item.source_id hs
  have h6 := congrArg Item.source hs
  have h7 := congrArg Item.region hs
  have h8 := congrArg Item.lang hs
  have h9 := congrArg Item.weight hs
  have h10 := congrArg Item.summary hs
  exact ⟨h1, h2, h3, h4, h5, h6, h7, h8, h9, h10⟩

/-- Two valid enumerations of the same set are permutations of each other. -/
theorem setOrder_perm {σ1 σ2 : List String → List String}
    (h1 : IsSetOrder σ1) (h2 : IsSetOrder σ2) (l : List String) :
    (σ1 l).Perm (σ2 l) :=
  (List.perm_ext_iff_of_nodup (h1 l).1 (h2 l).1).mpr
    (fun x => ((h1 l).2 x).trans ((h2 l).2 x).symm)

/-- `List.dedup` is a valid set-enumeration order. -/
theorem isSetOrder_dedup : IsSetOrder (fun l => l.dedup) :=
  fun l => ⟨List.nodup_dedup l, fun _ => List.mem_dedup⟩

/-- Reversed `List.dedup` is also a valid set-enumeration order. -/
theorem isSetOrder_dedupRev : IsSetOrder (fun l => l.dedup.reverse) :=
  fun l => ⟨List.nodup_reverse.mpr (List.nodup_dedup l),
    fun x => by rw [List.mem_reverse]; exact List.mem_dedup⟩

/-- The sitemap feed of the C2 counterexample, carrying one tag so that the
produced items' tag set has two elements. -/
def feedC2 : FeedDef :=
  ⟨"r2", "Reuters B", "http://r2.example.com/sitemap.xml",
   "reuters_news_sitemap_index", "Global", "en", ["World"], 1⟩

/-- Its fetched sitemap data: one child sitemap with one undated article. -/
def dataC2 : ReutersData :=
  ⟨.ok [{ loc := some "http://r2.example.com/s1.xml" }],
   fun _ => .ok [{ loc := some "http://r2.example.com/a1", title := some "Some title" }]⟩

/-- The feed list of the C2 counterexample. -/
def feedsC2 : List (FeedDef × FeedData) := [(feedC2, { reuters := dataC2 })]

set_option maxRecDepth 100000 in
/-- Counterexample to C2 as stated: with a fixed clock and fixed payloads,
two runs whose only difference is the enumeration order of the Python
string set `set(feed.tags + ["Reuters"])` (both orders are valid for the
same set) produce different outputs: the item's tags list differs. -/
theorem c2_counterexample :
    IsSetOrder (fun l => l.dedup) ∧ IsSetOrder (fun l => l.dedup.reverse) ∧
    pipelineRun (fun l => l.dedup) feedsC2 7 40 0 ≠
      pipelineRun (fun l => l.dedup.reverse) feedsC2 7 40 0 := by
  refine ⟨isSetOrder_dedup, isSetOrder_dedupRev, ?_⟩
  with_unfolding_all decide

/-- The relation between the two runs' adapter results: identical errors,
or item lists that agree up to tag order. -/
def ExceptItems (r1 r2 : Except String (List Item)) : Prop :=
  match r1, r2 with
  | .error e1, .error e2 => e1 = e2
  | .ok l1, .ok l2 => List.Forall₂ TagEquiv l1 l2
  | _, _ => False

/-- The item built by the sitemap inner loop for one article. -/
def reutersItem (σ : List String → List String) (feed : FeedDef) (u : SmUrl)
    (link title : String) : Item :=
  { id := sha1 (feed.id ++ "|" ++ link)
    title := pyStripStr title
    link := canonicalize_url (pyStripStr link)
    published := (match etText u.pub with
      | some p => if p ≠ "" then pyDateParse p else none
      | none => none).map isoOfEpoch
    source_id := feed.id
    source := feed.name
    region := feed.region
    lang := feed.lang
    tags := σ (feed.tags ++ ["Reuters"])
    weight := feed.weight
    summary := "" }

/-- Unfolding of the sitemap inner loop on an accepted article. -/
theorem reutersCollect_cons_item {σ : List String → List String} {feed : FeedDef}
    {m : Nat} {u : SmUrl} {link title : String} (rest : List SmUrl) (out : List Item)
    (hl : etText u.loc = some link) (ht : etText u.title = some title)
    (hne : ¬ (link = "" ∨ title = "")) :
    reutersCollect σ feed m (u :: rest) out =
      if m ≤ (out ++ [reutersItem σ feed u link title]).length
      then out ++ [reutersItem σ feed u link title]
      else reutersCollect σ feed m rest (out ++ [reutersItem σ feed u link title]) := by
  simp only [reutersCollect, reutersItem, hl, ht]
  rw [if_neg hne]

/-- The two runs' sitemap items for one article agree up to tag order. -/
theorem reutersItem_equiv {σ1 σ2 : List String → List String}
    (hperm : ∀ l, (σ1 l).Perm (σ2 l)) (feed : FeedDef) (u : SmUrl)
    (link title : String) :
    TagEquiv (reutersItem σ1 feed u link title) (reutersItem σ2 feed u link title) :=
  ⟨rfl, hperm _⟩

/-- The sitemap inner loop preserves agreement up to tag order. -/
theorem reutersCollect_congr {σ1 σ2 : List String → List String}
    (hperm : ∀ l, (σ1 l).Perm (σ2 l)) (feed : FeedDef) (m : Nat) :
    ∀ (urls : List SmUrl) (out1 out2 : List Item),
      List.Forall₂ TagEquiv out1 out2 →
      List.Forall₂ TagEquiv (reutersCollect σ1 feed m urls out1)
        (reutersCollect σ2 feed m urls out2) := by
  intro urls
  induction urls with
  | nil => intro out1 out2 h; exact h
  | cons u rest ih =>
    intro out1 out2 h
    cases hl : etText u.loc with
    | none =>
      simp only [reutersCollect, hl]
      exact ih out1 out2 h
    | some link =>
      cases ht : etText u.title with
      | none =>
        simp only [reutersCollect, hl, ht]
        exact ih out1 out2 h
      | some title =>
        by_cases hb : link = "" ∨ title = ""
        · simp only [reutersCollect, hl, ht]
          rw [if_pos hb, if_pos hb]
          exact ih out1 out2 h
        · rw [reutersCollect_cons_item rest out1 hl ht hb,
            reutersCollect_cons_item rest out2 hl ht hb]
          have happ : List.Forall₂ TagEquiv
              (out1 ++ [reutersItem σ1 feed u link title])
              (out2 ++ [reutersItem σ2 feed u link title]) :=
            List.rel_append h
              (List.Forall₂.cons (reutersItem_equiv hperm feed u link title)
                List.Forall₂.nil)
          have hlen := happ.length_eq
          by_cases hm : m ≤ (out1 ++ [reutersItem σ1 feed u link title]).length
          · rw [if_pos hm, if_pos (by omega)]
            exact happ
          · rw [if_neg hm, if_neg (by omega)]
            exact ih _ _ happ

/-- The sitemap outer loop preserves agreement up to tag order. -/
theorem reutersChildren_congr {σ1 σ2 : List String → List String}
    (hperm : ∀ l, (σ1 l).Perm (σ2 l)) (feed : FeedDef) (d : ReutersData) (m : Nat) :
    ∀ (sms : List (String × Option Int)) (out1 out2 : List Item),
      List.Forall₂ TagEquiv out1 out2 →
      List.Forall₂ TagEquiv (reutersChildren σ1 feed d m sms out1)
        (reutersChildren σ2 feed d m sms out2) := by
  intro sms
  induction sms with
  | nil => intro out1 out2 h; exact h
  | cons p rest ih =>
    intro out1 out2 h
    obtain ⟨loc, lm⟩ := p
    simp only [reutersChildren]
    cases hc : d.child loc with
    | error e => exact ih out1 out2 h
    | ok urls =>
      have hcoll := reutersCollect_congr hperm feed m urls out1 out2 h
      have hlen := hcoll.length_eq
      show List.Forall₂ TagEquiv
        (if m ≤ (reutersCollect σ1 feed m urls out1).length
         then reutersCollect σ1 feed m urls out1
         else reutersChildren σ1 feed d m rest (reutersCollect σ1 feed m urls out1))
        (if m ≤ (reutersCollect σ2 feed m urls out2).length
         then reutersCollect σ2 feed m urls out2
         else reutersChildren σ2 feed d m rest (reutersCollect σ2 feed m urls out2))
      by_cases hm : m ≤ (reutersCollect σ1 feed m urls out1).length
      · rw [if_pos hm, if_pos (by omega)]
        exact hcoll
      · rw [if_neg hm, if_neg (by omega)]
        exact ih _ _ hcoll

/-- The sitemap adapter as a whole relates the two runs. -/
theorem parse_reuters_congr {σ1 σ2 : List String → List String}
    (hperm : ∀ l, (σ1 l).Perm (σ2 l)) (feed : FeedDef) (d : ReutersData) (m : Nat) :
    ExceptItems (parse_reuters σ1 feed d m) (parse_reuters σ2 feed d m) := by
  unfold parse_reuters
  cases hidx : d.indexResult with
  | error e => exact rfl
  | ok refs => exact reutersChildren_congr hperm feed d m _ [] [] List.Forall₂.nil

/-- The adapter dispatch relates the two runs. -/
theorem runFeed_congr {σ1 σ2 : List String → List String}
    (hperm : ∀ l, (σ1 l).Perm (σ2 l)) (m : Nat) (f : FeedDef) (d : FeedData) :
    ExceptItems (runFeed σ1 m f d) (runFeed σ2 m f d) := by
  unfold runFeed
  by_cases h1 : f.type = "rss"
  · rw [if_pos h1, if_pos h1]
    show List.Forall₂ TagEquiv (parse_rss f d.entries m) (parse_rss f d.entries m)
    exact List.forall₂_same.mpr fun x _ => tagEquiv_refl x
  · rw [if_neg h1, if_neg h1]
    by_cases h2 : f.type = "reuters_news_sitemap_index"
    · rw [if_pos h2, if_pos h2]
      exact parse_reuters_congr hperm f d.reuters m
    · rw [if_neg h2, if_neg h2]
      show List.Forall₂ TagEquiv ([] : List Item) []
      exact List.Forall₂.nil

/-- Unfolding of the fetch loop on a successful feed. -/
theorem collectFeeds_cons_ok {σ : List String → List String} {m : Nat} {f : FeedDef}
    {d : FeedData} {l : List Item} (rest : List (FeedDef × FeedData))
    (h : runFeed σ m f d = .ok l) :
    collectFeeds σ m ((f, d) :: rest) =
      (l ++ (collectFeeds σ m rest).1, (collectFeeds σ m rest).2) := by
  simp only [collectFeeds, h]

/-- Unfolding of the fetch loop on a failing feed. -/
theorem collectFeeds_cons_err {σ : List String → List String} {m : Nat} {f : FeedDef}
    {d : FeedData} {e : String} (rest : List (FeedDef × FeedData))
    (h : runFeed σ m f d = .error e) :
    collectFeeds σ m ((f, d) :: rest) =
      ((collectFeeds σ m rest).1, ⟨f.id, f.url, e⟩ :: (collectFeeds σ m rest).2) := by
  simp only [collectFeeds, h]

/-- The fetch loop yields identical failures and item pools that agree up
to tag order. -/
theorem collectFeeds_congr {σ1 σ2 : List String → List String}
    (hperm : ∀ l, (σ1 l).Perm (σ2 l)) (m : Nat) :
    ∀ feeds : List (FeedDef × FeedData),
      List.Forall₂ TagEquiv (collectFeeds σ1 m feeds).1 (collectFeeds σ2 m feeds).1 ∧
      (collectFeeds σ1 m feeds).2 = (collectFeeds σ2 m feeds).2 := by
  intro feeds
  induction feeds with
  | nil => exact ⟨List.Forall₂.nil, rfl⟩
  | cons fd rest ih =>
    obtain ⟨f, d⟩ := fd
    have hr := runFeed_congr hperm m f d
    rcases h1 : runFeed σ1 m f d with e1 | l1 <;> rcases h2 : runFeed σ2 m f d with e2 | l2 <;>
      rw [h1, h2] at hr
    · rw [collectFeeds_cons_err rest h1, collectFeeds_cons_err rest h2]
      have he : e1 = e2 := hr
      subst he
      exact ⟨ih.1, by rw [ih.2]⟩
    · exact (hr : False).elim
    · exact (hr : False).elim
    · rw [collectFeeds_cons_ok rest h1, collectFeeds_cons_ok rest h2]
      have hl : List.Forall₂ TagEquiv l1 l2 := hr
      exact ⟨List.rel_append hl ih.1, ih.2⟩

/-- Filtering with pointwise-agreeing predicates preserves `Forall₂`. -/
theorem forall2_filter_congr {α : Type} {R : α → α → Prop} {p q : α → Bool}
    (hpq : ∀ a b, R a b → p a = q b) :
    ∀ {l1 l2 : List α}, List.Forall₂ R l1 l2 →
      List.Forall₂ R (l1.filter p) (l2.filter q) := by
  intro l1 l2 h
  induction h with
  | nil => exact List.Forall₂.nil
  | @cons a b t1 t2 hab htail ih =>
    rw [List.filter_cons, List.filter_cons, ← hpq a b hab]
    by_cases hp : p a = true
    · rw [if_pos hp, if_pos hp]
      exact List.Forall₂.cons hab ih
    · rw [if_neg hp, if_neg hp]
      exact ih

/-- The age predicate agrees on items that agree up to tag order. -/
theorem keepByAge_congr (d now : Int) {a b : Item} (h : TagEquiv a b) :
    keepByAge d now a = keepByAge d now b := by
  obtain ⟨_, _, _, hp, _⟩ := tagEquiv_fields h
  unfold keepByAge
  rw [hp]

/-- The dedup key agrees on items that agree up to tag order. -/
theorem dkey_congr {a b : Item} (h : TagEquiv a b) : dkey a = dkey b := by
  obtain ⟨_, h2, h3, _⟩ := tagEquiv_fields h
  unfold dkey
  rw [h2, h3]

/-- The dedup loop preserves agreement up to tag order. -/
theorem dedupeGo_congr : ∀ {l1 l2 : List Item}, List.Forall₂ TagEquiv l1 l2 →
    ∀ seen, List.Forall₂ TagEquiv (dedupeGo seen l1) (dedupeGo seen l2) := by
  intro l1 l2 h
  induction h with
  | nil => intro seen; exact List.Forall₂.nil
  | @cons a b t1 t2 hab htail ih =>
    intro seen
    have hk : dkey a = dkey b := dkey_congr hab
    have e1 : ∀ (x : Item) t, dedupeGo seen (x :: t) =
        (if seen.contains (dkey x) then dedupeGo seen t
         else x :: dedupeGo (dkey x :: seen) t) := fun x t => rfl
    rw [e1, e1, hk]
    by_cases hs : seen.contains (dkey b) = true
    · rw [if_pos hs, if_pos hs]
      exact ih seen
    · rw [if_neg hs, if_neg hs]
      exact List.Forall₂.cons hab (ih _)

/-- Stable insertion with pointwise-agreeing precedence preserves
`Forall₂`. -/
theorem insStable_congr {α : Type} {R : α → α → Prop} {prec : α → α → Bool}
    (hp : ∀ a b a' b', R a a' → R b b' → prec a b = prec a' b')
    {x x' : α} (hx : R x x') :
    ∀ {l l' : List α}, List.Forall₂ R l l' →
      List.Forall₂ R (insStable prec x l) (insStable prec x' l') := by
  intro l l' h
  induction h with
  | nil => exact List.Forall₂.cons hx List.Forall₂.nil
  | @cons a b t1 t2 hab htail ih =>
    simp only [insStable]
    rw [← hp x a x' b hx hab]
    by_cases hpa : prec x a = true
    · rw [if_pos hpa, if_pos hpa]
      exact List.Forall₂.cons hx (List.Forall₂.cons hab htail)
    · rw [if_neg hpa, if_neg hpa]
      exact List.Forall₂.cons hab ih

/-- Stable sorting with pointwise-agreeing precedence preserves
`Forall₂`. -/
theorem sortStable_congr {α : Type} {R : α → α → Prop} {prec : α → α → Bool}
    (hp : ∀ a b a' b', R a a' → R b b' → prec a b = prec a' b') :
    ∀ {l l' : List α}, List.Forall₂ R l l' →
      List.Forall₂ R (sortStable prec l) (sortStable prec l') := by
  have key : ∀ {l l' : List α}, List.Forall₂ R l l' →
      ∀ {acc acc' : List α}, List.Forall₂ R acc acc' →
      List.Forall₂ R (l.foldl (fun acc x => insStable prec x acc) acc)
        (l'.foldl (fun acc x => insStable prec x acc) acc') := by
    intro l l' h
    induction h with
    | nil => intro acc acc' ha; exact ha
    | @cons a b t1 t2 hab htail ih =>
      intro acc acc' ha
      rw [List.foldl_cons, List.foldl_cons]
      exact ih (insStable_congr hp hab ha)
  intro l l' h
  exact key h List.Forall₂.nil

/-- The final sort precedence agrees on items that agree up to tag
order. -/
theorem precItem_congr {a b a' b' : Item} (ha : TagEquiv a a') (hb : TagEquiv b b') :
    precItem a b = precItem a' b' := by
  obtain ⟨_, _, _, hpa, _, _, _, _, hwa, _⟩ := tagEquiv_fields ha
  obtain ⟨_, _, _, hpb, _, _, _, _, hwb, _⟩ := tagEquiv_fields hb
  have hka : sortKeyDt a = sortKeyDt a' := by
    unfold sortKeyDt
    rw [hpa]
  have hkb : sortKeyDt b = sortKeyDt b' := by
    unfold sortKeyDt
    rw [hpb]
  unfold precItem
  rw [hka, hkb, hwa, hwb]

/-- `find?` on related lists with pointwise-agreeing predicates either
fails on both or yields related elements. -/
theorem find?_rel {R : Item → Item → Prop} {p q : Item → Bool}
    (hpq : ∀ a b, R a b → p a = q b) :
    ∀ {l1 l2 : List Item}, List.Forall₂ R l1 l2 →
      (l1.find? p = none ∧ l2.find? q = none) ∨
        (∃ a b, R a b ∧ l1.find? p = some a ∧ l2.find? q = some b) := by
  intro l1 l2 h
  induction h with
  | nil => exact Or.inl ⟨rfl, rfl⟩
  | @cons a b t1 t2 hab htail ih =>
    by_cases hp : p a = true
    · have hq : q b = true := by
        rw [← hpq a b hab]
        exact hp
      exact Or.inr ⟨a, b, hab, List.find?_cons_of_pos t1 hp, List.find?_cons_of_pos t2 hq⟩
    · have hq : ¬ q b = true := by
        rw [← hpq a b hab]
        exact hp
      rw [List.find?_cons_of_neg t1 hp, List.find?_cons_of_neg t2 hq]
      exact ih

/-- The published timestamp looked up by id agrees between the two runs. -/
theorem lookupLast_published_congr {l1 l2 : List Item}
    (h : List.Forall₂ TagEquiv l1 l2) (iid : String) :
    (lookupLast l1 iid).bind (fun it => it.published) =
      (lookupLast l2 iid).bind (fun it => it.published) := by
  unfold lookupLast
  have hrev := List.rel_reverse h
  have hpred : ∀ a b : Item, TagEquiv a b →
      (fun it : Item => decide (it.id = iid)) a =
        (fun it : Item => decide (it.id = iid)) b := by
    intro a b hab
    obtain ⟨h1, _⟩ := tagEquiv_fields hab
    simp only [h1]
  rcases find?_rel hpred hrev with ⟨h1, h2⟩ | ⟨a, b, hab, h1, h2⟩
  · rw [h1, h2]
  · rw [h1, h2]
    obtain ⟨_, _, _, hp, _⟩ := tagEquiv_fields hab
    show a.published = b.published
    exact hp

/-- The newest member timestamp agrees between the two runs. -/
theorem newestOf_congr {l1 l2 : List Item} (h : List.Forall₂ TagEquiv l1 l2)
    (ids : List String) : newestOf l1 ids = newestOf l2 ids := by
  unfold newestOf
  have hfun : (fun (acc : Option Int) (iid : String) =>
      match (lookupLast l1 iid).bind (fun it => it.published) with
      | none => acc
      | some p =>
        if p = "" then acc
        else
          match pyDateParse p with
          | none => acc
          | some t =>
            match acc with
            | none => some t
            | some cur => some (max cur t)) =
      (fun (acc : Option Int) (iid : String) =>
        match (lookupLast l2 iid).bind (fun it => it.published) with
        | none => acc
        | some p =>
          if p = "" then acc
          else
            match pyDateParse p with
            | none => acc
            | some t =>
              match acc with
              | none => some t
              | some cur => some (max cur t)) := by
    funext acc iid
    rw [lookupLast_published_congr h iid]
  rw [hfun]

/-- One clustering step agrees between the two runs. -/
theorem assign_congr {a b : Item} (h : TagEquiv a b) (cs : List Cluster) :
    assignGo a (tokenize a.title) cs = assignGo b (tokenize b.title) cs := by
  obtain ⟨hid, hti, _, _, _, hsrc, _, _, hw, _⟩ := tagEquiv_fields h
  have htoks : tokenize a.title = tokenize b.title := by rw [hti]
  induction cs with
  | nil =>
    simp only [assignGo]
    unfold newCluster
    rw [hid, hti]
    rw [hsrc, hw]
  | cons c rest ih =>
    simp only [assignGo]
    by_cases hj : (11 : ℚ) / 20 ≤ jaccard (tokenize a.title) c.tokens
    · rw [if_pos hj, if_pos (by rw [← htoks]; exact hj)]
      unfold updateCluster
      rw [hid, hti]
      rw [hsrc, hw]
    · rw [if_neg hj, if_neg (by rw [← htoks]; exact hj)]
      rw [ih]

/-- The clustering pass agrees between the two runs. -/
theorem buildClusters_congr : ∀ {l1 l2 : List Item},
    List.Forall₂ TagEquiv l1 l2 → buildClusters l1 = buildClusters l2 := by
  have key : ∀ {l1 l2 : List Item}, List.Forall₂ TagEquiv l1 l2 →
      ∀ cs : List Cluster,
      l1.foldl (fun cs it => assignGo it (tokenize it.title) cs) cs =
        l2.foldl (fun cs it => assignGo it (tokenize it.title) cs) cs := by
    intro l1 l2 h
    induction h with
    | nil => intro cs; rfl
    | @cons a b t1 t2 hab htail ih =>
      intro cs
      rw [List.foldl_cons, List.foldl_cons, assign_congr hab]
      exact ih _
  intro l1 l2 h
  exact key h []

/-- Cluster scores agree between the two runs. -/
theorem cluster_score_congr {l1 l2 : List Item} (h : List.Forall₂ TagEquiv l1 l2)
    (now : Int) (c : Cluster) : cluster_score l1 now c = cluster_score l2 now c := by
  unfold cluster_score clusterRecency
  rw [newestOf_congr h c.items]

/-- The emitted topics agree between the two runs. -/
theorem build_topics_congr {l1 l2 : List Item} (h : List.Forall₂ TagEquiv l1 l2)
    (k : Nat) (now : Int) : build_topics l1 k now = build_topics l2 k now := by
  unfold build_topics
  rw [buildClusters_congr h]
  have hfun : (fun c : Cluster => (c, cluster_score l1 now c)) =
      (fun c : Cluster => (c, cluster_score l2 now c)) := by
    funext c
    rw [cluster_score_congr h now c]
  rw [hfun]

/-- **C2 (amended)**: for a fixed clock and fixed fetched payloads, two
runs of the pipeline differing only in the enumeration order of Python
string sets (both orders valid) produce the same ordered topic list, the
same failure list, and item lists that agree position by position in every
field except that each item's tags list may be permuted. (Exact equality,
including tag order, is refuted by `c2_counterexample`.) -/
theorem c2_run_determinism (σ1 σ2 : List String → List String)
    (h1 : IsSetOrder σ1) (h2 : IsSetOrder σ2)
    (feeds : List (FeedDef × FeedData)) (max_age_days : Int)
    (max_items_per_feed : Nat) (now : Int) :
    List.Forall₂ TagEquiv (pipelineRun σ1 feeds max_age_days max_items_per_feed now).1
      (pipelineRun σ2 feeds max_age_days max_items_per_feed now).1 ∧
    (pipelineRun σ1 feeds max_age_days max_items_per_feed now).2.1 =
      (pipelineRun σ2 feeds max_age_days max_items_per_feed now).2.1 ∧
    (pipelineRun σ1 feeds max_age_days max_items_per_feed now).2.2 =
      (pipelineRun σ2 feeds max_age_days max_items_per_feed now).2.2 := by
  have hperm := setOrder_perm h1 h2
  have hcf := collectFeeds_congr hperm max_items_per_feed feeds
  have hfl : List.Forall₂ TagEquiv
      (filter_by_age (collectFeeds σ1 max_items_per_feed feeds).1 max_age_days now)
      (filter_by_age (collectFeeds σ2 max_items_per_feed feeds).1 max_age_days now) :=
    forall2_filter_congr (fun a b hab => keepByAge_congr max_age_days now hab) hcf.1
  have hdd : List.Forall₂ TagEquiv
      (dedupe (filter_by_age (collectFeeds σ1 max_items_per_feed feeds).1 max_age_days now))
      (dedupe (filter_by_age (collectFeeds σ2 max_items_per_feed feeds).1
        max_age_days now)) :=
    dedupeGo_congr hfl []
  have hprec : ∀ a b a' b' : Item, TagEquiv a a' → TagEquiv b b' →
      precItem a b = precItem a' b' :=
    fun _ _ _ _ ha hb => precItem_congr ha hb
  have hst := sortStable_congr hprec hdd
  exact ⟨hst, build_topics_congr hst 10 now, hcf.2⟩

/-- Witness for C2: two concrete valid enumeration orders on the concrete
one-feed input. -/
theorem c2_run_determinism_witness :
    IsSetOrder (fun l => l.dedup) ∧ IsSetOrder (fun l => l.dedup.reverse) ∧
    (List.Forall₂ TagEquiv
        (pipelineRun (fun l => l.dedup) feedsC2 7 40 0).1
        (pipelineRun (fun l => l.dedup.reverse) feedsC2 7 40 0).1 ∧
      (pipelineRun (fun l => l.dedup) feedsC2 7 40 0).2.1 =
        (pipelineRun (fun l => l.dedup.reverse) feedsC2 7 40 0).2.1 ∧
      (pipelineRun (fun l => l.dedup) feedsC2 7 40 0).2.2 =
        (pipelineRun (fun l => l.dedup.reverse) feedsC2 7 40 0).2.2) :=
  ⟨isSetOrder_dedup, isSetOrder_dedupRev,
    c2_run_determinism _ _ isSetOrder_dedup isSetOrder_dedupRev feedsC2 7 40 0⟩

end NewsHub
